import Mathlib

/-!
Verification of the stabilizer-state measurement and probability engine
(`qiskit/quantum_info/states/stabilizerstate.py`).

The tableau is embedded as a list of rows, each holding x-bits, z-bits and a
sign bit; rows `0..n-1` are destabilizers and rows `n..2n-1` are stabilizers,
exactly as in the source.  Machine integers are `Nat`/`Int`, probabilities are
exact rationals (the source uses floats, but every probability produced by the
engine is dyadic, so rationals embed the arithmetic exactly), and fallible code
returns `Except String`.
-/

namespace QiskitStab

/-- One tableau row: x-bit vector, z-bit vector and the sign bit, as stored in
the Clifford tableau of the source (`clifford.x[i]`, `clifford.z[i]`,
`clifford.phase[i]`). -/
structure CliffordRow where
  x : List Bool
  z : List Bool
  phase : Bool
  deriving DecidableEq, Repr

/-- The Clifford tableau backing a `StabilizerState`: `2 * num_qubits` rows,
destabilizers first, then stabilizers. -/
structure Clifford where
  num_qubits : Nat
  rows : List CliffordRow
  deriving DecidableEq, Repr

/-- Row access, `clifford.destab[i]` for `i < n` and `clifford.stab[i - n]`
for `n ≤ i < 2 n`. -/
def Clifford.row (c : Clifford) (i : Nat) : CliffordRow :=
  c.rows.getD i ⟨[], [], false⟩

/-- Bit access `clifford.x[i][q]`. -/
def Clifford.xbit (c : Clifford) (i q : Nat) : Bool :=
  ((c.row i).x).getD q false

/-- Bit access `clifford.z[i][q]`. -/
def Clifford.zbit (c : Clifford) (i q : Nat) : Bool :=
  ((c.row i).z).getD q false

/-- Sign access `clifford.phase[i]`. -/
def Clifford.phaseBit (c : Clifford) (i : Nat) : Bool :=
  (c.row i).phase

/-- Column access `clifford.stab_x[p][q]` (stabilizer block). -/
def Clifford.stabX (c : Clifford) (p q : Nat) : Bool :=
  c.xbit (c.num_qubits + p) q

/-- Transient signed Pauli used as accumulator (`aux_pauli` in the source);
its phase is the group phase read and written through `Pauli.phase`, which
round-trips because the x/z bits are never changed between a write and the
following read. -/
structure PauliAcc where
  x : List Bool
  z : List Bool
  phase : Nat
  deriving DecidableEq, Repr

/-- Source helper `StabilizerState._phase_exponent(x1, z1, x2, z2)`: the
exponent g of i with `Pauli(x1,z1) * Pauli(x2,z2) = i^g Pauli(x1+x2,z1+z2)`,
computed as in the source and rejected with a `QiskitError` when the
normalized value is 2. -/
def _phase_exponent (x1 z1 x2 z2 : Bool) : Except String Nat :=
  let X1 : Int := if x1 then 1 else 0
  let Z1 : Int := if z1 then 1 else 0
  let X2 : Int := if x2 then 1 else 0
  let Z2 : Int := if z2 then 1 else 0
  let phase : Int := (X2 * Z1 * (1 + 2 * Z2 + 2 * X1) - X1 * Z2 * (1 + 2 * Z1 + 2 * X2)) % 4
  let phase : Int := if phase < 0 then phase + 4 else phase
  if phase = 2 then Except.error "Invalid rowsum phase exponent in measurement calculation."
  else Except.ok phase.toNat

/-- Total value of the phase exponent (the source function never reaches its
error branch on bit-valued inputs; proved in the C8 theorem). -/
def phaseExponentVal (x1 z1 x2 z2 : Bool) : Nat :=
  let X1 : Int := if x1 then 1 else 0
  let Z1 : Int := if z1 then 1 else 0
  let X2 : Int := if x2 then 1 else 0
  let Z2 : Int := if z2 then 1 else 0
  let phase : Int := (X2 * Z1 * (1 + 2 * Z2 + 2 * X1) - X1 * Z2 * (1 + 2 * Z1 + 2 * X2)) % 4
  let phase : Int := if phase < 0 then phase + 4 else phase
  phase.toNat

/-- The per-qubit phase exponent loop of `StabilizerState._rowsum`, summing
`_phase_exponent(row.x[q], row.z[q], accum.x[q], accum.z[q])` over
`q < n`. -/
def rowsumPhaseSum (rx rz ax az : List Bool) (n : Nat) : Except String Nat :=
  (List.range n).foldlM
    (fun acc q => do
      let g ← _phase_exponent (rx.getD q false) (rz.getD q false) (ax.getD q false) (az.getD q false)
      pure (acc + g)) 0

/-- Source helper `StabilizerState._rowsum(accum_pauli, accum_phase,
row_pauli, row_phase)`: Aaronson-Gottesman rowsum.  Inputs are the x/z bit
vectors and the 0/1 phases; the result is the updated accumulator bits and
phase. -/
def _rowsum (ax az : List Bool) (accum_phase : Nat) (rx rz : List Bool) (row_phase : Nat) :
    Except String (List Bool × List Bool × Nat) := do
  let s ← rowsumPhaseSum rx rz ax az rx.length
  let newr := (2 * row_phase + 2 * accum_phase + s) % 4
  if newr ≠ 0 ∧ newr ≠ 2 then
    Except.error "Invalid rowsum in measurement calculation."
  else
    pure (List.zipWith xor ax rx, List.zipWith xor az rz, if newr = 2 then 1 else 0)

/-- Claim-side restatement of the accumulated rowsum phase: `newr` is
`2 * rowPhase + 2 * accumPhase` plus the sum over all qubit positions of the
per-qubit phase exponents, reduced mod 4. -/
def rowsumNewrSpec (ax az : List Bool) (accum_phase : Nat) (rx rz : List Bool) (row_phase : Nat) :
    Nat :=
  (2 * row_phase + 2 * accum_phase +
    ((List.range rx.length).map
      (fun q => phaseExponentVal (rx.getD q false) (rz.getD q false)
        (ax.getD q false) (az.getD q false))).sum) % 4

/-- The identity accumulator `Pauli(num_qubits * "I")`. -/
def identityAcc (n : Nat) : PauliAcc :=
  ⟨List.replicate n false, List.replicate n false, 0⟩

/-- Source helper `StabilizerState._rowsum_deterministic(clifford, aux_pauli,
row)`: rowsum a tableau row into the transient accumulator; the tableau is
not modified. -/
def _rowsum_deterministic (c : Clifford) (aux : PauliAcc) (row : Nat) : Except String PauliAcc := do
  let r ← _rowsum aux.x aux.z aux.phase (c.row row).x (c.row row).z
    (if c.phaseBit row then 1 else 0)
  pure ⟨r.1, r.2.1, r.2.2⟩

/-- Source helper `StabilizerState._rowsum_nondeterministic(clifford, accum,
row)`: rowsum tableau row `row` into tableau row `accum`, updating the
tableau in place. -/
def _rowsum_nondeterministic (c : Clifford) (accum row : Nat) : Except String Clifford := do
  let r ← _rowsum (c.row accum).x (c.row accum).z (if c.phaseBit accum then 1 else 0)
    (c.row row).x (c.row row).z (if c.phaseBit row then 1 else 0)
  pure { c with rows := c.rows.set accum ⟨r.1, r.2.1, r.2.2 != 0⟩ }

/-- The test `np.any(stab_x[:, qubit])` of `_measure_and_update`: does some
stabilizer row anticommute with `Z[qubit]`? -/
def zAnticommuting (c : Clifford) (qubit : Nat) : Bool :=
  (List.range c.num_qubits).any (fun p => c.stabX p qubit)

/-- Source helper `StabilizerState._is_qubit_deterministic(ret, qubit)`. -/
def _is_qubit_deterministic (c : Clifford) (qubit : Nat) : Bool :=
  !(List.range c.num_qubits).any (fun p => c.stabX p qubit)

/-- The deterministic-outcome accumulation loop of `_measure_and_update`:
starting from the identity accumulator, rowsum stabilizer row `i + n` for
every destabilizer row `i` whose x-bit at `qubit` is set. -/
def detAux (c : Clifford) (qubit : Nat) : Except String PauliAcc :=
  (List.range c.num_qubits).foldlM
    (fun aux i =>
      if c.xbit i qubit then _rowsum_deterministic c aux (i + c.num_qubits)
      else pure aux)
    (identityAcc c.num_qubits)

/-- The pivot `p_qubit = np.min(np.nonzero(stab_x[:, qubit])) + num_qubits`
of the non-deterministic measurement path. -/
def pivotIndex (c : Clifford) (qubit : Nat) : Nat :=
  ((List.range c.num_qubits).filter (fun p => c.stabX p qubit)).headD 0 + c.num_qubits

/-- The elimination loop of the non-deterministic measurement path: rowsum
the pivot row into every other row (excluding the pivot and its paired
destabilizer) whose x-bit at `qubit` is set. -/
def nondetLoop (c : Clifford) (qubit p : Nat) : Except String Clifford :=
  (List.range (2 * c.num_qubits)).foldlM
    (fun c2 i =>
      if c2.xbit i qubit ∧ i ≠ p ∧ i ≠ p - c.num_qubits then _rowsum_nondeterministic c2 i p
      else pure c2)
    c

/-- The reset pivot row written by the non-deterministic measurement path:
all bits clear except the z-bit of the measured qubit, with the outcome bit
as phase. -/
def zRow (n qubit randbit : Nat) : CliffordRow :=
  ⟨List.replicate n false, (List.replicate n false).set qubit true, randbit != 0⟩

/-- The post-loop assignments of the non-deterministic measurement path:
copy the pivot stabilizer row into its paired destabilizer slot, then zero
the pivot row, set its z-bit at the measured qubit and its phase to the
outcome bit. -/
def afterPivot (c1 : Clifford) (qubit p n randbit : Nat) : Clifford :=
  ⟨c1.num_qubits, (c1.rows.set (p - n) (c1.row p)).set p (zRow n qubit randbit)⟩

/-- Source method `StabilizerState._measure_and_update(qubit, randbit)`:
measure a single qubit, returning the outcome together with the
post-measurement tableau (the source mutates in place). -/
def _measure_and_update (c : Clifford) (qubit randbit : Nat) : Except String (Nat × Clifford) :=
  if zAnticommuting c qubit = false then do
    let aux ← detAux c qubit
    pure (aux.phase, c)
  else do
    let c1 ← nondetLoop c qubit (pivotIndex c qubit)
    pure (randbit, afterPivot c1 qubit (pivotIndex c qubit) c.num_qubits randbit)

/-- Claim-side deterministic outcome: rowsum-accumulate, from an identity
accumulator, the stabilizer row paired with every destabilizer row whose
x-bit at `qubit` is set; the outcome is the final accumulator phase. -/
def detOutcomeSpec (c : Clifford) (qubit : Nat) : Except String Nat := do
  let aux ← ((List.range c.num_qubits).filter (fun i => c.xbit i qubit)).foldlM
    (fun aux i => _rowsum_deterministic c aux (i + c.num_qubits))
    (identityAcc c.num_qubits)
  pure aux.phase

/-- Claim-side per-row rowsum: combine tableau row `target` with tableau row
`source` by the rowsum rule. -/
def rowsumRowsSpec (target source : CliffordRow) : Except String CliffordRow := do
  let r ← _rowsum target.x target.z (if target.phase then 1 else 0)
    source.x source.z (if source.phase then 1 else 0)
  pure ⟨r.1, r.2.1, r.2.2 != 0⟩

/-- The one-qubit ground state: destabilizer `X`, stabilizer `Z`. -/
def cGround1 : Clifford :=
  ⟨1, [⟨[true], [false], false⟩, ⟨[false], [true], false⟩]⟩

/-- The one-qubit plus state `H|0>`: destabilizer `Z`, stabilizer `X`. -/
def cPlus1 : Clifford :=
  ⟨1, [⟨[false], [true], false⟩, ⟨[true], [false], false⟩]⟩

/-- The tableau obtained by measuring qubit 0 of the plus state with random
bit 1: destabilizer `X`, stabilizer `-Z`. -/
def cPlus1After : Clifford :=
  ⟨1, [⟨[true], [false], false⟩, ⟨[false], [true], true⟩]⟩

/-- A Gaussian-integer complex value; enough to represent the expectation
values 0, 1, -1, i, -i produced by the source. -/
structure Cplx where
  re : Int
  im : Int
  deriving DecidableEq, Repr

/-- Negation of a complex value. -/
def Cplx.neg (a : Cplx) : Cplx := ⟨-a.re, -a.im⟩

/-- The power `(-1j) ** k` of the Python complex unit `-1j`. -/
def negIPow (k : Nat) : Cplx :=
  match k % 4 with
  | 0 => ⟨1, 0⟩
  | 1 => ⟨0, -1⟩
  | 2 => ⟨-1, 0⟩
  | _ => ⟨0, 1⟩

/-- The initial factor `(-1j) ** oper.phase if oper.phase else 1` of
`expectation_value`. -/
def pauliPhaseFactor (k : Nat) : Cplx :=
  if k ≠ 0 then negIPow k else ⟨1, 0⟩

/-- The operator-embedding loop of `expectation_value`: place the operator
components at the subsystem positions (reading the just-written bits back)
and accumulate the initial phase contribution from positions where both
bits are set. -/
def embedPauli (n : Nat) (oper : PauliAcc) (qubits : List Nat) :
    List Bool × List Bool × Nat :=
  qubits.enum.foldl
    (fun st pq =>
      let x1 := st.1.set pq.2 (oper.x.getD pq.1 false)
      let z1 := st.2.1.set pq.2 (oper.z.getD pq.1 false)
      (x1, z1, st.2.2 + ((x1.getD pq.2 false) && (z1.getD pq.2 false)).toNat))
    (List.replicate n false, List.replicate n false, 0)

/-- The anticommutation count of the embedded Pauli with one tableau row:
`count_nonzero(pauli.z & row.x) + count_nonzero(pauli.x & row.z)`. -/
def antiCount (px pz : List Bool) (row : CliffordRow) : Nat :=
  (List.zipWith and pz row.x).count true + (List.zipWith and px row.z).count true

/-- The zero-check loop of `expectation_value`: does some stabilizer row
anticommute with the embedded Pauli in an odd number of components? -/
def evZeroCheck (c : Clifford) (px pz : List Bool) : Bool :=
  (List.range c.num_qubits).any
    (fun p => antiCount px pz (c.row (c.num_qubits + p)) % 2 == 1)

/-- The stabilizer-multiplication loop of `expectation_value`: for every
destabilizer row that anticommutes oddly with the embedded Pauli, accumulate
the stabilizer phase, its Y-count and the cross term with the working
z-bitset, then XOR the stabilizer z-row into the working z-bitset. -/
def evLoop (c : Clifford) (px pz : List Bool) (phase0 : Nat) : Nat × List Bool :=
  (List.range c.num_qubits).foldl
    (fun st p =>
      if antiCount px pz (c.row p) % 2 = 0 then st
      else
        (st.1 + 2 * (if (c.row (c.num_qubits + p)).phase then 1 else 0)
          + (List.zipWith and (c.row (c.num_qubits + p)).z (c.row (c.num_qubits + p)).x).count true
          + 2 * (List.zipWith and st.2 (c.row (c.num_qubits + p)).x).count true,
         List.zipWith xor st.2 (c.row (c.num_qubits + p)).z))
    (phase0, pz)

/-- Source method `StabilizerState.expectation_value(oper, qargs)`.  The
operator argument is already a Pauli, so the non-Pauli guard of the source
cannot fire; the Python IndexError on a subsystem list longer than the
operator is not modelled (out-of-range reads yield clear bits), and no claim
depends on that path. -/
def expectation_value (c : Clifford) (oper : PauliAcc) (qargs : Option (List Nat)) : Cplx :=
  if evZeroCheck c
      (embedPauli c.num_qubits oper (qargs.getD (List.range c.num_qubits))).1
      (embedPauli c.num_qubits oper (qargs.getD (List.range c.num_qubits))).2.1 then
    ⟨0, 0⟩
  else
    if (evLoop c
        (embedPauli c.num_qubits oper (qargs.getD (List.range c.num_qubits))).1
        (embedPauli c.num_qubits oper (qargs.getD (List.range c.num_qubits))).2.1
        (embedPauli c.num_qubits oper (qargs.getD (List.range c.num_qubits))).2.2).1 % 4 ≠ 0 then
      Cplx.neg (pauliPhaseFactor oper.phase)
    else
      pauliPhaseFactor oper.phase

/-- Modelled from the spec: the tableau composition collaborator
(`Clifford.compose`) is not part of the source tree; the spec's error
taxonomy specifies a DimensionMismatchError when the subsystem argument
length disagrees with the operator dimension on `evolve` (and, without a
subsystem argument, when the operator and state dimensions disagree).  Only
this validation is modelled; the composed tableau itself is an out-of-scope
collaborator. -/
def composeCheck (c other : Clifford) (qargs : Option (List Nat)) : Except String Unit :=
  match qargs with
  | none =>
      if other.num_qubits ≠ c.num_qubits then
        Except.error "Incompatible dimensions for operator composition."
      else Except.ok ()
  | some l =>
      if other.num_qubits ≠ l.length then
        Except.error "Incompatible dimensions for operator composition."
      else Except.ok ()

/-- Source method `StabilizerState.evolve(other, qargs)`: delegates to
`self.clifford.compose(other.clifford, qargs)`; embedded as the
spec-modelled dimension validation of that collaborator. -/
def evolve (c other : Clifford) (qargs : Option (List Nat)) : Except String Unit :=
  composeCheck c other qargs

/-- The Bell state `|00> + |11>`: destabilizers `ZI`, `IX` (low qubit
first in the bit lists), stabilizers `XX`, `ZZ`. -/
def cBell : Clifford :=
  ⟨2, [⟨[false, false], [true, false], false⟩,
       ⟨[false, true], [false, false], false⟩,
       ⟨[true, true], [false, false], false⟩,
       ⟨[false, false], [true, true], false⟩]⟩

/-- The two-qubit Pauli operator `XX` with trivial group phase. -/
def opXX : PauliAcc := ⟨[true, true], [false, false], 0⟩

/-- Python dict update `d[k] = v`: replace the value when the key exists,
append the pair otherwise (insertion order preserved). -/
def dictSet {α : Type} (ps : List (String × α)) (k : String) (v : α) : List (String × α) :=
  if ps.any (fun p => p.1 == k) then ps.map (fun p => if p.1 == k then (k, v) else p)
  else ps ++ [(k, v)]

/-- Python dict lookup. -/
def dictFind {α : Type} (ps : List (String × α)) (k : String) : Option α :=
  (ps.find? (fun p => p.1 == k)).map Prod.snd

/-- Python `int(c)` on a digit character. -/
def charDigit (c : Char) : Nat := c.toNat - 48

/-- Python `str(b)` on the 0/1 bit values produced by measurement (also the
truthiness form `"1" if b else "0"` used by the branch loop). -/
def digitChar (b : Nat) : Char := if b != 0 then '1' else '0'

/-- Source helper `StabilizerState._branches_to_measure(qubit_for_branching,
target)`: both branches without a target, the single branch required by the
target otherwise. -/
def _branches_to_measure (qubit_for_branching : Nat) (target : Option (List Char)) : List Nat :=
  match target with
  | none => [0, 1]
  | some t => [charDigit (t.getD qubit_for_branching '0')]

/-- Source helper `StabilizerState.retrieve_deterministic_probability(index,
qubit, outcome, ret, outcome_prob, target)`: resolve a deterministic
position by measuring with a fixed supplied bit of 0; with an active target
a disagreeing resolved bit writes the target bit into the outcome and
collapses the probability to 0.  Returns the updated outcome, state and
probability (the source mutates the first two in place). -/
def retrieve_deterministic_probability (index qubit : Nat) (outcome : List Char)
    (ret : Clifford) (outcome_prob : ℚ) (target : Option (List Char)) :
    Except String (List Char × Clifford × ℚ) := do
  let r ← _measure_and_update ret qubit 0
  match target with
  | some t =>
      if charDigit (t.getD index '0') = r.1 then
        pure (outcome.set index (digitChar r.1), r.2, outcome_prob)
      else
        pure (outcome.set index (digitChar (charDigit (t.getD index '0'))), r.2, 0)
  | none =>
      pure (outcome.set index (if r.1 != 0 then '1' else '0'), r.2, outcome_prob)

/-- One position of the per-node resolution scan of `_get_probabilities`
(lines 833-844): resolve a still-undetermined deterministic position via
`retrieve_deterministic_probability`, remember a position whose qubit is
non-deterministic as the branch point, skip anything already resolved. -/
def scanStep (qubits : List Nat) (target : Option (List Char)) :
    List Char × Clifford × ℚ × Option Nat → Nat →
    Except String (List Char × Clifford × ℚ × Option Nat)
  | (o, c, q, b), i =>
    if o.getD i ' ' = 'X' then
      if _is_qubit_deterministic c (qubits.getD (qubits.length - i - 1) 0) then do
        let r ← retrieve_deterministic_probability i
          (qubits.getD (qubits.length - i - 1) 0) o c q target
        pure (r.1, r.2.1, r.2.2, b)
      else
        pure (o, c, q, some i)
    else pure (o, c, q, b)

/-- The per-node resolution scan of `_get_probabilities` (lines 831-844):
walk every position, resolve still-undetermined deterministic positions via
`retrieve_deterministic_probability`, and remember the (last) position whose
qubit is non-deterministic as the branch point.  Skipped entirely when the
outcome holds no undetermined symbol. -/
def resolveScan (qubits : List Nat) (outcome : List Char) (ret : Clifford)
    (outcome_prob : ℚ) (target : Option (List Char)) :
    Except String (List Char × Clifford × ℚ × Option Nat) :=
  if outcome.contains 'X' then
    (List.range qubits.length).foldlM (scanStep qubits target)
      (outcome, ret, outcome_prob, none)
  else pure (outcome, ret, outcome_prob, none)

/-- A partial-outcome pattern: at least one undetermined and one resolved
position (spec: only such keys are cached, never the all-X root nor fully
resolved leaves). -/
def isPartialOutcome (o : List Char) : Bool :=
  o.contains 'X' && o.any (fun c => c != 'X')

/-- Modelled from the spec: the branch cache (`ProbabilityCache`, imported
from `qiskit.quantum_info.states.probabilitycache`, which is not part of the
source tree).  Entries are keyed by partial-outcome pattern strings; one
store holds partial accumulated probabilities, the other snapshotted
tableaux. -/
structure ProbabilityCache where
  outcomes : List (String × ℚ)
  states : List (String × Clifford)
  deriving Repr

/-- Modelled from the spec: write a partial accumulated probability; only
partial keys are stored. -/
def ProbabilityCache.insert_outcome (cache : ProbabilityCache) (o : List Char) (q : ℚ) :
    ProbabilityCache :=
  if isPartialOutcome o then ⟨dictSet cache.outcomes (String.mk o) q, cache.states⟩ else cache

/-- Modelled from the spec: snapshot a tableau at a prefix; only partial
keys are stored. -/
def ProbabilityCache.insert_state (cache : ProbabilityCache) (o : List Char) (s : Clifford) :
    ProbabilityCache :=
  if isPartialOutcome o then ⟨cache.outcomes, dictSet cache.states (String.mk o) s⟩ else cache

/-- Modelled from the spec: is a tableau snapshotted at this pattern? -/
def ProbabilityCache.is_state_in_stabilizer_cache (cache : ProbabilityCache)
    (o : List Char) : Bool :=
  (dictFind cache.states (String.mk o)).isSome

/-- Modelled from the spec: the snapshotted tableau at a pattern (callers
check presence first). -/
def ProbabilityCache.retrieve_state (cache : ProbabilityCache) (o : List Char) : Clifford :=
  (dictFind cache.states (String.mk o)).getD ⟨0, []⟩

/-- Modelled from the spec: the partial accumulated probability at a cached
key (callers obtain the key from the lookup below). -/
def ProbabilityCache.retrieve_outcome (cache : ProbabilityCache) (k : String) : ℚ :=
  (dictFind cache.outcomes k).getD 0

/-- The resumption candidate pattern at a given level: undetermined up to
`level`, the target bits from `level` on. -/
def candidateKey (t : List Char) (level : Nat) : List Char :=
  List.replicate level 'X' ++ t.drop level

/-- Modelled from the spec: search previously-cached prefixes of the form
`"X" * level + target[level:]`, deepest/most-specific (smallest level)
first; a key qualifies when both its partial probability and its snapshot
state are cached, so the resumption has both components available. -/
def ProbabilityCache.retreive_key_for_most_completed_branch_to_target
    (cache : ProbabilityCache) (t : List Char) : Option (List Char) :=
  ((List.range' 1 (t.length - 1)).find?
    (fun level =>
      (dictFind cache.outcomes (String.mk (candidateKey t level))).isSome &&
      (dictFind cache.states (String.mk (candidateKey t level))).isSome)).map
    (candidateKey t)

/-- The node-entry cache consultation of `_get_probabilities` (lines
815-823): with a target and a cache, either resume from the snapshotted
tableau or snapshot the current one; otherwise pass the tableau through. -/
def cacheEntry (self : Clifford) (outcome : List Char) (target : Option (List Char))
    (cache : Option ProbabilityCache) : Clifford × Option ProbabilityCache :=
  match target, cache with
  | some _, some ca =>
      if ca.is_state_in_stabilizer_cache outcome then (ca.retrieve_state outcome, some ca)
      else (self, some (ca.insert_state outcome self))
  | _, ca => (self, ca)

/-- The post-scan cache write of `_get_probabilities` (lines 845-846): with
a target and a cache, record the scanned pattern's accumulated
probability. -/
def cacheScan (target : Option (List Char)) (cache : Option ProbabilityCache)
    (o1 : List Char) (q1 : ℚ) : Option ProbabilityCache :=
  match target, cache with
  | some _, some ca => some (ca.insert_outcome o1 q1)
  | _, ca => ca

/-- Source recursion `StabilizerState._get_probabilities(qubits, outcome,
outcome_prob, probs, target, cache)`.  The recursion consumes explicit fuel;
every entry call supplies more fuel than undetermined positions, so the
exhaustion branch is unreachable (proved for the claims below).  Caching is
consulted only when both a target and a cache object are present, mirroring
line 817. -/
def _get_probabilities (fuel : Nat) (self : Clifford) (qubits : List Nat) (outcome : List Char)
    (outcome_prob : ℚ) (probs : List (String × ℚ)) (target : Option (List Char))
    (cache : Option ProbabilityCache) :
    Except String (List (String × ℚ) × Option ProbabilityCache) :=
  match fuel with
  | 0 => Except.error "recursion fuel exhausted"
  | fuel + 1 => do
    let r ← resolveScan qubits outcome (cacheEntry self outcome target cache).1
      outcome_prob target
    match r.2.2.2 with
    | none => pure (dictSet probs (String.mk r.1) r.2.2.1,
        cacheScan target (cacheEntry self outcome target cache).2 r.1 r.2.2.1)
    | some b =>
        (_branches_to_measure b target).foldlM
          (fun (st : List (String × ℚ) × Option ProbabilityCache) bit => do
            let m ← _measure_and_update r.2.1 (qubits.getD (qubits.length - b - 1) 0) bit
            _get_probabilities fuel m.2 qubits (r.1.set b (if bit != 0 then '1' else '0'))
              ((1 / 2 : ℚ) * r.2.2.1) st.1 target st.2)
          (probs, cacheScan target (cacheEntry self outcome target cache).2 r.1 r.2.2.1)

/-- The target argument of `probabilities_dict_from_bitstrings`: absent, a
single string, or a list of strings. -/
inductive TargetArg where
  | noTarget : TargetArg
  | one : List Char → TargetArg
  | many : List (List Char) → TargetArg

/-- The target normalization at the top of
`probabilities_dict_from_bitstrings` (lines 434-437). -/
def normalizeTargets : TargetArg → List (Option (List Char))
  | TargetArg.noTarget => [none]
  | TargetArg.one t => [some t]
  | TargetArg.many l => l.map some

/-- Line 443: after normalization the target list is never `None`, so
caching is effectively enabled exactly when more than one target was
requested and the caller asked for it. -/
def effectiveUseCaching (target : TargetArg) (use_caching : Bool) : Bool :=
  decide ((normalizeTargets target).length > 1) && use_caching

/-- Python `round(q, d)`: round half to even at `d` decimal digits. -/
def roundDec (q : ℚ) (d : Int) : ℚ :=
  ((if q * (10 : ℚ) ^ d - (⌊q * (10 : ℚ) ^ d⌋ : ℚ) < 1 / 2 then ⌊q * (10 : ℚ) ^ d⌋
    else if (1 / 2 : ℚ) < q * (10 : ℚ) ^ d - (⌊q * (10 : ℚ) ^ d⌋ : ℚ) then ⌊q * (10 : ℚ) ^ d⌋ + 1
    else if ⌊q * (10 : ℚ) ^ d⌋ % 2 = 0 then ⌊q * (10 : ℚ) ^ d⌋ else ⌊q * (10 : ℚ) ^ d⌋ + 1) : ℚ)
    / (10 : ℚ) ^ d

/-- Source helper `StabilizerState._round_decimals(probs, decimals)`. -/
def _round_decimals (probs : List (String × ℚ)) (decimals : Option Int) :
    List (String × ℚ) :=
  match decimals with
  | none => probs
  | some d => probs.map (fun p => (p.1, roundDec p.2 d))

/-- One iteration of the per-target loop of
`probabilities_dict_from_bitstrings` (lines 444-468): with caching active,
resume from the most completed cached branch to the target when one exists;
otherwise enumerate from the all-undetermined root with probability 1. -/
def targetIteration (self : Clifford) (qubits : List Nat) :
    List (String × ℚ) × Option ProbabilityCache → Option (List Char) →
    Except String (List (String × ℚ) × Option ProbabilityCache)
  | (probs, some ca), some t =>
      match ca.retreive_key_for_most_completed_branch_to_target t with
      | some key =>
          _get_probabilities (qubits.length + 1) self qubits key
            (ca.retrieve_outcome (String.mk key)) probs (some t) (some ca)
      | none =>
          _get_probabilities (qubits.length + 1) self qubits
            (List.replicate qubits.length 'X') 1 probs (some t) (some ca)
  | (probs, cacheOpt), item_target =>
      _get_probabilities (qubits.length + 1) self qubits
        (List.replicate qubits.length 'X') 1 probs item_target cacheOpt

/-- Source method `StabilizerState.probabilities_dict_from_bitstrings(qargs,
decimals, target, use_caching)`. -/
def probabilities_dict_from_bitstrings (self : Clifford) (qargs : Option (List Nat))
    (decimals : Option Int) (target : TargetArg) (use_caching : Bool) :
    Except String (List (String × ℚ)) := do
  let qubits := qargs.getD (List.range self.num_qubits)
  let r ← (normalizeTargets target).foldlM (targetIteration self qubits)
    ([], if effectiveUseCaching target use_caching then some ⟨[], []⟩ else none)
  pure (_round_decimals r.1 decimals)

/-- Source method `StabilizerState.probabilities_dict(qargs, decimals)`. -/
def probabilities_dict (self : Clifford) (qargs : Option (List Nat))
    (decimals : Option Int) : Except String (List (String × ℚ)) :=
  probabilities_dict_from_bitstrings self qargs decimals TargetArg.noTarget false

/-- Sum of a function over the first `n` naturals. -/
def nsum (n : Nat) (f : Nat → Nat) : Nat := ((List.range n).map f).sum

/-- The number of undetermined positions among the first `k` symbols of an
outcome pattern. -/
def cntX (o : List Char) (k : Nat) : Nat :=
  nsum k (fun i => if o.getD i ' ' = 'X' then 1 else 0)

/-- Anticommutation count between two tableau rows. -/
def acRows (a b : CliffordRow) : Nat := antiCount a.x a.z b

/-- A well-formed symplectic tableau: `2 n` rows of width `n`, stabilizer
rows pairwise commuting, destabilizer row `i` anticommuting exactly with
stabilizer row `i`.  This is the class invariant of a valid stabilizer
state; destabilizer-destabilizer commutation is not needed by any proof
here and is left out. -/
def Valid (c : Clifford) : Prop :=
  c.rows.length = 2 * c.num_qubits ∧
  (∀ i, i < 2 * c.num_qubits →
    (c.row i).x.length = c.num_qubits ∧ (c.row i).z.length = c.num_qubits) ∧
  (∀ i, i < c.num_qubits → ∀ j, j < c.num_qubits →
    acRows (c.row (c.num_qubits + i)) (c.row (c.num_qubits + j)) % 2 = 0) ∧
  (∀ i, i < c.num_qubits → ∀ j, j < c.num_qubits →
    acRows (c.row i) (c.row (c.num_qubits + j)) % 2 = (if i = j then 1 else 0))

/-- An emitted outcome key completes a node pattern: it has the same length
and agrees with the pattern at every already-resolved (non-`X`) position. -/
def completes (o : List Char) (k : String) : Prop :=
  k.data.length = o.length ∧ ∀ i, o.getD i ' ' ≠ 'X' → k.data.getD i ' ' = o.getD i ' '

/-- One node of the target-directed enumeration chain: scan the node, then
either finish with the completed pattern and probability, or measure the
target bit at the branch position and move to the unique child node. -/
def chainStep (qubits : List Nat) (t : List Char) (o : List Char) (c : Clifford) (q : ℚ) :
    Except String ((List Char × ℚ) ⊕ (List Char × Clifford × ℚ)) := do
  let r ← resolveScan qubits o c q (some t)
  match r.2.2.2 with
  | none => pure (Sum.inl (r.1, r.2.2.1))
  | some b => do
      let m ← _measure_and_update r.2.1 (qubits.getD (qubits.length - b - 1) 0)
        (charDigit (t.getD b '0'))
      pure (Sum.inr (r.1.set b (if charDigit (t.getD b '0') != 0 then '1' else '0'),
        m.2, (1 / 2 : ℚ) * r.2.2.1))

/-- Iterate the target-directed chain to its leaf, returning the completed
pattern and its accumulated probability. -/
def chainVal (fuel : Nat) (qubits : List Nat) (t : List Char) (o : List Char)
    (c : Clifford) (q : ℚ) : Except String (List Char × ℚ) :=
  match fuel with
  | 0 => Except.error "recursion fuel exhausted"
  | fuel + 1 => do
      match ← chainStep qubits t o c q with
      | Sum.inl leaf => pure leaf
      | Sum.inr n2 => chainVal fuel qubits t n2.1 n2.2.1 n2.2.2

/-- The target-directed chain walks from one node to another in exactly `k`
steps. -/
def ReachesN (k : Nat) (qubits : List Nat) (t : List Char)
    (n n2 : List Char × Clifford × ℚ) : Prop :=
  match k with
  | 0 => n = n2
  | k + 1 => ∃ m, chainStep qubits t n.1 n.2.1 n.2.2 = Except.ok (Sum.inr m) ∧
      ReachesN k qubits t m n2

/-- A well-formed target string over `L` measured positions: right length,
all characters binary digits. -/
def wfTarget (L : Nat) (t : List Char) : Prop :=
  t.length = L ∧ ∀ ch ∈ t, ch = '0' ∨ ch = '1'

/-- A well-formed partial-outcome pattern: every in-range character is the
undetermined marker or a binary digit. -/
def wfPat (p : List Char) : Prop :=
  ∀ i, i < p.length → p.getD i ' ' = 'X' ∨ p.getD i ' ' = '0' ∨ p.getD i ' ' = '1'

/-- A chain node is well formed for target `t` over `L`-position patterns: a
valid tableau of the root's width, a pattern of length `L` agreeing with the
target at every resolved position. -/
def NodeWF (L nq : Nat) (t : List Char) (n : List Char × Clifford × ℚ) : Prop :=
  Valid n.2.1 ∧ n.2.1.num_qubits = nq ∧ n.1.length = L ∧
  (∀ i, i < L → n.1.getD i ' ' ≠ 'X' → n.1.getD i ' ' = t.getD i '0')

/-- The branch-cache coherence invariant (modelled from the spec): every
snapshotted tableau is the entry tableau of the node of the key-directed
chain whose entry pattern is the key, and every cached probability is the
post-scan probability of a key-directed chain node whose scanned pattern is
the key. -/
def cacheInv (qubits : List Nat) (c : Clifford) (ca : ProbabilityCache) : Prop :=
  (∀ kv ∈ ca.states, ∃ p k q2, kv.1 = String.mk p ∧ wfPat p ∧ p.length = qubits.length ∧
    ReachesN k qubits p (List.replicate qubits.length 'X', c, 1) (p, kv.2, q2)) ∧
  (∀ kv ∈ ca.outcomes, ∃ p k n0 b2, kv.1 = String.mk p ∧ wfPat p ∧
    p.length = qubits.length ∧
    ReachesN k qubits p (List.replicate qubits.length 'X', c, 1) n0 ∧
    resolveScan qubits n0.1 n0.2.1 n0.2.2 (some p) = Except.ok (p, n0.2.1, kv.2, b2))

end QiskitStab

namespace QiskitStab

/-- Monadic bind on a successful `Except` computation. -/
@[simp] theorem okBind {α β : Type} (v : α) (f : α → Except String β) :
    (Except.ok v : Except String α) >>= f = f v := rfl

/-- Monadic bind on a failed `Except` computation. -/
@[simp] theorem errBind {α β : Type} (m : String) (f : α → Except String β) :
    (Except.error m : Except String α) >>= f = Except.error m := rfl

/-- Pure on `Except` is `Except.ok`. -/
@[simp] theorem pureOk {α : Type} (v : α) : (pure v : Except String α) = Except.ok v := rfl

/-- On bit inputs the phase exponent never errors and its value is the total
function `phaseExponentVal`. -/
theorem phase_exponent_total (x1 z1 x2 z2 : Bool) :
    _phase_exponent x1 z1 x2 z2 = Except.ok (phaseExponentVal x1 z1 x2 z2) := by
  cases x1 <;> cases z1 <;> cases x2 <;> cases z2 <;> rfl

/-- Parity of the phase exponent is the anticommutation bit of the two
single-qubit Paulis. -/
theorem phaseExponentVal_parity (x1 z1 x2 z2 : Bool) :
    phaseExponentVal x1 z1 x2 z2 % 2 = ((x2 && z1) ^^ (x1 && z2)).toNat := by
  cases x1 <;> cases z1 <;> cases x2 <;> cases z2 <;> decide

/-- Helper: the phase-exponent loop of `_rowsum`, run from any accumulator,
never errors and adds the sum of `phaseExponentVal` over the visited
positions. -/
theorem foldlM_phase_sum (rx rz ax az : List Bool) (l : List Nat) (acc : Nat) :
    (List.foldlM
      (fun a q => do
        let g ← _phase_exponent (rx.getD q false) (rz.getD q false)
          (ax.getD q false) (az.getD q false)
        pure (a + g)) acc l : Except String Nat) =
      Except.ok (acc + (l.map (fun q => phaseExponentVal (rx.getD q false) (rz.getD q false)
        (ax.getD q false) (az.getD q false))).sum) := by
  induction l generalizing acc with
  | nil => simp
  | cons q l ih =>
      rw [List.foldlM_cons, phase_exponent_total, okBind, pureOk, okBind, ih,
        List.map_cons, List.sum_cons, Nat.add_assoc]

/-- The phase-exponent loop of `_rowsum` never errors and computes the sum of
`phaseExponentVal` over all positions. -/
theorem rowsumPhaseSum_eq (rx rz ax az : List Bool) (n : Nat) :
    rowsumPhaseSum rx rz ax az n =
      Except.ok (((List.range n).map
        (fun q => phaseExponentVal (rx.getD q false) (rz.getD q false)
          (ax.getD q false) (az.getD q false))).sum) := by
  unfold rowsumPhaseSum
  rw [foldlM_phase_sum]
  simp

/-- Writing then reading the same in-range list position. -/
theorem getD_set_self {α : Type} (l : List α) (i : Nat) (v d : α) (h : i < l.length) :
    (l.set i v).getD i d = v := by
  simp [List.getD_eq_getElem?_getD, List.getElem?_set_eq_of_lt v h]

/-- Writing one list position leaves the others unchanged. -/
theorem getD_set_ne {α : Type} (l : List α) (i j : Nat) (v d : α) (h : i ≠ j) :
    (l.set i v).getD j d = l.getD j d := by
  simp [List.getD_eq_getElem?_getD, List.getElem?_set_ne h]

/-- An out-of-range write is a no-op. -/
theorem getD_set_oob {α : Type} (l : List α) (i j : Nat) (v d : α) (h : l.length ≤ i) :
    (l.set i v).getD j d = l.getD j d := by
  rw [List.set_eq_of_length_le h]

/-- Full characterization of `_rowsum` in terms of the claim-side
accumulated phase `rowsumNewrSpec`. -/
theorem rowsum_eq (ax az : List Bool) (ap : Nat) (rx rz : List Bool) (rp : Nat) :
    _rowsum ax az ap rx rz rp =
      if rowsumNewrSpec ax az ap rx rz rp ≠ 0 ∧ rowsumNewrSpec ax az ap rx rz rp ≠ 2 then
        Except.error "Invalid rowsum in measurement calculation."
      else
        Except.ok (List.zipWith xor ax rx, List.zipWith xor az rz,
          if rowsumNewrSpec ax az ap rx rz rp = 2 then 1 else 0) := by
  unfold _rowsum rowsumNewrSpec
  rw [rowsumPhaseSum_eq]
  rfl

/-- C8: the phase exponent `_phase_exponent(x1, z1, x2, z2)` on single-bit
inputs always succeeds with a value in the set 0, 1, 3; in particular its
invariant-violation error branch (normalized value 2) is unreachable for
every combination of bit-valued inputs. -/
theorem C8_phase_exponent_in_013 (x1 z1 x2 z2 : Bool) :
    _phase_exponent x1 z1 x2 z2 = Except.ok (phaseExponentVal x1 z1 x2 z2) ∧
      (phaseExponentVal x1 z1 x2 z2 = 0 ∨ phaseExponentVal x1 z1 x2 z2 = 1 ∨
        phaseExponentVal x1 z1 x2 z2 = 3) := by
  cases x1 <;> cases z1 <;> cases x2 <;> cases z2 <;> exact ⟨rfl, by decide⟩

/-- C2: `_rowsum` computes `newr` as twice the row phase plus twice the
accumulator phase plus the sum of the per-qubit phase exponents, reduced
mod 4; it errors unless `newr` is 0 or 2; on success the new phase bit is 1
exactly when `newr` is 2 and the new Pauli is the component-wise XOR of the
x and z bitsets. -/
theorem C2_rowsum_characterization (ax az : List Bool) (ap : Nat) (rx rz : List Bool) (rp : Nat) :
    ((rowsumNewrSpec ax az ap rx rz rp = 0 ∨ rowsumNewrSpec ax az ap rx rz rp = 2) →
      _rowsum ax az ap rx rz rp =
        Except.ok (List.zipWith xor ax rx, List.zipWith xor az rz,
          if rowsumNewrSpec ax az ap rx rz rp = 2 then 1 else 0)) ∧
    (¬(rowsumNewrSpec ax az ap rx rz rp = 0 ∨ rowsumNewrSpec ax az ap rx rz rp = 2) →
      _rowsum ax az ap rx rz rp = Except.error "Invalid rowsum in measurement calculation.") := by
  rw [rowsum_eq]
  constructor
  · intro h
    rw [if_neg]
    tauto
  · intro h
    rw [if_pos]
    tauto

/-- Witness for C2 at a concrete input: accumulator `-X`, row `X`; the
accumulated phase is 2, so the rowsum succeeds with sign bit 1 and the
identity Pauli. -/
theorem C2_rowsum_witness :
    _rowsum [true] [false] 1 [true] [false] 0 =
      Except.ok ([false], [false],
        if rowsumNewrSpec [true] [false] 1 [true] [false] 0 = 2 then 1 else 0) :=
  (C2_rowsum_characterization [true] [false] 1 [true] [false] 0).1 (by decide)

/-- A guarded monadic fold is the fold over the filtered list. -/
theorem foldlM_filter {α β : Type} (p : α → Bool) (f : β → α → Except String β)
    (l : List α) (b : β) :
    l.foldlM (fun acc a => if p a then f acc a else pure acc) b =
      (l.filter p).foldlM f b := by
  induction l generalizing b with
  | nil => rfl
  | cons a l ih =>
      by_cases h : p a = true
      · rw [List.filter_cons_of_pos h, List.foldlM_cons, List.foldlM_cons, if_pos h]
        cases f b a with
        | error e => rw [errBind, errBind]
        | ok v => rw [okBind, okBind, ih]
      · rw [List.filter_cons_of_neg h, List.foldlM_cons, if_neg h, pureOk, okBind, ih]

/-- The deterministic accumulation loop, re-expressed through the filtered
list of destabilizer rows whose x-bit is set. -/
theorem detOutcomeSpec_eq_detAux (c : Clifford) (qubit : Nat) :
    detOutcomeSpec c qubit = detAux c qubit >>= fun aux => pure aux.phase := by
  unfold detOutcomeSpec detAux
  rw [foldlM_filter]

/-- C3: on a qubit for which no stabilizer row has its x-bit set,
`_measure_and_update` leaves the tableau unchanged, its result does not
depend on the supplied random bit, and the outcome is the phase of the
accumulator obtained by rowsum-accumulating, from an identity accumulator,
the stabilizer row paired with every destabilizer row whose x-bit at the
qubit is set. -/
theorem C3_deterministic_measure (c : Clifford) (qubit : Nat)
    (hdet : _is_qubit_deterministic c qubit = true) :
    (∀ r1 r2 : Nat, _measure_and_update c qubit r1 = _measure_and_update c qubit r2) ∧
    (∀ r out c2, _measure_and_update c qubit r = Except.ok (out, c2) →
      c2 = c ∧ detOutcomeSpec c qubit = Except.ok out) := by
  have hz : zAnticommuting c qubit = false := by
    unfold _is_qubit_deterministic at hdet
    unfold zAnticommuting
    simpa using hdet
  constructor
  · intro r1 r2
    unfold _measure_and_update
    rw [if_pos hz, if_pos hz]
  · intro r out c2 h
    unfold _measure_and_update at h
    rw [if_pos hz] at h
    cases hda : detAux c qubit with
    | error e =>
        rw [hda, errBind] at h
        exact absurd h (by simp)
    | ok aux =>
        rw [hda, okBind, pureOk] at h
        have h1 : aux.phase = out ∧ c = c2 := by
          have := Except.ok.inj h
          exact ⟨congrArg Prod.fst this, congrArg Prod.snd this⟩
        refine ⟨h1.2.symm, ?_⟩
        rw [detOutcomeSpec_eq_detAux, hda, okBind, pureOk, h1.1]

/-- Witness for C3 on the one-qubit ground state: qubit 0 is deterministic,
the result is insensitive to the random bit, the tableau is unchanged and
the outcome is the spec-side accumulated phase. -/
theorem C3_deterministic_witness :
    _is_qubit_deterministic cGround1 0 = true ∧
      _measure_and_update cGround1 0 0 = _measure_and_update cGround1 0 7 ∧
      (cGround1 = cGround1 ∧ detOutcomeSpec cGround1 0 = Except.ok 0) :=
  ⟨by decide, (C3_deterministic_measure cGround1 0 (by decide)).1 0 7,
    (C3_deterministic_measure cGround1 0 (by decide)).2 0 0 cGround1 rfl⟩

/-- A set x-bit forces the row index to be in range (an out-of-range row is
the empty default row, whose bits are all clear). -/
theorem xbit_lt (c : Clifford) (i q : Nat) (h : c.xbit i q = true) : i < c.rows.length := by
  by_contra hge
  push_neg at hge
  unfold Clifford.xbit Clifford.row at h
  rw [List.getD_eq_default _ _ hge] at h
  simp at h

/-- Equal rows have equal x-bits. -/
theorem xbit_congr {c2 c0 : Clifford} {i : Nat} (h : c2.row i = c0.row i) (q : Nat) :
    c2.xbit i q = c0.xbit i q := by
  unfold Clifford.xbit
  rw [h]

/-- Invariant lemma for the elimination loop of the non-deterministic
measurement path: folding the guarded rowsum over a duplicate-free list of
row indices touches exactly the rows in the list whose x-bit is set
(excluding the pivot and its partner), and rewrites each of them by the
claim-side per-row rowsum taken at the original rows. -/
theorem nondetLoop_go (c0 : Clifford) (qubit p : Nat) :
    ∀ (l : List Nat) (c2 c3 : Clifford),
      l.Nodup →
      c2.num_qubits = c0.num_qubits →
      c2.rows.length = c0.rows.length →
      (∀ i ∈ l, c2.row i = c0.row i) →
      c2.row p = c0.row p →
      (l.foldlM
        (fun cc i =>
          if cc.xbit i qubit ∧ i ≠ p ∧ i ≠ p - c0.num_qubits then
            _rowsum_nondeterministic cc i p
          else pure cc) c2) = Except.ok c3 →
      c3.num_qubits = c2.num_qubits ∧
      c3.rows.length = c2.rows.length ∧
      (∀ j, j ∉ l → c3.row j = c2.row j) ∧
      (∀ i ∈ l,
        ((c0.xbit i qubit = true ∧ i ≠ p ∧ i ≠ p - c0.num_qubits) →
          rowsumRowsSpec (c0.row i) (c0.row p) = Except.ok (c3.row i)) ∧
        (¬(c0.xbit i qubit = true ∧ i ≠ p ∧ i ≠ p - c0.num_qubits) → c3.row i = c2.row i)) := by
  intro l
  induction l with
  | nil =>
      intro c2 c3 _ _ _ _ _ hfold
      have : c2 = c3 := Except.ok.inj hfold
      subst this
      exact ⟨rfl, rfl, fun j _ => rfl, fun i hi => absurd hi (List.not_mem_nil i)⟩
  | cons i l ih =>
      intro c2 c3 hnd hn hlen hrows hrp hfold
      have hndl : l.Nodup := (List.nodup_cons.mp hnd).2
      have hil : i ∉ l := (List.nodup_cons.mp hnd).1
      have hri : c2.row i = c0.row i := hrows i (List.mem_cons_self i l)
      have hxb : c2.xbit i qubit = c0.xbit i qubit := xbit_congr hri qubit
      rw [List.foldlM_cons] at hfold
      by_cases hcond : c2.xbit i qubit = true ∧ i ≠ p ∧ i ≠ p - c0.num_qubits
      · rw [if_pos hcond] at hfold
        cases hrs : _rowsum_nondeterministic c2 i p with
        | error e =>
            rw [hrs, errBind] at hfold
            exact absurd hfold (by simp)
        | ok c2a =>
            rw [hrs, okBind] at hfold
            have hilen : i < c2.rows.length := xbit_lt c2 i qubit hcond.1
            -- unpack the single rowsum step
            unfold _rowsum_nondeterministic at hrs
            cases hr : _rowsum (c2.row i).x (c2.row i).z (if c2.phaseBit i then 1 else 0)
                (c2.row p).x (c2.row p).z (if c2.phaseBit p then 1 else 0) with
            | error e => rw [hr, errBind] at hrs; exact absurd hrs (by simp)
            | ok v =>
                rw [hr, okBind, pureOk] at hrs
                have hc2a : c2a = { c2 with rows := c2.rows.set i ⟨v.1, v.2.1, v.2.2 != 0⟩ } :=
                  (Except.ok.inj hrs).symm
                have hspec : rowsumRowsSpec (c0.row i) (c0.row p) =
                    Except.ok ⟨v.1, v.2.1, v.2.2 != 0⟩ := by
                  unfold rowsumRowsSpec
                  unfold Clifford.phaseBit at hr
                  rw [← hri, ← hrp, hr, okBind, pureOk]
                have hc2an : c2a.num_qubits = c2.num_qubits := by rw [hc2a]
                have hc2alen : c2a.rows.length = c2.rows.length := by
                  rw [hc2a]
                  exact List.length_set c2.rows i _
                have hc2arows : ∀ j, j ≠ i → c2a.row j = c2.row j := by
                  intro j hj
                  rw [hc2a]
                  unfold Clifford.row
                  exact getD_set_ne _ _ _ _ _ (fun h => hj h.symm)
                have hc2ai : c2a.row i = ⟨v.1, v.2.1, v.2.2 != 0⟩ := by
                  rw [hc2a]
                  unfold Clifford.row
                  exact getD_set_self _ _ _ _ hilen
                have hres := ih c2a c3 hndl (hc2an.trans hn) (hc2alen.trans hlen)
                  (fun j hj => (hc2arows j (fun e => hil (e ▸ hj))).trans (hrows j (List.mem_cons_of_mem i hj)))
                  ((hc2arows p (fun e => hcond.2.1 e.symm)).trans hrp) hfold
                refine ⟨hres.1.trans hc2an, hres.2.1.trans hc2alen, ?_, ?_⟩
                · intro j hj
                  have hj1 : j ∉ l := fun h => hj (List.mem_cons_of_mem i h)
                  have hj2 : j ≠ i := fun h => hj (h ▸ List.mem_cons_self i l)
                  exact (hres.2.2.1 j hj1).trans (hc2arows j hj2)
                · intro i2 hi2
                  rcases List.mem_cons.mp hi2 with he | hm
                  · subst he
                    constructor
                    · intro _
                      rw [(hres.2.2.1 i2 hil), hc2ai]
                      exact hspec
                    · intro hnc
                      exact absurd ⟨hxb ▸ hcond.1, hcond.2⟩ hnc
                  · constructor
                    · intro hcnd
                      exact (hres.2.2.2 i2 hm).1 hcnd
                    · intro hnc
                      have hne : i2 ≠ i := fun e => hil (e ▸ hm)
                      exact ((hres.2.2.2 i2 hm).2 hnc).trans (hc2arows i2 hne)
      · rw [if_neg hcond, pureOk, okBind] at hfold
        have hres := ih c2 c3 hndl hn hlen
          (fun j hj => hrows j (List.mem_cons_of_mem i hj)) hrp hfold
        refine ⟨hres.1, hres.2.1, ?_, ?_⟩
        · intro j hj
          exact hres.2.2.1 j (fun h => hj (List.mem_cons_of_mem i h))
        · intro i2 hi2
          rcases List.mem_cons.mp hi2 with he | hm
          · subst he
            constructor
            · intro hcnd
              exact absurd ⟨hxb.symm ▸ hcnd.1, hcnd.2⟩ hcond
            · intro _
              exact hres.2.2.1 i2 hil
          · exact hres.2.2.2 i2 hm

/-- Row access on a literal tableau. -/
theorem row_mk (n : Nat) (rows : List CliffordRow) (i : Nat) :
    (Clifford.mk n rows).row i = rows.getD i ⟨[], [], false⟩ := rfl

/-- The head default of an append with a nonempty left part. -/
theorem headD_append_left {α : Type} (l l2 : List α) (d : α) (h : l ≠ []) :
    (l ++ l2).headD d = l.headD d := by
  cases l with
  | nil => exact absurd rfl h
  | cons a t => rfl

/-- The head of the filtered range is the least index satisfying the
predicate. -/
theorem head_filter_range (p : Nat → Bool) (n : Nat) (h : ∃ j, j < n ∧ p j = true) :
    ∃ j, ((List.range n).filter p).headD 0 = j ∧ j < n ∧ p j = true ∧
      ∀ k, k < j → p k = false := by
  induction n with
  | zero => obtain ⟨j, hj, _⟩ := h; omega
  | succ n ih =>
      by_cases hex : ∃ j, j < n ∧ p j = true
      · obtain ⟨j, hjd, hjn, hjp, hjmin⟩ := ih hex
        refine ⟨j, ?_, by omega, hjp, hjmin⟩
        rw [List.range_succ, List.filter_append, headD_append_left]
        · exact hjd
        · intro he
          obtain ⟨j0, hj0, hp0⟩ := hex
          have hmem : j0 ∈ (List.range n).filter p :=
            List.mem_filter.mpr ⟨List.mem_range.mpr hj0, hp0⟩
          rw [he] at hmem
          exact absurd hmem (List.not_mem_nil j0)
      · obtain ⟨j, hjn, hjp⟩ := h
        have hjeq : j = n := by
          by_contra hne
          exact hex ⟨j, by omega, hjp⟩
        subst hjeq
        refine ⟨j, ?_, by omega, hjp, ?_⟩
        · rw [List.range_succ, List.filter_append]
          have hnil : (List.range j).filter p = [] := by
            rw [List.filter_eq_nil_iff]
            intro a ha hpa
            exact hex ⟨a, List.mem_range.mp ha, hpa⟩
          rw [hnil, List.nil_append]
          simp [hjp]
        · intro k hk
          by_contra hpk
          exact hex ⟨k, hk, by revert hpk; cases p k <;> simp⟩

/-- The pivot of the non-deterministic path is the lowest-indexed stabilizer
row with x-bit set at the measured qubit, offset into the stabilizer
block. -/
theorem pivotIndex_spec (c : Clifford) (qubit : Nat)
    (h : ∃ j, j < c.num_qubits ∧ c.stabX j qubit = true) :
    ∃ j, pivotIndex c qubit = c.num_qubits + j ∧ j < c.num_qubits ∧
      c.stabX j qubit = true ∧ ∀ k, k < j → c.stabX k qubit = false := by
  obtain ⟨j, hd, hn, hp, hmin⟩ := head_filter_range (fun p => c.stabX p qubit) c.num_qubits h
  refine ⟨j, ?_, hn, hp, hmin⟩
  unfold pivotIndex
  rw [hd]
  omega

/-- C4: on a qubit with some stabilizer x-bit set, `_measure_and_update`
returns the caller-supplied random bit, picks as pivot the lowest-indexed
such stabilizer row, rewrites by rowsum against the pivot every other row
(excluding the pivot and its paired destabilizer) whose x-bit at the qubit
is set, copies the pivot row into its paired destabilizer slot, and replaces
the pivot row by the zero row with the z-bit of the measured qubit set and
the outcome bit as its phase. -/
theorem C4_nondeterministic_measure (c : Clifford) (qubit r : Nat)
    (hnd : ∃ j, j < c.num_qubits ∧ c.stabX j qubit = true)
    (hlen : c.rows.length = 2 * c.num_qubits) :
    ∀ out c4, _measure_and_update c qubit r = Except.ok (out, c4) →
      out = r ∧
      (∃ j, pivotIndex c qubit = c.num_qubits + j ∧ j < c.num_qubits ∧
        c.stabX j qubit = true ∧ ∀ k, k < j → c.stabX k qubit = false) ∧
      c4.num_qubits = c.num_qubits ∧ c4.rows.length = c.rows.length ∧
      (∀ i, i < 2 * c.num_qubits → i ≠ pivotIndex c qubit →
        i ≠ pivotIndex c qubit - c.num_qubits →
        (c.xbit i qubit = true →
          rowsumRowsSpec (c.row i) (c.row (pivotIndex c qubit)) = Except.ok (c4.row i)) ∧
        (c.xbit i qubit = false → c4.row i = c.row i)) ∧
      c4.row (pivotIndex c qubit - c.num_qubits) = c.row (pivotIndex c qubit) ∧
      c4.row (pivotIndex c qubit) =
        ⟨List.replicate c.num_qubits false,
          (List.replicate c.num_qubits false).set qubit true, r != 0⟩ := by
  intro out c4 h
  obtain ⟨j, hpj, hjn, hjp, hjmin⟩ := pivotIndex_spec c qubit hnd
  have hz : zAnticommuting c qubit = true := by
    unfold zAnticommuting
    obtain ⟨j0, hj0, hp0⟩ := hnd
    rw [List.any_eq_true]
    exact ⟨j0, List.mem_range.mpr hj0, hp0⟩
  unfold _measure_and_update at h
  rw [if_neg (by simp [hz])] at h
  cases hloop : nondetLoop c qubit (pivotIndex c qubit) with
  | error e =>
      rw [hloop, errBind] at h
      exact absurd h (by simp)
  | ok c1 =>
      rw [hloop, okBind, pureOk] at h
      have hpair := Except.ok.inj h
      have hout : r = out := congrArg Prod.fst hpair
      have hc4 : afterPivot c1 qubit (pivotIndex c qubit) c.num_qubits r = c4 :=
        congrArg Prod.snd hpair
      unfold nondetLoop at hloop
      have hgo := nondetLoop_go c qubit (pivotIndex c qubit) (List.range (2 * c.num_qubits))
        c c1 (List.nodup_range _) rfl rfl (fun _ _ => rfl) rfl hloop
      have hppos : pivotIndex c qubit = c.num_qubits + j := hpj
      have hpsub : pivotIndex c qubit - c.num_qubits = j := by omega
      have hplt : pivotIndex c qubit < 2 * c.num_qubits := by omega
      have hpnej : pivotIndex c qubit ≠ j := by omega
      have hc1len : c1.rows.length = c.rows.length := hgo.2.1
      have hc1p : c1.row (pivotIndex c qubit) = c.row (pivotIndex c qubit) := by
        have := (hgo.2.2.2 (pivotIndex c qubit) (List.mem_range.mpr hplt)).2
        exact this (by tauto)
      -- rows of the final tableau
      have hrowp : c4.row (pivotIndex c qubit) =
          ⟨List.replicate c.num_qubits false,
            (List.replicate c.num_qubits false).set qubit true, r != 0⟩ := by
        rw [← hc4]
        unfold afterPivot
        rw [row_mk]
        refine getD_set_self _ _ _ _ ?_
        rw [List.length_set, hc1len, hlen]
        exact hplt
      have hrowj : c4.row (pivotIndex c qubit - c.num_qubits) = c.row (pivotIndex c qubit) := by
        rw [← hc4]
        unfold afterPivot
        rw [row_mk, hpsub, getD_set_ne _ _ _ _ _ hpnej]
        have hjlt : j < c1.rows.length := by
          rw [hc1len, hlen]
          omega
        rw [show (c1.rows.set j (c1.row (pivotIndex c qubit))).getD j ⟨[], [], false⟩ =
          c1.row (pivotIndex c qubit) from getD_set_self _ _ _ _ hjlt]
        exact hc1p
      refine ⟨hout.symm, ⟨j, hpj, hjn, hjp, hjmin⟩, ?_, ?_, ?_, hrowj, hrowp⟩
      · rw [← hc4]
        unfold afterPivot
        exact hgo.1
      · rw [← hc4]
        unfold afterPivot
        simp only [List.length_set]
        exact hc1len
      · intro i hi2n hip hipn
        have hc4i : c4.row i = c1.row i := by
          rw [← hc4]
          unfold afterPivot
          rw [row_mk]
          rw [getD_set_ne _ _ _ _ _ (fun e => hip e.symm)]
          rw [getD_set_ne _ _ _ _ _ (fun e => hipn e.symm)]
          rfl
        have hprops := hgo.2.2.2 i (List.mem_range.mpr hi2n)
        constructor
        · intro hxb
          rw [hc4i]
          exact hprops.1 ⟨hxb, hip, hipn⟩
        · intro hxb
          rw [hc4i]
          exact hprops.2 (fun hcnd => by rw [hcnd.1] at hxb; exact Bool.noConfusion hxb)

/-- Witness for C4 on the one-qubit plus state with random bit 1: the
outcome is the supplied bit, and the pivot stabilizer row becomes the zero
row with its z-bit at the measured qubit set and phase equal to the
outcome. -/
theorem C4_nondeterministic_witness :
    (1 : Nat) = 1 ∧
      cPlus1After.row (pivotIndex cPlus1 0) =
        ⟨List.replicate cPlus1.num_qubits false,
          (List.replicate cPlus1.num_qubits false).set 0 true, (1 : Nat) != 0⟩ :=
  have h := C4_nondeterministic_measure cPlus1 0 1 ⟨0, by decide, by decide⟩ (by decide)
    1 cPlus1After rfl
  ⟨h.1, h.2.2.2.2.2.2⟩

/-- The operator phase factor is always one of the four Gaussian units. -/
theorem pauliPhaseFactor_unit (k : Nat) :
    pauliPhaseFactor k = ⟨1, 0⟩ ∨ pauliPhaseFactor k = ⟨-1, 0⟩ ∨
      pauliPhaseFactor k = ⟨0, 1⟩ ∨ pauliPhaseFactor k = ⟨0, -1⟩ := by
  have h4 : k % 4 = 0 ∨ k % 4 = 1 ∨ k % 4 = 2 ∨ k % 4 = 3 := by omega
  by_cases h : k ≠ 0 <;>
    rcases h4 with h4 | h4 | h4 | h4 <;>
      simp [pauliPhaseFactor, negIPow, h, h4]

/-- The zero-check loop succeeds exactly when some stabilizer row
anticommutes oddly with the embedded Pauli. -/
theorem evZeroCheck_iff (c : Clifford) (px pz : List Bool) :
    evZeroCheck c px pz = true ↔
      ∃ p, p < c.num_qubits ∧ antiCount px pz (c.row (c.num_qubits + p)) % 2 = 1 := by
  unfold evZeroCheck
  rw [List.any_eq_true]
  constructor
  · rintro ⟨p, hp, h⟩
    exact ⟨p, List.mem_range.mp hp, by simpa using h⟩
  · rintro ⟨p, hp, h⟩
    exact ⟨p, List.mem_range.mpr hp, by simpa using h⟩

/-- C5: `expectation_value` on a Pauli operator always returns one of the
five values 0, 1, -1, i, -i, and it returns exactly 0 if and only if some
stabilizer row anticommutes with the embedded target Pauli in an odd number
of qubit components. -/
theorem C5_expectation_value_range_and_zero (c : Clifford) (oper : PauliAcc)
    (qargs : Option (List Nat)) :
    (expectation_value c oper qargs = ⟨0, 0⟩ ∨ expectation_value c oper qargs = ⟨1, 0⟩ ∨
      expectation_value c oper qargs = ⟨-1, 0⟩ ∨ expectation_value c oper qargs = ⟨0, 1⟩ ∨
      expectation_value c oper qargs = ⟨0, -1⟩) ∧
    (expectation_value c oper qargs = ⟨0, 0⟩ ↔
      ∃ p, p < c.num_qubits ∧
        antiCount (embedPauli c.num_qubits oper (qargs.getD (List.range c.num_qubits))).1
          (embedPauli c.num_qubits oper (qargs.getD (List.range c.num_qubits))).2.1
          (c.row (c.num_qubits + p)) % 2 = 1) := by
  have hunit := pauliPhaseFactor_unit oper.phase
  have hnz : pauliPhaseFactor oper.phase ≠ ⟨0, 0⟩ := by
    rcases hunit with h | h | h | h <;> rw [h] <;> decide
  have hnzn : Cplx.neg (pauliPhaseFactor oper.phase) ≠ ⟨0, 0⟩ := by
    rcases hunit with h | h | h | h <;> rw [h] <;> decide
  have hnegunit : Cplx.neg (pauliPhaseFactor oper.phase) = ⟨1, 0⟩ ∨
      Cplx.neg (pauliPhaseFactor oper.phase) = ⟨-1, 0⟩ ∨
      Cplx.neg (pauliPhaseFactor oper.phase) = ⟨0, 1⟩ ∨
      Cplx.neg (pauliPhaseFactor oper.phase) = ⟨0, -1⟩ := by
    rcases hunit with h | h | h | h <;> rw [h] <;> simp [Cplx.neg]
  unfold expectation_value
  by_cases hzc : evZeroCheck c
      (embedPauli c.num_qubits oper (qargs.getD (List.range c.num_qubits))).1
      (embedPauli c.num_qubits oper (qargs.getD (List.range c.num_qubits))).2.1 = true
  · rw [if_pos hzc]
    exact ⟨Or.inl rfl, iff_of_true rfl ((evZeroCheck_iff c _ _).mp hzc)⟩
  · rw [if_neg hzc]
    have hne : ¬∃ p, p < c.num_qubits ∧
        antiCount (embedPauli c.num_qubits oper (qargs.getD (List.range c.num_qubits))).1
          (embedPauli c.num_qubits oper (qargs.getD (List.range c.num_qubits))).2.1
          (c.row (c.num_qubits + p)) % 2 = 1 :=
      fun hex => hzc ((evZeroCheck_iff c _ _).mpr hex)
    by_cases hph : (evLoop c
        (embedPauli c.num_qubits oper (qargs.getD (List.range c.num_qubits))).1
        (embedPauli c.num_qubits oper (qargs.getD (List.range c.num_qubits))).2.1
        (embedPauli c.num_qubits oper (qargs.getD (List.range c.num_qubits))).2.2).1 % 4 ≠ 0
    · rw [if_pos hph]
      exact ⟨Or.inr (by tauto), iff_of_false hnzn hne⟩
    · rw [if_neg hph]
      exact ⟨Or.inr (by tauto), iff_of_false hnz hne⟩

/-- C9 counterexample: calling `expectation_value` with a one-element
subsystem list against a two-qubit operator (lengths disagree) raises no
dimension-mismatch error in the source - the embedding loop silently uses
only the listed position - and the call computes the plain value 0. -/
theorem C9_counterexample_no_dim_check :
    expectation_value cBell opXX (some [0]) = ⟨0, 0⟩ := by
  rfl

/-- C9 (amended): `evolve` raises a dimension-mismatch error whenever the
subsystem list length disagrees with the operator dimension (or, with no
subsystem list, whenever operator and state dimensions disagree) - this
check lives in the spec-modelled compose collaborator - while
`expectation_value` performs no dimension validation of its subsystem list:
a mismatched call such as the Bell state with operator `XX` on subsystem
list `[0]` returns the plain value 0. -/
theorem C9_amended_dimension_errors (c other : Clifford) :
    (∀ l : List Nat, other.num_qubits ≠ l.length →
      ∃ msg, evolve c other (some l) = Except.error msg) ∧
    (other.num_qubits ≠ c.num_qubits →
      ∃ msg, evolve c other none = Except.error msg) ∧
    expectation_value cBell opXX (some [0]) = ⟨0, 0⟩ := by
  have hsome : ∀ l : List Nat, composeCheck c other (some l) =
      if other.num_qubits ≠ l.length then
        Except.error "Incompatible dimensions for operator composition."
      else Except.ok () := fun _ => rfl
  have hnone : composeCheck c other none =
      if other.num_qubits ≠ c.num_qubits then
        Except.error "Incompatible dimensions for operator composition."
      else Except.ok () := rfl
  refine ⟨?_, ?_, rfl⟩
  · intro l h
    exact ⟨_, by unfold evolve; rw [hsome, if_pos h]⟩
  · intro h
    exact ⟨_, by unfold evolve; rw [hnone, if_pos h]⟩

/-- Witness for the amended C9: a two-qubit operator with a one-element
subsystem list makes `evolve` fail. -/
theorem C9_amended_witness :
    (cBell.num_qubits ≠ ([0] : List Nat).length) ∧
      ∃ msg, evolve cBell cBell (some [0]) = Except.error msg :=
  ⟨by decide, (C9_amended_dimension_errors cBell cBell).1 [0] (by decide)⟩

/-- Peeling the last index of a bounded sum. -/
theorem nsum_succ_last (n : Nat) (f : Nat → Nat) : nsum (n + 1) f = nsum n f + f n := by
  unfold nsum
  rw [List.range_succ]
  simp

/-- Bounded sums agree when the summands agree. -/
theorem nsum_congr (n : Nat) (f g : Nat → Nat) (h : ∀ q, q < n → f q = g q) :
    nsum n f = nsum n g := by
  induction n with
  | zero => rfl
  | succ n ih =>
      rw [nsum_succ_last, nsum_succ_last, ih (fun q hq => h q (by omega)), h n (by omega)]

/-- A bounded sum of a pointwise sum splits. -/
theorem nsum_add_split (n : Nat) (f g : Nat → Nat) :
    nsum n (fun q => f q + g q) = nsum n f + nsum n g := by
  induction n with
  | zero => rfl
  | succ n ih =>
      rw [nsum_succ_last, nsum_succ_last, nsum_succ_last, ih]
      omega

/-- Bounded sums agree mod 2 when the summands agree mod 2. -/
theorem nsum_mod2_congr (n : Nat) (f g : Nat → Nat) (h : ∀ q, q < n → f q % 2 = g q % 2) :
    nsum n f % 2 = nsum n g % 2 := by
  induction n with
  | zero => rfl
  | succ n ih =>
      rw [nsum_succ_last, nsum_succ_last]
      have h1 := ih (fun q hq => h q (by omega))
      have h2 := h n (by omega)
      omega

/-- Monotonicity of bounded sums. -/
theorem nsum_le (n : Nat) (f g : Nat → Nat) (h : ∀ q, q < n → f q ≤ g q) :
    nsum n f ≤ nsum n g := by
  induction n with
  | zero => exact Nat.le_refl _
  | succ n ih =>
      rw [nsum_succ_last, nsum_succ_last]
      have h1 := ih (fun q hq => h q (by omega))
      have h2 := h n (by omega)
      omega

/-- Strict monotonicity of bounded sums at one witness index. -/
theorem nsum_lt (n : Nat) (f g : Nat → Nat) (b : Nat) (hb : b < n) (hlt : f b < g b)
    (hle : ∀ q, q < n → f q ≤ g q) : nsum n f < nsum n g := by
  induction n with
  | zero => omega
  | succ n ih =>
      rw [nsum_succ_last, nsum_succ_last]
      by_cases hbn : b = n
      · have h1 := nsum_le n f g (fun q hq => hle q (by omega))
        have h2 : f n < g n := by rw [← hbn]; exact hlt
        omega
      · have h1 := ih (by omega) (fun q hq => hle q (by omega))
        have h2 := hle n (by omega)
        omega

/-- A bounded sum of zeros. -/
theorem nsum_zero (n : Nat) : nsum n (fun _ => 0) = 0 := by
  induction n with
  | zero => rfl
  | succ n ih => rw [nsum_succ_last]; omega

/-- A bounded sum of a point mass. -/
theorem nsum_delta (n q v : Nat) (hq : q < n) :
    nsum n (fun i => if i = q then v else 0) = v := by
  induction n with
  | zero => omega
  | succ n ih =>
      rw [nsum_succ_last]
      by_cases hqn : q = n
      · have h0 : nsum n (fun i => if i = q then v else 0) = nsum n (fun _ => 0) :=
          nsum_congr _ _ _ (fun i hi => by rw [if_neg (by omega)])
        rw [h0, nsum_zero, if_pos hqn.symm]
        omega
      · rw [ih (by omega), if_neg (fun h => hqn h.symm)]
        omega

/-- Peeling the first index of a bounded sum. -/
theorem nsum_succ_front (n : Nat) (f : Nat → Nat) :
    nsum (n + 1) f = f 0 + nsum n (fun q => f (q + 1)) := by
  unfold nsum
  rw [List.range_succ_eq_map]
  simp [List.map_map, Function.comp_def]

/-- The number of set bits as a bounded sum over positions. -/
theorem count_true_eq_nsum (l : List Bool) :
    l.count true = nsum l.length (fun q => (l.getD q false).toNat) := by
  induction l with
  | nil => rfl
  | cons a t ih =>
      rw [List.count_cons, List.length_cons, nsum_succ_front]
      have h1 : (fun q => (((a :: t).getD (q + 1)) false).toNat) =
          (fun q => ((t.getD q false)).toNat) := rfl
      rw [h1, ← ih]
      cases a <;> simp [Nat.add_comm]

/-- Position access distributes over a binary zipWith on bit vectors. -/
theorem getD_zipWith (f : Bool → Bool → Bool) :
    ∀ (l1 l2 : List Bool) (q : Nat), q < l1.length → q < l2.length →
      (List.zipWith f l1 l2).getD q false = f (l1.getD q false) (l2.getD q false) := by
  intro l1
  induction l1 with
  | nil => intro l2 q h1 _; simp at h1
  | cons a t ih =>
      intro l2 q h1 h2
      cases l2 with
      | nil => simp at h2
      | cons b t2 =>
          cases q with
          | zero => rfl
          | succ q => exact ih t2 q (by simpa using h1) (by simpa using h2)

/-- The AND-count of two equal-width bit vectors as a bounded sum. -/
theorem count_and_eq_nsum (l1 l2 : List Bool) (n : Nat) (h1 : l1.length = n)
    (h2 : l2.length = n) :
    (List.zipWith and l1 l2).count true =
      nsum n (fun q => ((l1.getD q false) && (l2.getD q false)).toNat) := by
  rw [count_true_eq_nsum]
  have hlen : (List.zipWith and l1 l2).length = n := by
    rw [List.length_zipWith]
    omega
  rw [hlen]
  exact nsum_congr _ _ _ (fun q hq => by rw [getD_zipWith and l1 l2 q (by omega) (by omega)])

/-- The anticommutation count as a pair of bounded sums. -/
theorem antiCount_eq_nsum (px pz : List Bool) (row : CliffordRow) (n : Nat)
    (hx : px.length = n) (hz : pz.length = n) (hrx : row.x.length = n)
    (hrz : row.z.length = n) :
    antiCount px pz row =
      nsum n (fun q => ((pz.getD q false) && (row.x.getD q false)).toNat) +
      nsum n (fun q => ((px.getD q false) && (row.z.getD q false)).toNat) := by
  unfold antiCount
  rw [count_and_eq_nsum pz row.x n hz hrx, count_and_eq_nsum px row.z n hx hrz]

/-- Parity of the rowsum accumulated phase is the anticommutation parity of
the two rows. -/
theorem rowsumNewr_parity (ax az rx rz : List Bool) (ap rp : Nat) (n : Nat)
    (hax : ax.length = n) (haz : az.length = n) (hrx : rx.length = n) (hrz : rz.length = n) :
    rowsumNewrSpec ax az ap rx rz rp % 2 =
      (nsum n (fun q => ((az.getD q false) && (rx.getD q false)).toNat) +
       nsum n (fun q => ((ax.getD q false) && (rz.getD q false)).toNat)) % 2 := by
  unfold rowsumNewrSpec
  rw [hrx]
  have hmap : ((List.range n).map
      (fun q => phaseExponentVal (rx.getD q false) (rz.getD q false)
        (ax.getD q false) (az.getD q false))).sum =
      nsum n (fun q => phaseExponentVal (rx.getD q false) (rz.getD q false)
        (ax.getD q false) (az.getD q false)) := rfl
  rw [hmap]
  have hpoint : ∀ q, q < n →
      phaseExponentVal (rx.getD q false) (rz.getD q false)
        (ax.getD q false) (az.getD q false) % 2 =
      (((az.getD q false) && (rx.getD q false)).toNat +
        ((ax.getD q false) && (rz.getD q false)).toNat) % 2 := by
    intro q _
    have hb : ∀ x1 z1 x2 z2 : Bool, phaseExponentVal x1 z1 x2 z2 % 2 =
        ((z2 && x1).toNat + (x2 && z1).toNat) % 2 := by decide
    exact hb (rx.getD q false) (rz.getD q false) (ax.getD q false) (az.getD q false)
  have hsum := nsum_mod2_congr n _ _ hpoint
  rw [nsum_add_split] at hsum
  omega

/-- The rowsum of two commuting rows of equal width succeeds and produces
the XOR row. -/
theorem rowsum_ok_of_commute (ax az rx rz : List Bool) (ap rp : Nat) (n : Nat)
    (hax : ax.length = n) (haz : az.length = n) (hrx : rx.length = n) (hrz : rz.length = n)
    (hc : (nsum n (fun q => ((az.getD q false) && (rx.getD q false)).toNat) +
       nsum n (fun q => ((ax.getD q false) && (rz.getD q false)).toNat)) % 2 = 0) :
    _rowsum ax az ap rx rz rp =
      Except.ok (List.zipWith xor ax rx, List.zipWith xor az rz,
        if rowsumNewrSpec ax az ap rx rz rp = 2 then 1 else 0) := by
  rw [rowsum_eq]
  rw [if_neg]
  have hpar := rowsumNewr_parity ax az rx rz ap rp n hax haz hrx hrz
  have hlt : rowsumNewrSpec ax az ap rx rz rp < 4 := by
    unfold rowsumNewrSpec
    omega
  omega

/-- Bit-vector AND with an all-clear vector has no set bits. -/
theorem count_and_replicate_false (l : List Bool) (m : Nat) :
    (List.zipWith and l (List.replicate m false)).count true = 0 := by
  induction l generalizing m with
  | nil => rfl
  | cons a t ih =>
      cases m with
      | zero => rfl
      | succ m =>
          rw [List.replicate_succ, List.zipWith_cons_cons, List.count_cons, ih m]
          cases a <;> simp

/-- Reading a constant vector always yields the constant. -/
theorem getD_replicate_self {α : Type} (n : Nat) (d : α) (i : Nat) :
    (List.replicate n d).getD i d = d := by
  induction n generalizing i with
  | zero => rfl
  | succ n ih =>
      rw [List.replicate_succ]
      cases i with
      | zero => rfl
      | succ i => exact ih i

/-- A one-hot vector position read. -/
theorem getD_onehot (n q i : Nat) (hq : q < n) :
    ((List.replicate n false).set q true).getD i false = decide (i = q) := by
  by_cases hiq : i = q
  · subst hiq
    rw [getD_set_self _ _ _ _ (by simpa using hq)]
    simp
  · rw [getD_set_ne _ _ _ _ _ (fun h => hiq h.symm), getD_replicate_self]
    simp [hiq]

/-- AND-count against a one-hot vector reads one bit. -/
theorem count_and_onehot (l : List Bool) (n q : Nat) (hl : l.length = n) (hq : q < n) :
    (List.zipWith and l ((List.replicate n false).set q true)).count true =
      (l.getD q false).toNat := by
  rw [count_and_eq_nsum l _ n hl (by rw [List.length_set, List.length_replicate])]
  have hpt : ∀ i, i < n →
      ((l.getD i false) && (((List.replicate n false).set q true).getD i false)).toNat =
        (if i = q then (l.getD q false).toNat else 0) := by
    intro i hi
    rw [getD_onehot n q i hq]
    by_cases hiq : i = q
    · subst hiq
      simp
    · simp [hiq]
  rw [nsum_congr _ _ _ hpt, nsum_delta n q _ hq]

/-- Pointwise commutativity of the bit-vector AND. -/
theorem zipWith_and_comm (l1 l2 : List Bool) :
    List.zipWith and l1 l2 = List.zipWith and l2 l1 := by
  induction l1 generalizing l2 with
  | nil => cases l2 <;> rfl
  | cons a t ih =>
      cases l2 with
      | nil => rfl
      | cons b t2 => rw [List.zipWith_cons_cons, List.zipWith_cons_cons, Bool.and_comm, ih]

/-- The anticommutation pairing is symmetric. -/
theorem acRows_comm (a b : CliffordRow) : acRows a b = acRows b a := by
  unfold acRows antiCount
  rw [zipWith_and_comm a.z b.x, zipWith_and_comm a.x b.z]
  omega

/-- Every row commutes with itself. -/
theorem acRows_self_even (a : CliffordRow) : acRows a a % 2 = 0 := by
  unfold acRows antiCount
  rw [zipWith_and_comm a.z a.x]
  omega

/-- The anticommutation parity is additive in XOR combinations of the first
row. -/
theorem antiCount_xor_mod (ux uz vx vz : List Bool) (c : CliffordRow) (n : Nat)
    (hux : ux.length = n) (huz : uz.length = n) (hvx : vx.length = n) (hvz : vz.length = n)
    (hcx : c.x.length = n) (hcz : c.z.length = n) :
    antiCount (List.zipWith xor ux vx) (List.zipWith xor uz vz) c % 2 =
      (antiCount ux uz c + antiCount vx vz c) % 2 := by
  rw [antiCount_eq_nsum _ _ _ n (by rw [List.length_zipWith]; omega)
      (by rw [List.length_zipWith]; omega) hcx hcz,
    antiCount_eq_nsum ux uz c n hux huz hcx hcz,
    antiCount_eq_nsum vx vz c n hvx hvz hcx hcz]
  have hb : ∀ a b w : Bool, ((a ^^ b) && w).toNat % 2 = ((a && w).toNat + (b && w).toNat) % 2 := by
    decide
  have h1 : ∀ q, q < n →
      (((List.zipWith xor uz vz).getD q false) && (c.x.getD q false)).toNat % 2 =
        (((uz.getD q false) && (c.x.getD q false)).toNat +
          ((vz.getD q false) && (c.x.getD q false)).toNat) % 2 := by
    intro q hq
    rw [getD_zipWith xor uz vz q (by omega) (by omega)]
    exact hb _ _ _
  have h2 : ∀ q, q < n →
      (((List.zipWith xor ux vx).getD q false) && (c.z.getD q false)).toNat % 2 =
        (((ux.getD q false) && (c.z.getD q false)).toNat +
          ((vx.getD q false) && (c.z.getD q false)).toNat) % 2 := by
    intro q hq
    rw [getD_zipWith xor ux vx q (by omega) (by omega)]
    exact hb _ _ _
  have s1 := nsum_mod2_congr n _ _ h1
  have s2 := nsum_mod2_congr n _ _ h2
  rw [nsum_add_split] at s1 s2
  omega

/-- The anticommutation parity against a row whose components are XOR
combinations, first-argument form. -/
theorem acRows_xor_left (w u v c : CliffordRow) (n : Nat)
    (hwx : w.x = List.zipWith xor u.x v.x) (hwz : w.z = List.zipWith xor u.z v.z)
    (hux : u.x.length = n) (huz : u.z.length = n) (hvx : v.x.length = n) (hvz : v.z.length = n)
    (hcx : c.x.length = n) (hcz : c.z.length = n) :
    acRows w c % 2 = (acRows u c + acRows v c) % 2 := by
  unfold acRows
  rw [hwx, hwz]
  exact antiCount_xor_mod u.x u.z v.x v.z c n hux huz hvx hvz hcx hcz

/-- The anticommutation parity against a row whose components are XOR
combinations, second-argument form. -/
theorem acRows_xor_right (a w u v : CliffordRow) (n : Nat)
    (hwx : w.x = List.zipWith xor u.x v.x) (hwz : w.z = List.zipWith xor u.z v.z)
    (hux : u.x.length = n) (huz : u.z.length = n) (hvx : v.x.length = n) (hvz : v.z.length = n)
    (hax : a.x.length = n) (haz : a.z.length = n) :
    acRows a w % 2 = (acRows a u + acRows a v) % 2 := by
  rw [acRows_comm a w, acRows_xor_left w u v a n hwx hwz hux huz hvx hvz hax haz,
    acRows_comm u a, acRows_comm v a]

/-- The anticommutation count against the reset pivot row (all-clear x, a
one-hot z) reads the x-bit at the measured qubit. -/
theorem acRows_zrow_right (a w : CliffordRow) (n q : Nat)
    (hwx : w.x = List.replicate n false)
    (hwz : w.z = (List.replicate n false).set q true)
    (hax : a.x.length = n) (hq : q < n) :
    acRows a w = (a.x.getD q false).toNat := by
  unfold acRows antiCount
  rw [hwx, hwz, count_and_replicate_false a.z n, count_and_onehot a.x n q hax hq]
  omega

/-- The anticommutation count of the reset pivot row against another row
reads that row's x-bit at the measured qubit. -/
theorem acRows_zrow_left (w a : CliffordRow) (n q : Nat)
    (hwx : w.x = List.replicate n false)
    (hwz : w.z = (List.replicate n false).set q true)
    (hax : a.x.length = n) (hq : q < n) :
    acRows w a = (a.x.getD q false).toNat := by
  rw [acRows_comm]
  exact acRows_zrow_right a w n q hwx hwz hax hq

/-- The deterministic accumulation loop succeeds on a valid tableau: the
accumulator stays in the span of the stabilizer rows, which pairwise
commute, so every rowsum step has an even phase parity. -/
theorem detAux_go (c : Clifford) (qubit : Nat) (hv : Valid c) :
    ∀ (l : List Nat), (∀ i ∈ l, i < c.num_qubits) → ∀ (aux : PauliAcc),
      aux.x.length = c.num_qubits → aux.z.length = c.num_qubits → aux.phase ≤ 1 →
      (∀ j, j < c.num_qubits →
        antiCount aux.x aux.z (c.row (c.num_qubits + j)) % 2 = 0) →
      ∃ aux2, (l.foldlM
          (fun aux i =>
            if c.xbit i qubit then _rowsum_deterministic c aux (i + c.num_qubits)
            else pure aux) aux) = Except.ok aux2 ∧ aux2.phase ≤ 1 := by
  intro l
  induction l with
  | nil =>
      intro _ aux h1 h2 h3 _
      exact ⟨aux, rfl, h3⟩
  | cons i l ih =>
      intro hmem aux h1 h2 h3 hcomm
      rw [List.foldlM_cons]
      by_cases hxb : c.xbit i qubit = true
      · rw [if_pos hxb]
        have hin : i < c.num_qubits := hmem i (List.mem_cons_self i l)
        have hrow := hv.2.1 (c.num_qubits + i) (by omega)
        have hci : i + c.num_qubits = c.num_qubits + i := Nat.add_comm _ _
        have hac := antiCount_eq_nsum aux.x aux.z (c.row (c.num_qubits + i))
          c.num_qubits h1 h2 hrow.1 hrow.2
        have hok := rowsum_ok_of_commute aux.x aux.z
          (c.row (c.num_qubits + i)).x (c.row (c.num_qubits + i)).z aux.phase
          (if c.phaseBit (c.num_qubits + i) then 1 else 0) c.num_qubits
          h1 h2 hrow.1 hrow.2 (by rw [← hac]; exact hcomm i hin)
        unfold _rowsum_deterministic
        rw [hci, hok, okBind, pureOk, okBind]
        apply ih (fun j hj => hmem j (List.mem_cons_of_mem i hj))
        · rw [List.length_zipWith, h1, hrow.1]
          exact Nat.min_self _
        · rw [List.length_zipWith, h2, hrow.2]
          exact Nat.min_self _
        · by_cases h2r : rowsumNewrSpec aux.x aux.z aux.phase
            (c.row (c.num_qubits + i)).x (c.row (c.num_qubits + i)).z
            (if c.phaseBit (c.num_qubits + i) then 1 else 0) = 2 <;>
            simp [h2r]
        · intro j hj
          have hrj := hv.2.1 (c.num_qubits + j) (by omega)
          have hx := antiCount_xor_mod aux.x aux.z
            (c.row (c.num_qubits + i)).x (c.row (c.num_qubits + i)).z
            (c.row (c.num_qubits + j)) c.num_qubits
            h1 h2 hrow.1 hrow.2 hrj.1 hrj.2
          have hss : acRows (c.row (c.num_qubits + i)) (c.row (c.num_qubits + j)) % 2 = 0 :=
            hv.2.2.1 i hin j hj
          unfold acRows at hss
          have hcj := hcomm j hj
          show antiCount (List.zipWith xor aux.x (c.row (c.num_qubits + i)).x)
            (List.zipWith xor aux.z (c.row (c.num_qubits + i)).z)
            (c.row (c.num_qubits + j)) % 2 = 0
          omega
      · rw [if_neg hxb, pureOk, okBind]
        exact ih (fun j hj => hmem j (List.mem_cons_of_mem i hj)) aux h1 h2 h3 hcomm

/-- On a valid tableau a deterministic measurement succeeds, returns a bit
and leaves the tableau unchanged. -/
theorem measure_det_ok (c : Clifford) (qubit r : Nat) (hv : Valid c)
    (hdet : zAnticommuting c qubit = false) :
    ∃ out, out ≤ 1 ∧ _measure_and_update c qubit r = Except.ok (out, c) := by
  have hinit : ∀ j, j < c.num_qubits →
      antiCount (identityAcc c.num_qubits).x (identityAcc c.num_qubits).z
        (c.row (c.num_qubits + j)) % 2 = 0 := by
    intro j hj
    unfold identityAcc antiCount
    rw [zipWith_and_comm, count_and_replicate_false, zipWith_and_comm, count_and_replicate_false]
  obtain ⟨aux2, hfold, hph⟩ := detAux_go c qubit hv (List.range c.num_qubits)
    (fun i hi => List.mem_range.mp hi) (identityAcc c.num_qubits)
    (by simp [identityAcc]) (by simp [identityAcc]) (by simp [identityAcc]) hinit
  refine ⟨aux2.phase, hph, ?_⟩
  unfold _measure_and_update
  rw [if_pos hdet]
  unfold detAux
  rw [hfold, okBind, pureOk]

/-- Rows produced by a successful claim-side rowsum are the componentwise
XORs. -/
theorem rowsumRowsSpec_components (t s u : CliffordRow)
    (h : rowsumRowsSpec t s = Except.ok u) :
    u.x = List.zipWith xor t.x s.x ∧ u.z = List.zipWith xor t.z s.z := by
  unfold rowsumRowsSpec at h
  rw [rowsum_eq] at h
  by_cases hc : rowsumNewrSpec t.x t.z (if t.phase then 1 else 0) s.x s.z
      (if s.phase then 1 else 0) ≠ 0 ∧
      rowsumNewrSpec t.x t.z (if t.phase then 1 else 0) s.x s.z
        (if s.phase then 1 else 0) ≠ 2
  · rw [if_pos hc] at h
    exact absurd h (by simp)
  · rw [if_neg hc, okBind, pureOk] at h
    have he := Except.ok.inj h
    exact ⟨(congrArg CliffordRow.x he).symm, (congrArg CliffordRow.z he).symm⟩

/-- Row congruence of the anticommutation pairing. -/
theorem acRows_congr (a a2 b b2 : CliffordRow) (hax : a.x = a2.x) (haz : a.z = a2.z)
    (hbx : b.x = b2.x) (hbz : b.z = b2.z) : acRows a b = acRows a2 b2 := by
  unfold acRows antiCount
  rw [hax, haz, hbx, hbz]

/-- The elimination loop of the non-deterministic path succeeds on a valid
tableau: every rowsummed row commutes with the pivot row. -/
theorem nondetLoop_total (c0 : Clifford) (qubit p jp : Nat) (hv : Valid c0)
    (hjp : jp < c0.num_qubits) (hpeq : p = c0.num_qubits + jp) :
    ∀ (l : List Nat) (c2 : Clifford),
      l.Nodup →
      (∀ i ∈ l, i < 2 * c0.num_qubits) →
      (∀ i ∈ l, c2.row i = c0.row i) →
      c2.row p = c0.row p →
      ∃ c3, (l.foldlM
        (fun cc i =>
          if cc.xbit i qubit ∧ i ≠ p ∧ i ≠ p - c0.num_qubits then
            _rowsum_nondeterministic cc i p
          else pure cc) c2) = Except.ok c3 := by
  intro l
  induction l with
  | nil =>
      intro c2 _ _ _ _
      exact ⟨c2, rfl⟩
  | cons i l ih =>
      intro c2 hnodup hlt hrows hrp
      have hndl : l.Nodup := (List.nodup_cons.mp hnodup).2
      have hil : i ∉ l := (List.nodup_cons.mp hnodup).1
      rw [List.foldlM_cons]
      by_cases hcond : c2.xbit i qubit = true ∧ i ≠ p ∧ i ≠ p - c0.num_qubits
      · rw [if_pos hcond]
        have hi2n : i < 2 * c0.num_qubits := hlt i (List.mem_cons_self i l)
        have hri : c2.row i = c0.row i := hrows i (List.mem_cons_self i l)
        have hrowi := hv.2.1 i hi2n
        have hrowp := hv.2.1 p (by omega)
        have hij : i ≠ jp := by
          have := hcond.2.2
          omega
        have hcomm : antiCount (c0.row i).x (c0.row i).z (c0.row p) % 2 = 0 := by
          by_cases hin : i < c0.num_qubits
          · have hd := hv.2.2.2 i hin jp hjp
            rw [← hpeq] at hd
            unfold acRows at hd
            rw [hd, if_neg hij]
          · have hd := hv.2.2.1 (i - c0.num_qubits) (by omega) jp hjp
            rw [← hpeq] at hd
            unfold acRows at hd
            have hieq : c0.num_qubits + (i - c0.num_qubits) = i := by omega
            rw [hieq] at hd
            exact hd
        have hac := antiCount_eq_nsum (c0.row i).x (c0.row i).z (c0.row p)
          c0.num_qubits hrowi.1 hrowi.2 hrowp.1 hrowp.2
        have hok := rowsum_ok_of_commute (c0.row i).x (c0.row i).z
          (c0.row p).x (c0.row p).z (if (c0.row i).phase then 1 else 0)
          (if (c0.row p).phase then 1 else 0) c0.num_qubits
          hrowi.1 hrowi.2 hrowp.1 hrowp.2 (by rw [← hac]; exact hcomm)
        unfold _rowsum_nondeterministic
        unfold Clifford.phaseBit
        rw [hri, hrp, hok, okBind, pureOk, okBind]
        apply ih _ hndl (fun j hj => hlt j (List.mem_cons_of_mem i hj))
        · intro j hj
          have hji : j ≠ i := fun h => hil (h ▸ hj)
          rw [row_mk]
          rw [getD_set_ne _ _ _ _ _ (fun h => hji h.symm)]
          exact hrows j (List.mem_cons_of_mem i hj)
        · rw [row_mk]
          rw [getD_set_ne _ _ _ _ _ hcond.2.1]
          exact hrp
      · rw [if_neg hcond, pureOk, okBind]
        exact ih _ hndl (fun j hj => hlt j (List.mem_cons_of_mem i hj))
          (fun j hj => hrows j (List.mem_cons_of_mem i hj)) hrp

/-- On a valid tableau a non-deterministic measurement succeeds, returns the
supplied random bit, and the updated tableau is again valid. -/
theorem measure_nondet_ok (c : Clifford) (qubit r : Nat) (hv : Valid c)
    (hq : qubit < c.num_qubits) (hnd : zAnticommuting c qubit = true) :
    ∃ c4, _measure_and_update c qubit r = Except.ok (r, c4) ∧ Valid c4 ∧
      c4.num_qubits = c.num_qubits := by
  have hex : ∃ j, j < c.num_qubits ∧ c.stabX j qubit = true := by
    unfold zAnticommuting at hnd
    rw [List.any_eq_true] at hnd
    obtain ⟨j, hj, hpj⟩ := hnd
    exact ⟨j, List.mem_range.mp hj, hpj⟩
  obtain ⟨jp, hppos, hjn, hjpx, _⟩ := pivotIndex_spec c qubit hex
  obtain ⟨c1, hloop⟩ := nondetLoop_total c qubit (pivotIndex c qubit) jp hv hjn hppos
    (List.range (2 * c.num_qubits)) c (List.nodup_range _)
    (fun i hi => List.mem_range.mp hi) (fun i _ => rfl) rfl
  have hloop2 : nondetLoop c qubit (pivotIndex c qubit) = Except.ok c1 := hloop
  have hgo := nondetLoop_go c qubit (pivotIndex c qubit) (List.range (2 * c.num_qubits))
    c c1 (List.nodup_range _) rfl rfl (fun _ _ => rfl) rfl hloop
  have hn2 : c.rows.length = 2 * c.num_qubits := hv.1
  have hpn : pivotIndex c qubit - c.num_qubits = jp := by omega
  have hplt : pivotIndex c qubit < 2 * c.num_qubits := by omega
  have hpjne : pivotIndex c qubit ≠ jp := by omega
  have hc1n : c1.num_qubits = c.num_qubits := hgo.1
  have hc1len : c1.rows.length = c.rows.length := hgo.2.1
  have hc1p : c1.row (pivotIndex c qubit) = c.row (pivotIndex c qubit) :=
    (hgo.2.2.2 _ (List.mem_range.mpr hplt)).2 (by tauto)
  have hxbp : (c.row (pivotIndex c qubit)).x.getD qubit false = true := by
    unfold Clifford.stabX Clifford.xbit at hjpx
    rw [hppos]
    exact hjpx
  have hmau : _measure_and_update c qubit r =
      Except.ok (r, afterPivot c1 qubit (pivotIndex c qubit) c.num_qubits r) := by
    unfold _measure_and_update
    rw [if_neg (by simp [hnd]), hloop2, okBind, pureOk]
  obtain ⟨c4, hc4⟩ : ∃ c4, afterPivot c1 qubit (pivotIndex c qubit) c.num_qubits r = c4 :=
    ⟨_, rfl⟩
  have hc4n : c4.num_qubits = c.num_qubits := by rw [← hc4]; unfold afterPivot; exact hc1n
  have hc4len : c4.rows.length = c.rows.length := by
    rw [← hc4]
    unfold afterPivot
    simp only [List.length_set]
    exact hc1len
  have hrowP : c4.row (pivotIndex c qubit) = zRow c.num_qubits qubit r := by
    rw [← hc4]
    unfold afterPivot
    rw [row_mk]
    refine getD_set_self _ _ _ _ ?_
    rw [List.length_set, hc1len, hn2]
    exact hplt
  have hrowJ : c4.row jp = c.row (pivotIndex c qubit) := by
    rw [← hc4]
    unfold afterPivot
    rw [row_mk, hpn, getD_set_ne _ _ _ _ _ hpjne]
    have hjlt : jp < c1.rows.length := by
      rw [hc1len, hn2]
      omega
    rw [show (c1.rows.set jp (c1.row (pivotIndex c qubit))).getD jp ⟨[], [], false⟩ =
      c1.row (pivotIndex c qubit) from getD_set_self _ _ _ _ hjlt]
    exact hc1p
  have hrowO : ∀ k, k ≠ pivotIndex c qubit → k ≠ jp → c4.row k = c1.row k := by
    intro k hkp hkj
    rw [← hc4]
    unfold afterPivot
    rw [row_mk, getD_set_ne _ _ _ _ _ (fun h => hkp h.symm), hpn,
      getD_set_ne _ _ _ _ _ (fun h => hkj h.symm)]
    rfl
  have hcomp : ∀ k, k < 2 * c.num_qubits → k ≠ pivotIndex c qubit → k ≠ jp →
      ((c4.row k).x = (c.row k).x ∧ (c4.row k).z = (c.row k).z ∧ c.xbit k qubit = false) ∨
      ((c4.row k).x = List.zipWith xor (c.row k).x (c.row (pivotIndex c qubit)).x ∧
        (c4.row k).z = List.zipWith xor (c.row k).z (c.row (pivotIndex c qubit)).z ∧
        c.xbit k qubit = true) := by
    intro k h1 h2 h3
    have hk := hgo.2.2.2 k (List.mem_range.mpr h1)
    rw [hrowO k h2 h3]
    by_cases hxb : c.xbit k qubit = true
    · right
      have hsp := hk.1 ⟨hxb, h2, by rw [hpn]; exact h3⟩
      have hcz := rowsumRowsSpec_components _ _ _ hsp
      exact ⟨hcz.1, hcz.2, hxb⟩
    · left
      have heq := hk.2 (fun hcn => hxb hcn.1)
      rw [heq]
      refine ⟨rfl, rfl, ?_⟩
      revert hxb
      cases c.xbit k qubit <;> simp
  have hlenrow : ∀ k, k < 2 * c.num_qubits →
      (c4.row k).x.length = c.num_qubits ∧ (c4.row k).z.length = c.num_qubits := by
    intro k hk
    by_cases hkp : k = pivotIndex c qubit
    · rw [hkp, hrowP]
      unfold zRow
      constructor
      · exact List.length_replicate _ _
      · rw [List.length_set]
        exact List.length_replicate _ _
    · by_cases hkj : k = jp
      · rw [hkj, hrowJ]
        exact hv.2.1 _ hplt
      · have hvk := hv.2.1 k hk
        have hvp := hv.2.1 _ hplt
        rcases hcomp k hk hkp hkj with ⟨hx, hz, _⟩ | ⟨hx, hz, _⟩
        · rw [hx, hz]
          exact hvk
        · rw [hx, hz]
          constructor
          · rw [List.length_zipWith, hvk.1, hvp.1]
            exact Nat.min_self _
          · rw [List.length_zipWith, hvk.2, hvp.2]
            exact Nat.min_self _
  have hcrossL : ∀ k, k < 2 * c.num_qubits → k ≠ jp →
      acRows (c.row k) (c.row (pivotIndex c qubit)) % 2 = 0 := by
    intro k hk hkj
    by_cases hkn : k < c.num_qubits
    · have hd := hv.2.2.2 k hkn jp hjn
      rw [← hppos] at hd
      rw [hd, if_neg hkj]
    · have hd := hv.2.2.1 (k - c.num_qubits) (by omega) jp hjn
      rw [← hppos] at hd
      have hke : c.num_qubits + (k - c.num_qubits) = k := by omega
      rw [hke] at hd
      exact hd
  have hcrossR : ∀ k, k < 2 * c.num_qubits → k ≠ jp →
      acRows (c.row (pivotIndex c qubit)) (c.row k) % 2 = 0 := by
    intro k hk hkj
    rw [acRows_comm]
    exact hcrossL k hk hkj
  have hPP : acRows (c.row (pivotIndex c qubit)) (c.row (pivotIndex c qubit)) % 2 = 0 :=
    acRows_self_even _
  have hgen : ∀ k1 k2, k1 < 2 * c.num_qubits → k2 < 2 * c.num_qubits →
      k1 ≠ pivotIndex c qubit → k1 ≠ jp → k2 ≠ pivotIndex c qubit → k2 ≠ jp →
      acRows (c4.row k1) (c4.row k2) % 2 = acRows (c.row k1) (c.row k2) % 2 := by
    intro k1 k2 h1 h2 hp1 hj1 hp2 hj2
    have hv1 := hv.2.1 k1 h1
    have hv2 := hv.2.1 k2 h2
    have hvp := hv.2.1 _ hplt
    have hl1 := hlenrow k1 h1
    have hl2 := hlenrow k2 h2
    rcases hcomp k1 h1 hp1 hj1 with ⟨e1x, e1z, _⟩ | ⟨e1x, e1z, _⟩ <;>
      rcases hcomp k2 h2 hp2 hj2 with ⟨e2x, e2z, _⟩ | ⟨e2x, e2z, _⟩
    · rw [acRows_congr (c4.row k1) (c.row k1) (c4.row k2) (c.row k2) e1x e1z e2x e2z]
    · have hstep := acRows_xor_right (c4.row k1) (c4.row k2) (c.row k2)
        (c.row (pivotIndex c qubit)) c.num_qubits e2x e2z hv2.1 hv2.2 hvp.1 hvp.2
        hl1.1 hl1.2
      have hcongr : acRows (c4.row k1) (c.row k2) = acRows (c.row k1) (c.row k2) :=
        acRows_congr _ _ _ _ e1x e1z rfl rfl
      have hcongr2 : acRows (c4.row k1) (c.row (pivotIndex c qubit)) =
          acRows (c.row k1) (c.row (pivotIndex c qubit)) :=
        acRows_congr _ _ _ _ e1x e1z rfl rfl
      have hcl := hcrossL k1 h1 hj1
      rw [hcongr, hcongr2] at hstep
      omega
    · have hstep := acRows_xor_left (c4.row k1) (c.row k1) (c.row (pivotIndex c qubit))
        (c4.row k2) c.num_qubits e1x e1z hv1.1 hv1.2 hvp.1 hvp.2 hl2.1 hl2.2
      have hcongr : acRows (c.row k1) (c4.row k2) = acRows (c.row k1) (c.row k2) :=
        acRows_congr _ _ _ _ rfl rfl e2x e2z
      have hcongr2 : acRows (c.row (pivotIndex c qubit)) (c4.row k2) =
          acRows (c.row (pivotIndex c qubit)) (c.row k2) :=
        acRows_congr _ _ _ _ rfl rfl e2x e2z
      have hcr := hcrossR k2 h2 hj2
      rw [hcongr, hcongr2] at hstep
      omega
    · have hstep := acRows_xor_left (c4.row k1) (c.row k1) (c.row (pivotIndex c qubit))
        (c4.row k2) c.num_qubits e1x e1z hv1.1 hv1.2 hvp.1 hvp.2 hl2.1 hl2.2
      have hs1 := acRows_xor_right (c.row k1) (c4.row k2) (c.row k2)
        (c.row (pivotIndex c qubit)) c.num_qubits e2x e2z hv2.1 hv2.2 hvp.1 hvp.2
        hv1.1 hv1.2
      have hs2 := acRows_xor_right (c.row (pivotIndex c qubit)) (c4.row k2) (c.row k2)
        (c.row (pivotIndex c qubit)) c.num_qubits e2x e2z hv2.1 hv2.2 hvp.1 hvp.2
        hvp.1 hvp.2
      have hcl := hcrossL k1 h1 hj1
      have hcr := hcrossR k2 h2 hj2
      omega
  have hxbit0 : ∀ k, k < 2 * c.num_qubits → k ≠ pivotIndex c qubit → k ≠ jp →
      (c4.row k).x.getD qubit false = false := by
    intro k h1 h2 h3
    have hvk := hv.2.1 k h1
    have hvp := hv.2.1 _ hplt
    rcases hcomp k h1 h2 h3 with ⟨hx, _, hxf⟩ | ⟨hx, _, hxt⟩
    · rw [hx]
      unfold Clifford.xbit at hxf
      exact hxf
    · rw [hx, getD_zipWith xor _ _ qubit (by rw [hvk.1]; exact hq) (by rw [hvp.1]; exact hq)]
      unfold Clifford.xbit at hxt
      rw [hxt, hxbp]
      rfl
  refine ⟨c4, by rw [hc4] at hmau; exact hmau, ⟨?_, ?_, ?_, ?_⟩, hc4n⟩
  · rw [hc4len, hc4n, hn2]
  · intro i hi
    rw [hc4n] at hi
    rw [hc4n]
    exact hlenrow i hi
  · -- stabilizer rows pairwise commute
    intro a ha b hb
    rw [hc4n] at ha hb ⊢
    have hka : c.num_qubits + a < 2 * c.num_qubits := by omega
    have hkb : c.num_qubits + b < 2 * c.num_qubits := by omega
    by_cases hajp : a = jp
    · by_cases hbjp : b = jp
      · rw [hajp, hbjp, ← hppos, hrowP]
        rw [acRows_zrow_right (zRow c.num_qubits qubit r) (zRow c.num_qubits qubit r)
          c.num_qubits qubit rfl rfl (by unfold zRow; exact List.length_replicate _ _) hq]
        unfold zRow
        rw [getD_replicate_self]
        rfl
      · rw [hajp, ← hppos, hrowP]
        rw [acRows_zrow_left (zRow c.num_qubits qubit r) (c4.row (c.num_qubits + b))
          c.num_qubits qubit rfl rfl (hlenrow _ hkb).1 hq]
        rw [hxbit0 (c.num_qubits + b) hkb (by omega) (by omega)]
        rfl
    · by_cases hbjp : b = jp
      · rw [hbjp, ← hppos, hrowP]
        rw [acRows_zrow_right (c4.row (c.num_qubits + a)) (zRow c.num_qubits qubit r)
          c.num_qubits qubit rfl rfl (hlenrow _ hka).1 hq]
        rw [hxbit0 (c.num_qubits + a) hka (by omega) (by omega)]
        rfl
      · have hg := hgen (c.num_qubits + a) (c.num_qubits + b) hka hkb
          (by omega) (by omega) (by omega) (by omega)
        rw [hg]
        exact hv.2.2.1 a ha b hb
  · -- destabilizer-stabilizer pairing
    intro a ha b hb
    rw [hc4n] at ha hb ⊢
    have hka : a < 2 * c.num_qubits := by omega
    have hkb : c.num_qubits + b < 2 * c.num_qubits := by omega
    by_cases hajp : a = jp
    · by_cases hbjp : b = jp
      · rw [hajp, hbjp, hrowJ, ← hppos, hrowP]
        rw [acRows_zrow_right (c.row (pivotIndex c qubit)) (zRow c.num_qubits qubit r)
          c.num_qubits qubit rfl rfl (hv.2.1 _ hplt).1 hq]
        rw [hxbp, if_pos rfl]
        rfl
      · rw [hajp, hrowJ]
        rw [if_neg (by omega)]
        rcases hcomp (c.num_qubits + b) hkb (by omega) (by omega) with
          ⟨e2x, e2z, _⟩ | ⟨e2x, e2z, _⟩
        · rw [acRows_congr _ (c.row (pivotIndex c qubit)) _ (c.row (c.num_qubits + b))
            rfl rfl e2x e2z]
          exact hcrossR _ hkb (by omega)
        · have hvp := hv.2.1 _ hplt
          have hv2 := hv.2.1 _ hkb
          have hs := acRows_xor_right (c.row (pivotIndex c qubit))
            (c4.row (c.num_qubits + b)) (c.row (c.num_qubits + b))
            (c.row (pivotIndex c qubit)) c.num_qubits e2x e2z hv2.1 hv2.2 hvp.1 hvp.2
            hvp.1 hvp.2
          have hcr := hcrossR _ hkb (show c.num_qubits + b ≠ jp by omega)
          omega
    · by_cases hbjp : b = jp
      · rw [hbjp, ← hppos, hrowP]
        rw [acRows_zrow_right (c4.row a) (zRow c.num_qubits qubit r)
          c.num_qubits qubit rfl rfl (hlenrow a hka).1 hq]
        rw [hxbit0 a hka (by omega) hajp]
        rw [if_neg hajp]
        rfl
      · have hg := hgen a (c.num_qubits + b) hka hkb (by omega) hajp (by omega) (by omega)
        rw [hg]
        exact hv.2.2.2 a ha b hb

/-- `digitChar` never produces the undetermined marker. -/
theorem digitChar_ne_X (b : Nat) : digitChar b ≠ 'X' := by
  unfold digitChar
  split <;> decide

/-- A position read as `X` lies inside the pattern (the default is a
blank). -/
theorem lt_length_of_getD_X (o : List Char) (i : Nat) (h : o.getD i ' ' = 'X') :
    i < o.length := by
  by_contra hi
  rw [List.getD_eq_default o ' ' (by omega)] at h
  exact absurd h (by decide)

/-- An in-range `getD` reads an element of the list. -/
theorem getD_mem_of_lt {α : Type} (l : List α) (i : Nat) (d : α) (h : i < l.length) :
    l.getD i d ∈ l := by
  rw [List.getD_eq_getElem l d h]
  exact List.getElem_mem h

/-- The determinism test is the negation of the anticommutation test. -/
theorem is_det_iff (c : Clifford) (qb : Nat) :
    _is_qubit_deterministic c qb = !zAnticommuting c qb := rfl

/-- `_measure_and_update` succeeds on any in-range qubit of a valid tableau
and preserves validity and width; a deterministic qubit leaves the tableau
unchanged with a binary outcome, a non-deterministic one returns the
supplied random bit. -/
theorem measure_ok (c : Clifford) (qubit r : Nat) (hv : Valid c)
    (hq : qubit < c.num_qubits) :
    ∃ out c2, _measure_and_update c qubit r = Except.ok (out, c2) ∧ Valid c2 ∧
      c2.num_qubits = c.num_qubits ∧
      (zAnticommuting c qubit = false → c2 = c ∧ out ≤ 1) ∧
      (zAnticommuting c qubit = true → out = r) := by
  cases hz : zAnticommuting c qubit with
  | false =>
      obtain ⟨out, ho, he⟩ := measure_det_ok c qubit r hv hz
      refine ⟨out, c, he, hv, rfl, fun _ => ⟨rfl, ho⟩, fun h => ?_⟩
      exact absurd h (by decide)
  | true =>
      obtain ⟨c4, he, hv4, hn4⟩ := measure_nondet_ok c qubit r hv hq hz
      refine ⟨r, c4, he, hv4, hn4, fun h => ?_, fun _ => rfl⟩
      exact absurd h (by decide)

/-- Without a target, resolving a deterministic position writes the measured
bit at that position and keeps both the tableau and the accumulated
probability. -/
theorem retrieve_det_none (i qubit : Nat) (o : List Char) (c : Clifford) (q : ℚ)
    (hv : Valid c) (hdet : zAnticommuting c qubit = false) :
    ∃ out, out ≤ 1 ∧ retrieve_deterministic_probability i qubit o c q none =
      Except.ok (o.set i (digitChar out), c, q) := by
  obtain ⟨out, ho, he⟩ := measure_det_ok c qubit 0 hv hdet
  refine ⟨out, ho, ?_⟩
  unfold retrieve_deterministic_probability
  rw [he]
  rfl

/-- A scan step skips an already-resolved position. -/
theorem scanStep_skip (qubits : List Nat) (t : Option (List Char)) (o : List Char)
    (c : Clifford) (q : ℚ) (b : Option Nat) (i : Nat) (h : ¬ o.getD i ' ' = 'X') :
    scanStep qubits t (o, c, q, b) i = Except.ok (o, c, q, b) := by
  simp only [scanStep]
  rw [if_neg h]
  rfl

/-- A scan step records an undetermined position with a non-deterministic
qubit as the branch point. -/
theorem scanStep_nondet (qubits : List Nat) (t : Option (List Char)) (o : List Char)
    (c : Clifford) (q : ℚ) (b : Option Nat) (i : Nat) (hX : o.getD i ' ' = 'X')
    (hnd : _is_qubit_deterministic c (qubits.getD (qubits.length - i - 1) 0) = false) :
    scanStep qubits t (o, c, q, b) i = Except.ok (o, c, q, some i) := by
  simp only [scanStep]
  rw [if_pos hX, if_neg (by rw [hnd]; exact Bool.false_ne_true)]
  rfl

/-- A targetless scan step resolves an undetermined deterministic position
in place, leaving tableau, probability and branch marker alone. -/
theorem scanStep_det_none (qubits : List Nat) (o : List Char) (c : Clifford) (q : ℚ)
    (b : Option Nat) (i : Nat) (hX : o.getD i ' ' = 'X')
    (hdet : _is_qubit_deterministic c (qubits.getD (qubits.length - i - 1) 0) = true)
    (hv : Valid c) :
    ∃ out, out ≤ 1 ∧
      scanStep qubits none (o, c, q, b) i =
        Except.ok (o.set i (digitChar out), c, q, b) := by
  have hz : zAnticommuting c (qubits.getD (qubits.length - i - 1) 0) = false := by
    rw [is_det_iff] at hdet
    cases hzz : zAnticommuting c (qubits.getD (qubits.length - i - 1) 0)
    · rfl
    · rw [hzz] at hdet
      exact Bool.noConfusion hdet
  obtain ⟨out, ho, he⟩ :=
    retrieve_det_none i (qubits.getD (qubits.length - i - 1) 0) o c q hv hz
  refine ⟨out, ho, ?_⟩
  simp only [scanStep]
  rw [if_pos hX, if_pos hdet, he]
  rfl

/-- The per-node resolution fold, characterized for the targetless run:
tableau and probability are preserved, already-resolved positions keep their
values, no new undetermined positions appear, after a branchless pass every
scanned position is resolved, and the branch marker (when set) points at an
in-range undetermined position whose qubit is non-deterministic. -/
theorem resolveScan_go_none (c : Clifford) (qubits : List Nat) (hv : Valid c) :
    ∀ (l : List Nat), (∀ i ∈ l, i < qubits.length) →
    ∀ (o : List Char) (q : ℚ) (b : Option Nat),
    (∀ bb, b = some bb → bb < qubits.length ∧ o.getD bb ' ' = 'X' ∧
      zAnticommuting c (qubits.getD (qubits.length - bb - 1) 0) = true) →
    ∃ o1 b1,
      List.foldlM (scanStep qubits none) (o, c, q, b) l = Except.ok (o1, c, q, b1) ∧
      o1.length = o.length ∧
      (∀ i, o.getD i ' ' ≠ 'X' → o1.getD i ' ' = o.getD i ' ') ∧
      (∀ i, o1.getD i ' ' = 'X' → o.getD i ' ' = 'X') ∧
      (b1 = none → b = none ∧ ∀ i ∈ l, o1.getD i ' ' ≠ 'X') ∧
      (∀ bb, b1 = some bb → bb < qubits.length ∧ o1.getD bb ' ' = 'X' ∧
        zAnticommuting c (qubits.getD (qubits.length - bb - 1) 0) = true) := by
  intro l
  induction l with
  | nil =>
      intro _ o q b hb
      exact ⟨o, b, rfl, rfl, fun _ _ => rfl, fun _ h => h,
        fun h1 => ⟨h1, fun i hi => absurd hi (List.not_mem_nil i)⟩, hb⟩
  | cons i l ih =>
      intro hl o q b hb
      have hil : i < qubits.length := hl i (List.mem_cons_self i l)
      rw [List.foldlM_cons (scanStep qubits none) (o, c, q, b) i l]
      by_cases hX : o.getD i ' ' = 'X'
      · by_cases hdet : _is_qubit_deterministic c (qubits.getD (qubits.length - i - 1) 0) = true
        · obtain ⟨out, ho, hstep⟩ := scanStep_det_none qubits o c q b i hX hdet hv
          rw [hstep, okBind]
          have hi0 : i < o.length := lt_length_of_getD_X o i hX
          have hb2 : ∀ bb, b = some bb → bb < qubits.length ∧
              (o.set i (digitChar out)).getD bb ' ' = 'X' ∧
              zAnticommuting c (qubits.getD (qubits.length - bb - 1) 0) = true := by
            intro bb hbb
            obtain ⟨h1, h2, h3⟩ := hb bb hbb
            refine ⟨h1, ?_, h3⟩
            have hne : i ≠ bb := by
              intro hieq
              subst hieq
              rw [is_det_iff, h3] at hdet
              exact absurd hdet (by decide)
            rw [getD_set_ne o i bb (digitChar out) ' ' hne]
            exact h2
          obtain ⟨o1, b1, heq, hlen, hpres, hshrink, hnone, hsome⟩ :=
            ih (fun j hj => hl j (List.mem_cons_of_mem i hj)) (o.set i (digitChar out)) q b hb2
          refine ⟨o1, b1, heq, ?_, ?_, ?_, ?_, hsome⟩
          · rw [hlen, List.length_set]
          · intro j hj
            have hji : i ≠ j := fun h => hj (h ▸ hX)
            rw [hpres j (by rw [getD_set_ne o i j (digitChar out) ' ' hji]; exact hj),
              getD_set_ne o i j (digitChar out) ' ' hji]
          · intro j hj
            have h2 := hshrink j hj
            by_cases hji : i = j
            · subst hji
              rw [getD_set_self o i (digitChar out) ' ' hi0] at h2
              exact absurd h2 (digitChar_ne_X out)
            · rw [getD_set_ne o i j (digitChar out) ' ' hji] at h2
              exact h2
          · intro hb1
            obtain ⟨hbn, hall⟩ := hnone hb1
            refine ⟨hbn, ?_⟩
            intro j hj
            rcases List.mem_cons.mp hj with hji | hjl
            · subst hji
              have hox : o1.getD j ' ' = (o.set j (digitChar out)).getD j ' ' :=
                hpres j (by rw [getD_set_self o j (digitChar out) ' ' hi0]; exact digitChar_ne_X out)
              rw [hox, getD_set_self o j (digitChar out) ' ' hi0]
              exact digitChar_ne_X out
            · exact hall j hjl
        · have hndF : _is_qubit_deterministic c (qubits.getD (qubits.length - i - 1) 0) = false :=
            Bool.not_eq_true _ ▸ eq_false_of_ne_true hdet
          rw [scanStep_nondet qubits none o c q b i hX hndF, okBind]
          have hz : zAnticommuting c (qubits.getD (qubits.length - i - 1) 0) = true := by
            rw [is_det_iff] at hndF
            cases hzz : zAnticommuting c (qubits.getD (qubits.length - i - 1) 0)
            · rw [hzz] at hndF
              exact absurd hndF (by decide)
            · rfl
          have hb2 : ∀ bb, (some i : Option Nat) = some bb → bb < qubits.length ∧
              o.getD bb ' ' = 'X' ∧
              zAnticommuting c (qubits.getD (qubits.length - bb - 1) 0) = true := by
            intro bb hbb
            cases hbb
            exact ⟨hil, hX, hz⟩
          obtain ⟨o1, b1, heq, hlen, hpres, hshrink, hnone, hsome⟩ :=
            ih (fun j hj => hl j (List.mem_cons_of_mem i hj)) o q (some i) hb2
          refine ⟨o1, b1, heq, hlen, hpres, hshrink, ?_, hsome⟩
          intro hb1
          obtain ⟨habs, _⟩ := hnone hb1
          exact Option.noConfusion habs
      · rw [scanStep_skip qubits none o c q b i hX, okBind]
        obtain ⟨o1, b1, heq, hlen, hpres, hshrink, hnone, hsome⟩ :=
          ih (fun j hj => hl j (List.mem_cons_of_mem i hj)) o q b hb
        refine ⟨o1, b1, heq, hlen, hpres, hshrink, ?_, hsome⟩
        intro hb1
        obtain ⟨hbn, hall⟩ := hnone hb1
        refine ⟨hbn, fun j hj => ?_⟩
        rcases List.mem_cons.mp hj with hji | hjl
        · subst hji
          rw [hpres j hX]
          exact hX
        · exact hall j hjl

/-- The resolution scan of a targetless node: the tableau and probability
come back unchanged, resolved positions are preserved, undetermined
positions only disappear, a branchless scan leaves no undetermined position
in range, and a branch marker points at an in-range undetermined position
whose qubit is non-deterministic. -/
theorem resolveScan_none_ok (c : Clifford) (qubits : List Nat) (o : List Char) (q : ℚ)
    (hv : Valid c) :
    ∃ o1 b1, resolveScan qubits o c q none = Except.ok (o1, c, q, b1) ∧
      o1.length = o.length ∧
      (∀ i, o.getD i ' ' ≠ 'X' → o1.getD i ' ' = o.getD i ' ') ∧
      (∀ i, o1.getD i ' ' = 'X' → o.getD i ' ' = 'X') ∧
      (b1 = none → ∀ i, i < qubits.length → o1.getD i ' ' ≠ 'X') ∧
      (∀ bb, b1 = some bb → bb < qubits.length ∧ o1.getD bb ' ' = 'X' ∧
        zAnticommuting c (qubits.getD (qubits.length - bb - 1) 0) = true) := by
  unfold resolveScan
  by_cases hcon : o.contains 'X' = true
  · rw [if_pos hcon]
    obtain ⟨o1, b1, heq, hlen, hpres, hshrink, hnone, hsome⟩ :=
      resolveScan_go_none c qubits hv (List.range qubits.length)
        (fun j hj => List.mem_range.mp hj) o q none (fun bb h => Option.noConfusion h)
    exact ⟨o1, b1, heq, hlen, hpres, hshrink,
      fun hb j hj => (hnone hb).2 j (List.mem_range.mpr hj), hsome⟩
  · rw [if_neg hcon]
    refine ⟨o, none, rfl, rfl, fun _ _ => rfl, fun _ h => h, ?_,
      fun bb h => Option.noConfusion h⟩
    intro _ j _ hXj
    have hj0 : j < o.length := lt_length_of_getD_X o j hXj
    have hmem : o.getD j ' ' ∈ o := getD_mem_of_lt o j ' ' hj0
    rw [hXj] at hmem
    exact hcon (List.elem_eq_true_of_mem hmem)

/-- A fold over a singleton list is its single step. -/
theorem foldlM_single {σ α : Type} (f : σ → α → Except String σ) (a : α) (s0 s1 : σ)
    (h : f s0 a = Except.ok s1) : List.foldlM f s0 [a] = Except.ok s1 := by
  rw [List.foldlM_cons f s0 a [], h, okBind]
  rfl

/-- A fold over a two-element list chains its two steps. -/
theorem foldlM_pair {σ α : Type} (f : σ → α → Except String σ) (a b : α) (s0 s1 s2 : σ)
    (h0 : f s0 a = Except.ok s1) (h1 : f s1 b = Except.ok s2) :
    List.foldlM f s0 [a, b] = Except.ok s2 := by
  rw [List.foldlM_cons f s0 a [b], h0, okBind]
  exact foldlM_single f b s1 s2 h1

/-- Inserting a key absent from a Python dict appends the pair. -/
theorem dictSet_fresh {α : Type} (ps : List (String × α)) (k : String) (v : α)
    (h : ∀ kv ∈ ps, kv.1 ≠ k) : dictSet ps k v = ps ++ [(k, v)] := by
  have hna : ¬ (ps.any (fun p => p.1 == k) = true) := by
    intro hany
    rw [List.any_eq_true] at hany
    obtain ⟨p, hp, hpk⟩ := hany
    exact h p hp (eq_of_beq hpk)
  unfold dictSet
  rw [if_neg hna]

/-- Completion is transitive along a refinement of patterns. -/
theorem completes_of_refines (o o2 : List Char) (k : String)
    (hl : o2.length = o.length)
    (hp : ∀ i, o.getD i ' ' ≠ 'X' → o2.getD i ' ' = o.getD i ' ')
    (h : completes o2 k) : completes o k := by
  obtain ⟨h1, h2⟩ := h
  refine ⟨by rw [h1, hl], ?_⟩
  intro i hi
  rw [h2 i (by rw [hp i hi]; exact hi), hp i hi]

/-- A key completing a pattern with a written bit carries that bit. -/
theorem completes_set_val (o : List Char) (bb : Nat) (ch : Char) (k : String)
    (hbb : bb < o.length) (hch : ch ≠ 'X') (h : completes (o.set bb ch) k) :
    k.data.getD bb ' ' = ch := by
  have h2 := h.2 bb (by rw [getD_set_self o bb ch ' ' hbb]; exact hch)
  rw [getD_set_self o bb ch ' ' hbb] at h2
  exact h2

/-- A bounded sum of ones. -/
theorem nsum_const_one (n : Nat) : nsum n (fun _ => 1) = n := by
  induction n with
  | zero => rfl
  | succ n ih => rw [nsum_succ_last, ih]

/-- Unfolding the targetless, cacheless probability recursion one level:
scan the node, then either record the completed outcome or recurse into the
two branches of the marked position. -/
theorem getProbs_step_none (fuel : Nat) (c : Clifford) (qubits : List Nat) (o : List Char)
    (q : ℚ) (probs : List (String × ℚ)) :
    _get_probabilities (fuel + 1) c qubits o q probs none none =
      resolveScan qubits o c q none >>= fun r =>
        match r.2.2.2 with
        | none => pure (dictSet probs (String.mk r.1) r.2.2.1, none)
        | some b =>
            List.foldlM
              (fun (st : List (String × ℚ) × Option ProbabilityCache) bit => do
                let m ← _measure_and_update r.2.1 (qubits.getD (qubits.length - b - 1) 0) bit
                _get_probabilities fuel m.2 qubits (r.1.set b (if bit != 0 then '1' else '0'))
                  ((1 / 2 : ℚ) * r.2.2.1) st.1 none st.2)
              (probs, none) (_branches_to_measure b none) := rfl

/-- The targetless, cacheless probability recursion appends a block of fresh
entries: every key completes the node pattern, every value is the node
probability split by a power of two, and the values sum to the node
probability.  The fold keys never collide with entries that fail to
complete the pattern. -/
theorem getProbs_none_emit (fuel : Nat) :
    ∀ (c : Clifford) (qubits : List Nat) (o : List Char) (q : ℚ)
      (probs : List (String × ℚ)),
    Valid c → (∀ qb ∈ qubits, qb < c.num_qubits) → o.length = qubits.length →
    cntX o qubits.length < fuel →
    (∀ kv ∈ probs, ¬ completes o kv.1) →
    ∃ E, _get_probabilities fuel c qubits o q probs none none =
        Except.ok (probs ++ E, none) ∧
      (E.map Prod.snd).sum = q ∧
      ∀ kv ∈ E, completes o kv.1 ∧ ∃ m : Nat, kv.2 = q * (1 / 2) ^ m := by
  induction fuel with
  | zero =>
      intro c qubits o q probs _ _ _ hf _
      omega
  | succ fuel ih =>
      intro c qubits o q probs hv hqs hlen hf hfresh
      obtain ⟨o1, b1, hscan, hlen1, hpres, hshrink, hnoneX, hsome⟩ :=
        resolveScan_none_ok c qubits o q hv
      have hcomp1 : completes o (String.mk o1) := ⟨hlen1, fun i hi => hpres i hi⟩
      cases b1 with
      | none =>
          refine ⟨[(String.mk o1, q)], ?_, by simp, ?_⟩
          · rw [getProbs_step_none fuel c qubits o q probs, hscan]
            simp only [okBind]
            rw [dictSet_fresh probs (String.mk o1) q
              (fun kv hkv hkeq => hfresh kv hkv (by rw [hkeq]; exact hcomp1))]
            rfl
          · intro kv hkv
            rw [List.mem_singleton] at hkv
            subst hkv
            exact ⟨hcomp1, 0, by rw [pow_zero, mul_one]⟩
      | some bb =>
          obtain ⟨hbb, hXbb, hzbb⟩ := hsome bb rfl
          have hqb : qubits.getD (qubits.length - bb - 1) 0 < c.num_qubits :=
            hqs _ (getD_mem_of_lt qubits (qubits.length - bb - 1) 0 (by omega))
          obtain ⟨c0, he0, hv0, hn0⟩ :=
            measure_nondet_ok c (qubits.getD (qubits.length - bb - 1) 0) 0 hv hqb hzbb
          obtain ⟨c1, he1, hv1, hn1⟩ :=
            measure_nondet_ok c (qubits.getD (qubits.length - bb - 1) 0) 1 hv hqb hzbb
          have hbo : bb < o.length := by rw [hlen]; exact hbb
          have hbo1 : bb < o1.length := by rw [hlen1]; exact hbo
          have href : ∀ ch : Char, ch ≠ 'X' →
              (o1.set bb ch).length = o.length ∧
              (∀ i, o.getD i ' ' ≠ 'X' → (o1.set bb ch).getD i ' ' = o.getD i ' ') := by
            intro ch _
            refine ⟨by rw [List.length_set]; exact hlen1, ?_⟩
            intro i hi
            have hne : bb ≠ i := by
              intro h
              subst h
              exact hi (hshrink bb hXbb)
            rw [getD_set_ne o1 bb i ch ' ' hne]
            exact hpres i hi
          have hsetlen : ∀ ch : Char, (o1.set bb ch).length = qubits.length := by
            intro ch
            rw [List.length_set, hlen1, hlen]
          have hcntdrop : ∀ ch : Char, ch ≠ 'X' →
              cntX (o1.set bb ch) qubits.length < fuel := by
            intro ch hch
            have hc1 : cntX o1 qubits.length ≤ cntX o qubits.length := by
              unfold cntX
              refine nsum_le _ _ _ (fun j _ => ?_)
              by_cases hXj : o1.getD j ' ' = 'X'
              · rw [if_pos hXj, if_pos (hshrink j hXj)]
              · rw [if_neg hXj]
                exact Nat.zero_le _
            have hc2 : cntX (o1.set bb ch) qubits.length < cntX o1 qubits.length := by
              unfold cntX
              refine nsum_lt _ _ _ bb hbb ?_ (fun j _ => ?_)
              · rw [getD_set_self o1 bb ch ' ' hbo1, if_neg hch, if_pos hXbb]
                omega
              · by_cases hjb : bb = j
                · subst hjb
                  rw [getD_set_self o1 bb ch ' ' hbo1, if_neg hch]
                  exact Nat.zero_le _
                · rw [getD_set_ne o1 bb j ch ' ' hjb]
            omega
          have hfresh0 : ∀ kv ∈ probs, ¬ completes (o1.set bb '0') kv.1 := by
            intro kv hkv hcmp
            exact hfresh kv hkv (completes_of_refines o (o1.set bb '0') kv.1
              (href '0' (by decide)).1 (href '0' (by decide)).2 hcmp)
          obtain ⟨E0, heq0, hsum0, hall0⟩ := ih c0 qubits (o1.set bb '0') ((1 / 2 : ℚ) * q)
            probs hv0 (fun qb hqb2 => by rw [hn0]; exact hqs qb hqb2) (hsetlen '0')
            (hcntdrop '0' (by decide)) hfresh0
          have hfresh1 : ∀ kv ∈ probs ++ E0, ¬ completes (o1.set bb '1') kv.1 := by
            intro kv hkv hcmp
            rcases List.mem_append.mp hkv with h | h
            · exact hfresh kv h (completes_of_refines o (o1.set bb '1') kv.1
                (href '1' (by decide)).1 (href '1' (by decide)).2 hcmp)
            · have h0 := (hall0 kv h).1
              have hv0b := completes_set_val o1 bb '0' kv.1 hbo1 (by decide) h0
              have hv1b := completes_set_val o1 bb '1' kv.1 hbo1 (by decide) hcmp
              rw [hv0b] at hv1b
              exact absurd hv1b (by decide)
          obtain ⟨E1, heq1, hsum1, hall1⟩ := ih c1 qubits (o1.set bb '1') ((1 / 2 : ℚ) * q)
            (probs ++ E0) hv1 (fun qb hqb2 => by rw [hn1]; exact hqs qb hqb2) (hsetlen '1')
            (hcntdrop '1' (by decide)) hfresh1
          refine ⟨E0 ++ E1, ?_, ?_, ?_⟩
          · rw [getProbs_step_none fuel c qubits o q probs, hscan]
            simp only [okBind]
            rw [← List.append_assoc]
            show List.foldlM
                (fun (st : List (String × ℚ) × Option ProbabilityCache) bit => do
                  let m ← _measure_and_update c (qubits.getD (qubits.length - bb - 1) 0) bit
                  _get_probabilities fuel m.2 qubits (o1.set bb (if bit != 0 then '1' else '0'))
                    ((1 / 2 : ℚ) * q) st.1 none st.2)
                (probs, none) [0, 1] = Except.ok ((probs ++ E0) ++ E1, none)
            refine foldlM_pair _ 0 1 (probs, (none : Option ProbabilityCache))
              (probs ++ E0, none) ((probs ++ E0) ++ E1, none) ?_ ?_
            · show (_measure_and_update c (qubits.getD (qubits.length - bb - 1) 0) 0 >>=
                  fun m => _get_probabilities fuel m.2 qubits (o1.set bb '0')
                    ((1 / 2 : ℚ) * q) probs none none) = Except.ok (probs ++ E0, none)
              rw [he0]
              simp only [okBind]
              exact heq0
            · show (_measure_and_update c (qubits.getD (qubits.length - bb - 1) 0) 1 >>=
                  fun m => _get_probabilities fuel m.2 qubits (o1.set bb '1')
                    ((1 / 2 : ℚ) * q) (probs ++ E0) none none) =
                Except.ok ((probs ++ E0) ++ E1, none)
              rw [he1]
              simp only [okBind]
              exact heq1
          · rw [List.map_append, List.sum_append, hsum0, hsum1]
            ring
          · intro kv hkv
            rcases List.mem_append.mp hkv with h | h
            · obtain ⟨hc, m, hm⟩ := hall0 kv h
              refine ⟨completes_of_refines o (o1.set bb '0') kv.1
                (href '0' (by decide)).1 (href '0' (by decide)).2 hc, m + 1, ?_⟩
              rw [hm, pow_succ]
              ring
            · obtain ⟨hc, m, hm⟩ := hall1 kv h
              refine ⟨completes_of_refines o (o1.set bb '1') kv.1
                (href '1' (by decide)).1 (href '1' (by decide)).2 hc, m + 1, ?_⟩
              rw [hm, pow_succ]
              ring

/-- Unfolding `probabilities_dict`: one targetless, cacheless run from the
all-undetermined root with probability 1, then the identity rounding. -/
theorem pdict_none_eq (c : Clifford) (qargs : Option (List Nat)) :
    probabilities_dict c qargs none =
      (_get_probabilities ((qargs.getD (List.range c.num_qubits)).length + 1) c
          (qargs.getD (List.range c.num_qubits))
          (List.replicate (qargs.getD (List.range c.num_qubits)).length 'X') 1 [] none none
        >>= fun s => pure s) >>= fun r => pure (_round_decimals r.1 none) := rfl

/-- The all-undetermined root pattern has at most as many undetermined
positions as its length. -/
theorem cntX_replicate_lt (n : Nat) : cntX (List.replicate n 'X') n < n + 1 := by
  have h : cntX (List.replicate n 'X') n ≤ n := by
    unfold cntX
    calc nsum n (fun i => if (List.replicate n 'X').getD i ' ' = 'X' then 1 else 0)
        ≤ nsum n (fun _ => 1) := nsum_le _ _ _ (fun j _ => by split <;> omega)
      _ = n := nsum_const_one n
  omega

/-- C1: for every valid stabilizer state and every in-range choice of
measured subsystems, `probabilities_dict` (no target, no rounding) succeeds
and the values of the returned map sum to 1. -/
theorem C1_probabilities_dict_sums_to_one (c : Clifford) (qargs : Option (List Nat))
    (hv : Valid c)
    (hqs : ∀ qb ∈ qargs.getD (List.range c.num_qubits), qb < c.num_qubits) :
    ∃ probs, probabilities_dict c qargs none = Except.ok probs ∧
      (probs.map Prod.snd).sum = 1 := by
  obtain ⟨E, heq, hsum, _⟩ := getProbs_none_emit
    ((qargs.getD (List.range c.num_qubits)).length + 1) c
    (qargs.getD (List.range c.num_qubits))
    (List.replicate (qargs.getD (List.range c.num_qubits)).length 'X') 1 [] hv hqs
    (List.length_replicate _ _)
    (cntX_replicate_lt (qargs.getD (List.range c.num_qubits)).length)
    (fun kv hkv => absurd hkv (List.not_mem_nil kv))
  refine ⟨E, ?_, hsum⟩
  rw [pdict_none_eq c qargs, heq]
  simp only [okBind, pureOk, List.nil_append]
  rfl

/-- C1 witness: the Bell state on both qubits. -/
theorem C1_witness :
    Valid cBell ∧
    (∀ qb ∈ (none : Option (List Nat)).getD (List.range cBell.num_qubits),
      qb < cBell.num_qubits) ∧
    ∃ probs, probabilities_dict cBell none none = Except.ok probs ∧
      (probs.map Prod.snd).sum = 1 :=
  ⟨by unfold Valid; decide, by decide,
    C1_probabilities_dict_sums_to_one cBell none (by unfold Valid; decide) (by decide)⟩

/-- C10: with no target, every value of the map returned by
`probabilities_dict` is a power `(1/2)^b` — in particular strictly
positive, so only outcomes of nonzero probability appear as keys. -/
theorem C10_probabilities_dict_values_positive (c : Clifford) (qargs : Option (List Nat))
    (hv : Valid c)
    (hqs : ∀ qb ∈ qargs.getD (List.range c.num_qubits), qb < c.num_qubits) :
    ∃ probs, probabilities_dict c qargs none = Except.ok probs ∧
      ∀ kv ∈ probs, (∃ b : Nat, kv.2 = (1 / 2 : ℚ) ^ b) ∧ 0 < kv.2 := by
  obtain ⟨E, heq, _, hall⟩ := getProbs_none_emit
    ((qargs.getD (List.range c.num_qubits)).length + 1) c
    (qargs.getD (List.range c.num_qubits))
    (List.replicate (qargs.getD (List.range c.num_qubits)).length 'X') 1 [] hv hqs
    (List.length_replicate _ _)
    (cntX_replicate_lt (qargs.getD (List.range c.num_qubits)).length)
    (fun kv hkv => absurd hkv (List.not_mem_nil kv))
  refine ⟨E, ?_, ?_⟩
  · rw [pdict_none_eq c qargs, heq]
    simp only [okBind, pureOk, List.nil_append]
    rfl
  · intro kv hkv
    obtain ⟨_, m, hm⟩ := hall kv hkv
    rw [hm, one_mul]
    refine ⟨⟨m, rfl⟩, ?_⟩
    exact pow_pos (by norm_num) m

/-- C10 witness: the single-qubit plus state on its one qubit. -/
theorem C10_witness :
    Valid cPlus1 ∧
    (∀ qb ∈ (none : Option (List Nat)).getD (List.range cPlus1.num_qubits),
      qb < cPlus1.num_qubits) ∧
    ∃ probs, probabilities_dict cPlus1 none none = Except.ok probs ∧
      ∀ kv ∈ probs, (∃ b : Nat, kv.2 = (1 / 2 : ℚ) ^ b) ∧ 0 < kv.2 :=
  ⟨by unfold Valid; decide, by decide,
    C10_probabilities_dict_values_positive cPlus1 none (by unfold Valid; decide) (by decide)⟩

/-- C7: during probability enumeration every deterministic undetermined
position is resolved by `_measure_and_update` with the fixed supplied bit 0
and, with an active target, a resolved bit disagreeing with the target's
required bit writes the target bit into the outcome and collapses the
branch probability to 0; on the Bell state every single 2-bit target is
emitted as a key, with probability 1/2 for 00 and 11 and probability 0
otherwise. -/
theorem C7_deterministic_resolution_and_target_collapse :
    (∀ (i qubit : Nat) (o : List Char) (c : Clifford) (q : ℚ) (t : List Char),
      Valid c → zAnticommuting c qubit = false →
      ∃ out, out ≤ 1 ∧ _measure_and_update c qubit 0 = Except.ok (out, c) ∧
        (charDigit (t.getD i '0') = out →
          retrieve_deterministic_probability i qubit o c q (some t) =
            Except.ok (o.set i (digitChar out), c, q)) ∧
        (charDigit (t.getD i '0') ≠ out →
          retrieve_deterministic_probability i qubit o c q (some t) =
            Except.ok (o.set i (digitChar (charDigit (t.getD i '0'))), c, 0))) ∧
    (∀ t ∈ [['0','0'], ['0','1'], ['1','0'], ['1','1']],
      probabilities_dict_from_bitstrings cBell none none (TargetArg.one t) false =
        Except.ok [(String.mk t,
          if t = ['0','0'] ∨ t = ['1','1'] then (1 / 2 : ℚ) else 0)]) := by
  constructor
  · intro i qubit o c q t hv hdet
    obtain ⟨out, ho, he⟩ := measure_det_ok c qubit 0 hv hdet
    refine ⟨out, ho, he, ?_, ?_⟩
    · intro hm
      unfold retrieve_deterministic_probability
      rw [he]
      show (if charDigit (t.getD i '0') = out then
          (pure (o.set i (digitChar out), c, q) : Except String (List Char × Clifford × ℚ))
        else pure (o.set i (digitChar (charDigit (t.getD i '0'))), c, 0)) =
        Except.ok (o.set i (digitChar out), c, q)
      rw [if_pos hm]
      rfl
    · intro hm
      unfold retrieve_deterministic_probability
      rw [he]
      show (if charDigit (t.getD i '0') = out then
          (pure (o.set i (digitChar out), c, q) : Except String (List Char × Clifford × ℚ))
        else pure (o.set i (digitChar (charDigit (t.getD i '0'))), c, 0)) =
        Except.ok (o.set i (digitChar (charDigit (t.getD i '0'))), c, 0)
      rw [if_neg hm]
      rfl
  · intro t ht
    fin_cases ht
    · rw [show probabilities_dict_from_bitstrings cBell none none
          (TargetArg.one ['0','0']) false =
          Except.ok [(String.mk ['0','0'], ((1 : ℚ) / 2) * 1)] from rfl,
        if_pos (Or.inl rfl), show ((1 : ℚ) / 2) * 1 = 1 / 2 from by norm_num]
    · rfl
    · rfl
    · rw [show probabilities_dict_from_bitstrings cBell none none
          (TargetArg.one ['1','1']) false =
          Except.ok [(String.mk ['1','1'], ((1 : ℚ) / 2) * 1)] from rfl,
        if_pos (Or.inr rfl), show ((1 : ℚ) / 2) * 1 = 1 / 2 from by norm_num]

/-- C7 witness: the one-qubit ground state, whose deterministic measurement
yields 0, against the disagreeing single target `1`. -/
theorem C7_witness :
    Valid cGround1 ∧ zAnticommuting cGround1 0 = false ∧
    ∃ out, out ≤ 1 ∧ _measure_and_update cGround1 0 0 = Except.ok (out, cGround1) ∧
      (charDigit ((['1'] : List Char).getD 0 '0') = out →
        retrieve_deterministic_probability 0 0 ['X'] cGround1 1 (some ['1']) =
          Except.ok ((['X'] : List Char).set 0 (digitChar out), cGround1, 1)) ∧
      (charDigit ((['1'] : List Char).getD 0 '0') ≠ out →
        retrieve_deterministic_probability 0 0 ['X'] cGround1 1 (some ['1']) =
          Except.ok ((['X'] : List Char).set 0
            (digitChar (charDigit ((['1'] : List Char).getD 0 '0'))), cGround1, 0)) :=
  ⟨by unfold Valid; decide, by decide,
    C7_deterministic_resolution_and_target_collapse.1 0 0 ['X'] cGround1 1 ['1']
      (by unfold Valid; decide) (by decide)⟩

/-- Binary-digit characters survive the digit/character round trip. -/
theorem digitChar_charDigit (ch : Char) (h : ch = '0' ∨ ch = '1') :
    digitChar (charDigit ch) = ch := by
  rcases h with h | h <;> subst h <;> decide

/-- Digits 0 and 1 survive the character/digit round trip. -/
theorem charDigit_digitChar (n : Nat) (h : n = 0 ∨ n = 1) :
    charDigit (digitChar n) = n := by
  rcases h with h | h <;> subst h <;> decide

/-- Feeding `digitChar` back through `charDigit` always yields 0 or 1. -/
theorem charDigit_digitChar_mem (n : Nat) :
    charDigit (digitChar n) = 0 ∨ charDigit (digitChar n) = 1 := by
  unfold digitChar
  split <;> [right; left] <;> decide

/-- A successful deterministic measurement leaves the tableau component
untouched (structurally, with no validity assumption). -/
theorem measure_det_state (c : Clifford) (qubit r : Nat) (m : Nat × Clifford)
    (hz : zAnticommuting c qubit = false)
    (h : _measure_and_update c qubit r = Except.ok m) : m.2 = c := by
  unfold _measure_and_update at h
  rw [if_pos hz] at h
  cases hda : detAux c qubit with
  | error e => rw [hda] at h; exact Except.noConfusion h
  | ok aux =>
      rw [hda, okBind, pureOk] at h
      cases h
      rfl

/-- With a target, resolving a deterministic position always writes the
digit demanded by the target pattern (matching measurements agree with it),
keeps the tableau, and returns either the running probability or 0. -/
theorem retrieve_det_target (i qubit : Nat) (o : List Char) (c : Clifford) (q : ℚ)
    (t : List Char) (hv : Valid c) (hdet : zAnticommuting c qubit = false) :
    ∃ q1, retrieve_deterministic_probability i qubit o c q (some t) =
      Except.ok (o.set i (digitChar (charDigit (t.getD i '0'))), c, q1) ∧
      (q1 = q ∨ q1 = 0) := by
  obtain ⟨out, _, he⟩ := measure_det_ok c qubit 0 hv hdet
  unfold retrieve_deterministic_probability
  rw [he]
  by_cases hm : charDigit (t.getD i '0') = out
  · refine ⟨q, ?_, Or.inl rfl⟩
    show (if charDigit (t.getD i '0') = out then
        (pure (o.set i (digitChar out), c, q) : Except String (List Char × Clifford × ℚ))
      else pure (o.set i (digitChar (charDigit (t.getD i '0'))), c, 0)) = _
    rw [if_pos hm, hm]
    rfl
  · refine ⟨0, ?_, Or.inr rfl⟩
    show (if charDigit (t.getD i '0') = out then
        (pure (o.set i (digitChar out), c, q) : Except String (List Char × Clifford × ℚ))
      else pure (o.set i (digitChar (charDigit (t.getD i '0'))), c, 0)) = _
    rw [if_neg hm]
    rfl

/-- A targeted scan step resolves an undetermined deterministic position to
the target's digit, preserving the tableau and the branch marker. -/
theorem scanStep_det_target (qubits : List Nat) (t : List Char) (o : List Char)
    (c : Clifford) (q : ℚ) (b : Option Nat) (i : Nat) (hX : o.getD i ' ' = 'X')
    (hdet : _is_qubit_deterministic c (qubits.getD (qubits.length - i - 1) 0) = true)
    (hv : Valid c) :
    ∃ q1, scanStep qubits (some t) (o, c, q, b) i =
      Except.ok (o.set i (digitChar (charDigit (t.getD i '0'))), c, q1, b) ∧
      (q1 = q ∨ q1 = 0) := by
  have hz : zAnticommuting c (qubits.getD (qubits.length - i - 1) 0) = false := by
    rw [is_det_iff] at hdet
    cases hzz : zAnticommuting c (qubits.getD (qubits.length - i - 1) 0)
    · rfl
    · rw [hzz] at hdet
      exact Bool.noConfusion hdet
  obtain ⟨q1, he, hq⟩ :=
    retrieve_det_target i (qubits.getD (qubits.length - i - 1) 0) o c q t hv hz
  refine ⟨q1, ?_, hq⟩
  simp only [scanStep]
  rw [if_pos hX, if_pos hdet, he]
  rfl

/-- Case analysis of a successful targeted scan step: skip, branch marking,
or deterministic resolution writing the target's digit, with the measured
outcome deciding between the running probability and 0. -/
theorem scanStep_cases (qubits : List Nat) (t : List Char) (o : List Char) (c : Clifford)
    (q : ℚ) (b : Option Nat) (i : Nat) (st2 : List Char × Clifford × ℚ × Option Nat)
    (h : scanStep qubits (some t) (o, c, q, b) i = Except.ok st2) :
    (o.getD i ' ' ≠ 'X' ∧ st2 = (o, c, q, b)) ∨
    (o.getD i ' ' = 'X' ∧
      _is_qubit_deterministic c (qubits.getD (qubits.length - i - 1) 0) = false ∧
      st2 = (o, c, q, some i)) ∨
    (o.getD i ' ' = 'X' ∧
      _is_qubit_deterministic c (qubits.getD (qubits.length - i - 1) 0) = true ∧
      ∃ m, _measure_and_update c (qubits.getD (qubits.length - i - 1) 0) 0 = Except.ok m ∧
        st2 = (o.set i (digitChar (charDigit (t.getD i '0'))), c,
          (if charDigit (t.getD i '0') = m.1 then q else 0), b)) := by
  simp only [scanStep] at h
  by_cases hX : o.getD i ' ' = 'X'
  · rw [if_pos hX] at h
    by_cases hdet :
        _is_qubit_deterministic c (qubits.getD (qubits.length - i - 1) 0) = true
    · rw [if_pos hdet] at h
      refine Or.inr (Or.inr ⟨hX, hdet, ?_⟩)
      have hz : zAnticommuting c (qubits.getD (qubits.length - i - 1) 0) = false := by
        rw [is_det_iff] at hdet
        cases hzz : zAnticommuting c (qubits.getD (qubits.length - i - 1) 0)
        · rfl
        · rw [hzz] at hdet
          exact Bool.noConfusion hdet
      unfold retrieve_deterministic_probability at h
      cases hmu : _measure_and_update c (qubits.getD (qubits.length - i - 1) 0) 0 with
      | error e =>
          rw [hmu] at h
          exact Except.noConfusion h
      | ok m =>
          have hmc : m.2 = c := measure_det_state c _ 0 m hz hmu
          rw [hmu] at h
          simp only [okBind] at h
          refine ⟨m, rfl, ?_⟩
          split at h
          · rename_i hm
            simp only [pureOk, okBind] at h
            cases h
            rw [hmc, ← hm, if_pos rfl]
          · rename_i hm
            simp only [pureOk, okBind] at h
            cases h
            rw [hmc, if_neg hm]
    · rw [if_neg hdet] at h
      cases h
      exact Or.inr (Or.inl ⟨hX, eq_false_of_ne_true hdet, rfl⟩)
  · rw [if_neg hX] at h
    cases h
    exact Or.inl ⟨hX, rfl⟩

/-- A targeted scan step when the deterministic measurement outcome is
already known: the target's digit is written and the probability collapses
to 0 exactly when the target digit disagrees with the outcome. -/
theorem scanStep_det_of_measure (qubits : List Nat) (t2 : List Char) (o : List Char)
    (c : Clifford) (q : ℚ) (b : Option Nat) (i : Nat) (m : Nat × Clifford)
    (hX : o.getD i ' ' = 'X')
    (hdet : _is_qubit_deterministic c (qubits.getD (qubits.length - i - 1) 0) = true)
    (hmu : _measure_and_update c (qubits.getD (qubits.length - i - 1) 0) 0 =
      Except.ok m) :
    scanStep qubits (some t2) (o, c, q, b) i =
      Except.ok (o.set i (digitChar (charDigit (t2.getD i '0'))), c,
        (if charDigit (t2.getD i '0') = m.1 then q else 0), b) := by
  have hz : zAnticommuting c (qubits.getD (qubits.length - i - 1) 0) = false := by
    rw [is_det_iff] at hdet
    cases hzz : zAnticommuting c (qubits.getD (qubits.length - i - 1) 0)
    · rfl
    · rw [hzz] at hdet
      exact Bool.noConfusion hdet
  have hmc : m.2 = c := measure_det_state c _ 0 m hz hmu
  simp only [scanStep]
  rw [if_pos hX, if_pos hdet]
  unfold retrieve_deterministic_probability
  rw [hmu]
  show ((if charDigit (t2.getD i '0') = m.1 then
      (pure (o.set i (digitChar m.1), m.2, q) : Except String (List Char × Clifford × ℚ))
    else pure (o.set i (digitChar (charDigit (t2.getD i '0'))), m.2, 0)) >>=
    fun r => pure (r.1, r.2.1, r.2.2, b)) = _
  by_cases hm : charDigit (t2.getD i '0') = m.1
  · rw [if_pos hm, if_pos hm, hmc, ← hm]
    rfl
  · rw [if_neg hm, if_neg hm, hmc]
    rfl

/-- Shape of a successful targeted scan fold: resolved positions keep their
values, no new undetermined positions appear, the length and the tableau are
unchanged. -/
theorem scanFold_shape (qubits : List Nat) (t : List Char) :
    ∀ (l : List Nat) (o : List Char) (c : Clifford) (q : ℚ) (b : Option Nat)
      (res : List Char × Clifford × ℚ × Option Nat),
    List.foldlM (scanStep qubits (some t)) (o, c, q, b) l = Except.ok res →
    (∀ i, o.getD i ' ' ≠ 'X' → res.1.getD i ' ' = o.getD i ' ') ∧
    (∀ i, res.1.getD i ' ' = 'X' → o.getD i ' ' = 'X') ∧
    res.1.length = o.length ∧ res.2.1 = c := by
  intro l
  induction l with
  | nil =>
      intro o c q b res h
      have h2 : (Except.ok (o, c, q, b) :
          Except String (List Char × Clifford × ℚ × Option Nat)) = Except.ok res := h
      cases h2
      exact ⟨fun _ _ => rfl, fun _ hi => hi, rfl, rfl⟩
  | cons i l ih =>
      intro o c q b res h
      rw [List.foldlM_cons (scanStep qubits (some t)) (o, c, q, b) i l] at h
      cases hstep : scanStep qubits (some t) (o, c, q, b) i with
      | error e =>
          rw [hstep, errBind] at h
          exact Except.noConfusion h
      | ok st2 =>
          rw [hstep, okBind] at h
          rcases scanStep_cases qubits t o c q b i st2 hstep with
            ⟨hX, heq⟩ | ⟨hX, hnd, heq⟩ | ⟨hX, hdet, m, hmu, heq⟩
          · subst heq
            exact ih o c q b res h
          · subst heq
            exact ih o c q (some i) res h
          · subst heq
            have hio : i < o.length := lt_length_of_getD_X o i hX
            obtain ⟨hpres, hshrink, hlen, hst⟩ :=
              ih (o.set i (digitChar (charDigit (t.getD i '0')))) c _ b res h
            refine ⟨?_, ?_, ?_, hst⟩
            · intro j hj
              have hji : i ≠ j := fun hh => hj (hh ▸ hX)
              rw [hpres j (by rw [getD_set_ne o i j _ ' ' hji]; exact hj),
                getD_set_ne o i j _ ' ' hji]
            · intro j hj
              have h2 := hshrink j hj
              by_cases hji : i = j
              · subst hji
                rw [getD_set_self o i _ ' ' hio] at h2
                exact absurd h2 (digitChar_ne_X _)
              · rw [getD_set_ne o i j _ ' ' hji] at h2
                exact h2
            · rw [hlen, List.length_set]

/-- A targeted scan fold started with a branch marker keeps some marker. -/
theorem scanFold_marker_mono (qubits : List Nat) (t : List Char) :
    ∀ (l : List Nat) (o : List Char) (c : Clifford) (q : ℚ) (x : Nat)
      (res : List Char × Clifford × ℚ × Option Nat),
    List.foldlM (scanStep qubits (some t)) (o, c, q, some x) l = Except.ok res →
    ∃ y, res.2.2.2 = some y := by
  intro l
  induction l with
  | nil =>
      intro o c q x res h
      have h2 : (Except.ok (o, c, q, some x) :
          Except String (List Char × Clifford × ℚ × Option Nat)) = Except.ok res := h
      cases h2
      exact ⟨x, rfl⟩
  | cons i l ih =>
      intro o c q x res h
      rw [List.foldlM_cons (scanStep qubits (some t)) (o, c, q, some x) i l] at h
      cases hstep : scanStep qubits (some t) (o, c, q, some x) i with
      | error e =>
          rw [hstep, errBind] at h
          exact Except.noConfusion h
      | ok st2 =>
          rw [hstep, okBind] at h
          rcases scanStep_cases qubits t o c q (some x) i st2 hstep with
            ⟨hX, heq⟩ | ⟨hX, hnd, heq⟩ | ⟨hX, hdet, m, hmu, heq⟩
          · subst heq
            exact ih o c q x res h
          · subst heq
            exact ih o c q i res h
          · subst heq
            exact ih _ c _ x res h

/-- A branchless targeted scan fold started without a marker leaves no
undetermined position among the scanned ones. -/
theorem scanFold_none (qubits : List Nat) (t : List Char) :
    ∀ (l : List Nat) (o : List Char) (c : Clifford) (q : ℚ) (b : Option Nat)
      (res : List Char × Clifford × ℚ × Option Nat),
    List.foldlM (scanStep qubits (some t)) (o, c, q, b) l = Except.ok res →
    res.2.2.2 = none →
    b = none ∧ ∀ i ∈ l, res.1.getD i ' ' ≠ 'X' := by
  intro l
  induction l with
  | nil =>
      intro o c q b res h hnone
      have h2 : (Except.ok (o, c, q, b) :
          Except String (List Char × Clifford × ℚ × Option Nat)) = Except.ok res := h
      cases h2
      exact ⟨hnone, fun i hi => absurd hi (List.not_mem_nil i)⟩
  | cons i l ih =>
      intro o c q b res h hnone
      rw [List.foldlM_cons (scanStep qubits (some t)) (o, c, q, b) i l] at h
      cases hstep : scanStep qubits (some t) (o, c, q, b) i with
      | error e =>
          rw [hstep, errBind] at h
          exact Except.noConfusion h
      | ok st2 =>
          rw [hstep, okBind] at h
          rcases scanStep_cases qubits t o c q b i st2 hstep with
            ⟨hX, heq⟩ | ⟨hX, hnd, heq⟩ | ⟨hX, hdet, m, hmu, heq⟩
          · subst heq
            obtain ⟨hb, hall⟩ := ih o c q b res h hnone
            refine ⟨hb, fun j hj => ?_⟩
            rcases List.mem_cons.mp hj with hji | hjl
            · subst hji
              rw [(scanFold_shape qubits t l o c q b res h).1 j hX]
              exact hX
            · exact hall j hjl
          · subst heq
            obtain ⟨y, hy⟩ := scanFold_marker_mono qubits t l o c q i res h
            rw [hy] at hnone
            exact Option.noConfusion hnone
          · subst heq
            have hio : i < o.length := lt_length_of_getD_X o i hX
            obtain ⟨hb, hall⟩ := ih _ c _ b res h hnone
            refine ⟨hb, fun j hj => ?_⟩
            rcases List.mem_cons.mp hj with hji | hjl
            · subst hji
              rw [(scanFold_shape qubits t l _ c _ b res h).1 j
                (by rw [getD_set_self o j _ ' ' hio]; exact digitChar_ne_X _),
                getD_set_self o j _ ' ' hio]
              exact digitChar_ne_X _
            · exact hall j hjl

/-- The branch marker of a successful targeted scan fold points at an
undetermined position whose qubit is non-deterministic. -/
theorem scanFold_some (qubits : List Nat) (t : List Char) :
    ∀ (l : List Nat) (o : List Char) (c : Clifford) (q : ℚ) (b : Option Nat)
      (res : List Char × Clifford × ℚ × Option Nat),
    List.foldlM (scanStep qubits (some t)) (o, c, q, b) l = Except.ok res →
    (∀ bb, b = some bb → o.getD bb ' ' = 'X' ∧
      _is_qubit_deterministic c (qubits.getD (qubits.length - bb - 1) 0) = false) →
    ∀ bb, res.2.2.2 = some bb →
      res.1.getD bb ' ' = 'X' ∧
      _is_qubit_deterministic c (qubits.getD (qubits.length - bb - 1) 0) = false ∧
      (b = some bb ∨ bb ∈ l) := by
  intro l
  induction l with
  | nil =>
      intro o c q b res h hbinv bb hsome
      have h2 : (Except.ok (o, c, q, b) :
          Except String (List Char × Clifford × ℚ × Option Nat)) = Except.ok res := h
      cases h2
      obtain ⟨h1, h2⟩ := hbinv bb hsome
      exact ⟨h1, h2, Or.inl hsome⟩
  | cons i l ih =>
      intro o c q b res h hbinv bb hsome
      rw [List.foldlM_cons (scanStep qubits (some t)) (o, c, q, b) i l] at h
      cases hstep : scanStep qubits (some t) (o, c, q, b) i with
      | error e =>
          rw [hstep, errBind] at h
          exact Except.noConfusion h
      | ok st2 =>
          rw [hstep, okBind] at h
          rcases scanStep_cases qubits t o c q b i st2 hstep with
            ⟨hX, heq⟩ | ⟨hX, hnd, heq⟩ | ⟨hX, hdet, m, hmu, heq⟩
          · subst heq
            obtain ⟨h1, h2, h3⟩ := ih o c q b res h hbinv bb hsome
            refine ⟨h1, h2, ?_⟩
            rcases h3 with h3 | h3
            · exact Or.inl h3
            · exact Or.inr (List.mem_cons_of_mem i h3)
          · subst heq
            have hbinv2 : ∀ bb2, (some i : Option Nat) = some bb2 →
                o.getD bb2 ' ' = 'X' ∧
                _is_qubit_deterministic c (qubits.getD (qubits.length - bb2 - 1) 0) =
                  false := by
              intro bb2 hbb2
              cases hbb2
              exact ⟨hX, hnd⟩
            obtain ⟨h1, h2, h3⟩ := ih o c q (some i) res h hbinv2 bb hsome
            refine ⟨h1, h2, ?_⟩
            rcases h3 with h3 | h3
            · cases h3
              exact Or.inr (List.mem_cons_self i l)
            · exact Or.inr (List.mem_cons_of_mem i h3)
          · subst heq
            have hbinv2 : ∀ bb2, b = some bb2 →
                (o.set i (digitChar (charDigit (t.getD i '0')))).getD bb2 ' ' = 'X' ∧
                _is_qubit_deterministic c (qubits.getD (qubits.length - bb2 - 1) 0) =
                  false := by
              intro bb2 hbb2
              obtain ⟨h1, h2⟩ := hbinv bb2 hbb2
              have hne : i ≠ bb2 := by
                intro hh
                subst hh
                rw [h2] at hdet
                exact Bool.noConfusion hdet
              rw [getD_set_ne o i bb2 _ ' ' hne]
              exact ⟨h1, h2⟩
            obtain ⟨h1, h2, h3⟩ := ih _ c _ b res h hbinv2 bb hsome
            refine ⟨h1, h2, ?_⟩
            rcases h3 with h3 | h3
            · exact Or.inl h3
            · exact Or.inr (List.mem_cons_of_mem i h3)

/-- Every position a successful targeted scan fold resolves receives the
target's digit. -/
theorem scanFold_writeval (qubits : List Nat) (t : List Char) :
    ∀ (l : List Nat) (o : List Char) (c : Clifford) (q : ℚ) (b : Option Nat)
      (res : List Char × Clifford × ℚ × Option Nat),
    List.foldlM (scanStep qubits (some t)) (o, c, q, b) l = Except.ok res →
    ∀ i, o.getD i ' ' = 'X' → res.1.getD i ' ' ≠ 'X' →
      res.1.getD i ' ' = digitChar (charDigit (t.getD i '0')) := by
  intro l
  induction l with
  | nil =>
      intro o c q b res h i hX hne
      have h2 : (Except.ok (o, c, q, b) :
          Except String (List Char × Clifford × ℚ × Option Nat)) = Except.ok res := h
      cases h2
      exact absurd hX hne
  | cons i0 l ih =>
      intro o c q b res h i hX hne
      rw [List.foldlM_cons (scanStep qubits (some t)) (o, c, q, b) i0 l] at h
      cases hstep : scanStep qubits (some t) (o, c, q, b) i0 with
      | error e =>
          rw [hstep, errBind] at h
          exact Except.noConfusion h
      | ok st2 =>
          rw [hstep, okBind] at h
          rcases scanStep_cases qubits t o c q b i0 st2 hstep with
            ⟨hX0, heq⟩ | ⟨hX0, hnd, heq⟩ | ⟨hX0, hdet, m, hmu, heq⟩
          · subst heq
            exact ih o c q b res h i hX hne
          · subst heq
            exact ih o c q (some i0) res h i hX hne
          · subst heq
            have hio : i0 < o.length := lt_length_of_getD_X o i0 hX0
            by_cases hii : i0 = i
            · subst hii
              rw [(scanFold_shape qubits t l _ c _ b res h).1 i0
                (by rw [getD_set_self o i0 _ ' ' hio]; exact digitChar_ne_X _),
                getD_set_self o i0 _ ' ' hio]
            · refine ih _ c _ b res h i ?_ hne
              rw [getD_set_ne o i0 i _ ' ' hii]
              exact hX
            
/-- A targeted scan fold that leaves the pattern unchanged also leaves the
accumulated probability unchanged. -/
theorem scanFold_qeq (qubits : List Nat) (t : List Char) :
    ∀ (l : List Nat) (o : List Char) (c : Clifford) (q : ℚ) (b : Option Nat)
      (res : List Char × Clifford × ℚ × Option Nat),
    List.foldlM (scanStep qubits (some t)) (o, c, q, b) l = Except.ok res →
    res.1 = o → res.2.2.1 = q := by
  intro l
  induction l with
  | nil =>
      intro o c q b res h _
      have h2 : (Except.ok (o, c, q, b) :
          Except String (List Char × Clifford × ℚ × Option Nat)) = Except.ok res := h
      cases h2
      rfl
  | cons i l ih =>
      intro o c q b res h hoeq
      rw [List.foldlM_cons (scanStep qubits (some t)) (o, c, q, b) i l] at h
      cases hstep : scanStep qubits (some t) (o, c, q, b) i with
      | error e =>
          rw [hstep, errBind] at h
          exact Except.noConfusion h
      | ok st2 =>
          rw [hstep, okBind] at h
          rcases scanStep_cases qubits t o c q b i st2 hstep with
            ⟨hX, heq⟩ | ⟨hX, hnd, heq⟩ | ⟨hX, hdet, m, hmu, heq⟩
          · subst heq
            exact ih o c q b res h hoeq
          · subst heq
            exact ih o c q (some i) res h hoeq
          · subst heq
            have hio : i < o.length := lt_length_of_getD_X o i hX
            have hri : res.1.getD i ' ' ≠ 'X' := by
              rw [(scanFold_shape qubits t l _ c _ b res h).1 i
                (by rw [getD_set_self o i _ ' ' hio]; exact digitChar_ne_X _),
                getD_set_self o i _ ' ' hio]
              exact digitChar_ne_X _
            rw [hoeq] at hri
            exact absurd hX hri

/-- Two targets that agree (as digits) on every position a successful scan
fold resolves drive the fold to the same result. -/
theorem scanFold_agree (qubits : List Nat) (t t2 : List Char) :
    ∀ (l : List Nat) (o : List Char) (c : Clifford) (q : ℚ) (b : Option Nat)
      (res : List Char × Clifford × ℚ × Option Nat),
    List.foldlM (scanStep qubits (some t)) (o, c, q, b) l = Except.ok res →
    (∀ i, o.getD i ' ' = 'X' → res.1.getD i ' ' ≠ 'X' →
      charDigit (t.getD i '0') = charDigit (t2.getD i '0')) →
    List.foldlM (scanStep qubits (some t2)) (o, c, q, b) l = Except.ok res := by
  intro l
  induction l with
  | nil =>
      intro o c q b res h _
      exact h
  | cons i l ih =>
      intro o c q b res h hagree
      rw [List.foldlM_cons (scanStep qubits (some t)) (o, c, q, b) i l] at h
      rw [List.foldlM_cons (scanStep qubits (some t2)) (o, c, q, b) i l]
      cases hstep : scanStep qubits (some t) (o, c, q, b) i with
      | error e =>
          rw [hstep, errBind] at h
          exact Except.noConfusion h
      | ok st2 =>
          rw [hstep, okBind] at h
          rcases scanStep_cases qubits t o c q b i st2 hstep with
            ⟨hX, heq⟩ | ⟨hX, hnd, heq⟩ | ⟨hX, hdet, m, hmu, heq⟩
          · subst heq
            rw [scanStep_skip qubits (some t2) o c q b i hX, okBind]
            exact ih o c q b res h hagree
          · subst heq
            rw [scanStep_nondet qubits (some t2) o c q b i hX hnd, okBind]
            exact ih o c q (some i) res h hagree
          · subst heq
            have hio : i < o.length := lt_length_of_getD_X o i hX
            have hri : res.1.getD i ' ' ≠ 'X' := by
              rw [(scanFold_shape qubits t l _ c _ b res h).1 i
                (by rw [getD_set_self o i _ ' ' hio]; exact digitChar_ne_X _),
                getD_set_self o i _ ' ' hio]
              exact digitChar_ne_X _
            have hcd := hagree i hX hri
            rw [scanStep_det_of_measure qubits t2 o c q b i m hX hdet hmu, okBind, ← hcd]
            refine ih _ c _ b res h ?_
            intro j hj1 hj2
            have hji : i ≠ j := by
              intro hh
              subst hh
              rw [getD_set_self o i _ ' ' hio] at hj1
              exact absurd hj1 (digitChar_ne_X _)
            rw [getD_set_ne o i j _ ' ' hji] at hj1
            exact hagree j hj1 hj2

/-- Under a valid tableau the targeted scan fold always succeeds. -/
theorem scanFold_target_total (qubits : List Nat) (t : List Char) (c : Clifford)
    (hv : Valid c) :
    ∀ (l : List Nat) (o : List Char) (q : ℚ) (b : Option Nat),
    ∃ res, List.foldlM (scanStep qubits (some t)) (o, c, q, b) l = Except.ok res := by
  intro l
  induction l with
  | nil =>
      intro o q b
      exact ⟨(o, c, q, b), rfl⟩
  | cons i l ih =>
      intro o q b
      by_cases hX : o.getD i ' ' = 'X'
      · by_cases hdet :
            _is_qubit_deterministic c (qubits.getD (qubits.length - i - 1) 0) = true
        · obtain ⟨q1, hstep, _⟩ := scanStep_det_target qubits t o c q b i hX hdet hv
          obtain ⟨res, hrest⟩ := ih (o.set i (digitChar (charDigit (t.getD i '0')))) q1 b
          refine ⟨res, ?_⟩
          rw [List.foldlM_cons (scanStep qubits (some t)) (o, c, q, b) i l, hstep, okBind]
          exact hrest
        · obtain ⟨res, hrest⟩ := ih o q (some i)
          refine ⟨res, ?_⟩
          rw [List.foldlM_cons (scanStep qubits (some t)) (o, c, q, b) i l,
            scanStep_nondet qubits (some t) o c q b i hX (eq_false_of_ne_true hdet),
            okBind]
          exact hrest
      · obtain ⟨res, hrest⟩ := ih o q b
        refine ⟨res, ?_⟩
        rw [List.foldlM_cons (scanStep qubits (some t)) (o, c, q, b) i l,
          scanStep_skip qubits (some t) o c q b i hX, okBind]
        exact hrest

/-- A targeted resolution scan of a valid tableau succeeds and returns the
tableau unchanged. -/
theorem resolveScan_target_ok (qubits : List Nat) (t : List Char) (o : List Char)
    (c : Clifford) (q : ℚ) (hv : Valid c) :
    ∃ o1 q1 b1, resolveScan qubits o c q (some t) = Except.ok (o1, c, q1, b1) := by
  unfold resolveScan
  by_cases hcon : o.contains 'X' = true
  · rw [if_pos hcon]
    obtain ⟨res, hres⟩ := scanFold_target_total qubits t c hv (List.range qubits.length) o q none
    obtain ⟨o1, c1, q1, b1⟩ := res
    have hc1 : c1 = c :=
      (scanFold_shape qubits t (List.range qubits.length) o c q none (o1, c1, q1, b1)
        hres).2.2.2
    subst hc1
    exact ⟨o1, q1, b1, hres⟩
  · rw [if_neg hcon]
    exact ⟨o, q, none, rfl⟩

/-- In-range `getD` does not depend on the default. -/
theorem getD_irrel {α : Type} (l : List α) (i : Nat) (d1 d2 : α) (h : i < l.length) :
    l.getD i d1 = l.getD i d2 := by
  rw [List.getD_eq_getElem l d1 h, List.getD_eq_getElem l d2 h]

/-- Lists of equal length agreeing under `getD` are equal. -/
theorem list_eq_of_getD {α : Type} (l1 l2 : List α) (d : α) (hlen : l1.length = l2.length)
    (h : ∀ i, i < l1.length → l1.getD i d = l2.getD i d) : l1 = l2 := by
  apply List.ext_getElem hlen
  intro i h1 h2
  have h3 := h i h1
  rw [List.getD_eq_getElem l1 d h1, List.getD_eq_getElem l2 d h2] at h3
  exact h3

/-- Patterns with fewer occurrences of `X` position by position count no
more of them. -/
theorem cntX_le_of_shrink (o1 o : List Char) (L : Nat)
    (h : ∀ i, o1.getD i ' ' = 'X' → o.getD i ' ' = 'X') :
    cntX o1 L ≤ cntX o L := by
  unfold cntX
  refine nsum_le _ _ _ (fun j _ => ?_)
  by_cases hX : o1.getD j ' ' = 'X'
  · rw [if_pos hX, if_pos (h j hX)]
  · rw [if_neg hX]
    exact Nat.zero_le _

/-- Resolving an in-range undetermined position strictly decreases the
undetermined count. -/
theorem cntX_set_lt (o1 : List Char) (L bb : Nat) (ch : Char) (hbb : bb < L)
    (hX : o1.getD bb ' ' = 'X') (hch : ch ≠ 'X') :
    cntX (o1.set bb ch) L < cntX o1 L := by
  have hbo : bb < o1.length := lt_length_of_getD_X o1 bb hX
  unfold cntX
  refine nsum_lt _ _ _ bb hbb ?_ (fun j _ => ?_)
  · rw [getD_set_self o1 bb ch ' ' hbo, if_neg hch, if_pos hX]
    omega
  · by_cases hjb : bb = j
    · subst hjb
      rw [getD_set_self o1 bb ch ' ' hbo, if_neg hch]
      exact Nat.zero_le _
    · rw [getD_set_ne o1 bb j ch ' ' hjb]

/-- Full shape of a successful targeted resolution scan: tableau unchanged,
resolved positions preserved, undetermined positions only disappear and
receive the target's digit when they do, a branchless scan leaves nothing
undetermined in range, a branch marker points at an in-range undetermined
position with a non-deterministic qubit, and a scan that leaves the pattern
alone leaves the probability alone. -/
theorem resolveScan_target_facts (qubits : List Nat) (t : List Char) (o : List Char)
    (c : Clifford) (q : ℚ) (o1 : List Char) (c1 : Clifford) (q1 : ℚ) (b1 : Option Nat)
    (h : resolveScan qubits o c q (some t) = Except.ok (o1, c1, q1, b1)) :
    c1 = c ∧
    (∀ i, o.getD i ' ' ≠ 'X' → o1.getD i ' ' = o.getD i ' ') ∧
    (∀ i, o1.getD i ' ' = 'X' → o.getD i ' ' = 'X') ∧
    o1.length = o.length ∧
    (∀ i, o.getD i ' ' = 'X' → o1.getD i ' ' ≠ 'X' →
      o1.getD i ' ' = digitChar (charDigit (t.getD i '0'))) ∧
    (b1 = none → ∀ i, i < qubits.length → o1.getD i ' ' ≠ 'X') ∧
    (∀ bb, b1 = some bb → o1.getD bb ' ' = 'X' ∧
      _is_qubit_deterministic c (qubits.getD (qubits.length - bb - 1) 0) = false ∧
      bb < qubits.length) ∧
    (o1 = o → q1 = q) := by
  unfold resolveScan at h
  by_cases hcon : o.contains 'X' = true
  · rw [if_pos hcon] at h
    obtain ⟨hpres, hshrink, hlen, hst⟩ :=
      scanFold_shape qubits t (List.range qubits.length) o c q none (o1, c1, q1, b1) h
    refine ⟨hst, hpres, hshrink, hlen,
      scanFold_writeval qubits t (List.range qubits.length) o c q none (o1, c1, q1, b1) h,
      ?_, ?_, fun hoe => scanFold_qeq qubits t (List.range qubits.length) o c q none
        (o1, c1, q1, b1) h hoe⟩
    · intro hb i hi
      exact (scanFold_none qubits t (List.range qubits.length) o c q none (o1, c1, q1, b1)
        h hb).2 i (List.mem_range.mpr hi)
    · intro bb hbb
      obtain ⟨h1, h2, h3⟩ := scanFold_some qubits t (List.range qubits.length) o c q none
        (o1, c1, q1, b1) h (fun bb2 hbb2 => Option.noConfusion hbb2) bb hbb
      rcases h3 with h3 | h3
      · exact Option.noConfusion h3
      · exact ⟨h1, h2, List.mem_range.mp h3⟩
  · rw [if_neg hcon] at h
    have h2 : (Except.ok (o, c, q, (none : Option Nat)) :
        Except String (List Char × Clifford × ℚ × Option Nat)) =
        Except.ok (o1, c1, q1, b1) := h
    cases h2
    have hnoX : ∀ i, o.getD i ' ' ≠ 'X' := by
      intro i hXi
      have hio : i < o.length := lt_length_of_getD_X o i hXi
      have hmem : o.getD i ' ' ∈ o := getD_mem_of_lt o i ' ' hio
      rw [hXi] at hmem
      exact hcon (List.elem_eq_true_of_mem hmem)
    exact ⟨rfl, fun _ _ => rfl, fun i hi => hi, rfl,
      fun i hXi => absurd hXi (hnoX i), fun _ i _ => hnoX i,
      fun bb hbb => Option.noConfusion hbb, fun _ => rfl⟩

/-- Two targets agreeing (as digits) on every position a successful scan
resolves drive the scan to the same result. -/
theorem resolveScan_agree (qubits : List Nat) (t t2 : List Char) (o : List Char)
    (c : Clifford) (q : ℚ) (res : List Char × Clifford × ℚ × Option Nat)
    (h : resolveScan qubits o c q (some t) = Except.ok res)
    (hag : ∀ i, o.getD i ' ' = 'X' → res.1.getD i ' ' ≠ 'X' →
      charDigit (t.getD i '0') = charDigit (t2.getD i '0')) :
    resolveScan qubits o c q (some t2) = Except.ok res := by
  unfold resolveScan at h ⊢
  by_cases hcon : o.contains 'X' = true
  · rw [if_pos hcon] at h ⊢
    exact scanFold_agree qubits t t2 (List.range qubits.length) o c q none res h hag
  · rw [if_neg hcon] at h ⊢
    exact h

/-- Case analysis of a successful chain step: either the scan finishes the
pattern, or it marks a branch position whose target bit is measured into
the unique child node. -/
theorem chainStep_cases (qubits : List Nat) (t : List Char) (o : List Char)
    (c : Clifford) (q : ℚ) (out : (List Char × ℚ) ⊕ (List Char × Clifford × ℚ))
    (h : chainStep qubits t o c q = Except.ok out) :
    (∃ o1 q1, resolveScan qubits o c q (some t) = Except.ok (o1, c, q1, none) ∧
      out = Sum.inl (o1, q1)) ∨
    (∃ o1 q1 bb m, resolveScan qubits o c q (some t) = Except.ok (o1, c, q1, some bb) ∧
      _measure_and_update c (qubits.getD (qubits.length - bb - 1) 0)
        (charDigit (t.getD bb '0')) = Except.ok m ∧
      out = Sum.inr (o1.set bb (digitChar (charDigit (t.getD bb '0'))), m.2,
        (1 / 2 : ℚ) * q1)) := by
  unfold chainStep at h
  cases hscan : resolveScan qubits o c q (some t) with
  | error e =>
      rw [hscan, errBind] at h
      exact Except.noConfusion h
  | ok r =>
      obtain ⟨o1, c1, q1, b1⟩ := r
      have hc1 : c1 = c :=
        (resolveScan_target_facts qubits t o c q o1 c1 q1 b1 hscan).1
      subst hc1
      rw [hscan, okBind] at h
      cases b1 with
      | none =>
          have h2 : (Except.ok (Sum.inl (o1, q1)) :
              Except String ((List Char × ℚ) ⊕ (List Char × Clifford × ℚ))) =
              Except.ok out := h
          cases h2
          exact Or.inl ⟨o1, q1, rfl, rfl⟩
      | some bb =>
          have h2 : (_measure_and_update c1 (qubits.getD (qubits.length - bb - 1) 0)
              (charDigit (t.getD bb '0')) >>= fun m =>
              (pure (Sum.inr (o1.set bb
                (if charDigit (t.getD bb '0') != 0 then '1' else '0'), m.2,
                (1 / 2 : ℚ) * q1)) :
                Except String ((List Char × ℚ) ⊕ (List Char × Clifford × ℚ)))) =
              Except.ok out := h
          cases hmu : _measure_and_update c1 (qubits.getD (qubits.length - bb - 1) 0)
              (charDigit (t.getD bb '0')) with
          | error e =>
              rw [hmu, errBind] at h2
              exact Except.noConfusion h2
          | ok m =>
              rw [hmu, okBind, pureOk] at h2
              cases h2
              exact Or.inr ⟨o1, q1, bb, m, rfl, hmu, rfl⟩

/-- Shape of a successful branching chain step: resolved positions are
preserved, undetermined positions only disappear and receive the target's
digit, length is kept. -/
theorem chainStep_shape (qubits : List Nat) (t : List Char) (o : List Char)
    (c : Clifford) (q : ℚ) (n2 : List Char × Clifford × ℚ)
    (h : chainStep qubits t o c q = Except.ok (Sum.inr n2)) :
    (∀ i, o.getD i ' ' ≠ 'X' → n2.1.getD i ' ' = o.getD i ' ') ∧
    (∀ i, n2.1.getD i ' ' = 'X' → o.getD i ' ' = 'X') ∧
    n2.1.length = o.length ∧
    (∀ i, o.getD i ' ' = 'X' → n2.1.getD i ' ' ≠ 'X' →
      n2.1.getD i ' ' = digitChar (charDigit (t.getD i '0'))) := by
  rcases chainStep_cases qubits t o c q (Sum.inr n2) h with
    ⟨o1, q1, _, heq⟩ | ⟨o1, q1, bb, m, hscan, hmu, heq⟩
  · exact Sum.noConfusion heq
  · obtain ⟨_, hpres, hshrink, hlen, hwv, _, hsome, _⟩ :=
      resolveScan_target_facts qubits t o c q o1 c q1 (some bb) hscan
    obtain ⟨hXbb, _, _⟩ := hsome bb rfl
    have hbo1 : bb < o1.length := lt_length_of_getD_X o1 bb hXbb
    have hn21 : n2.1 = o1.set bb (digitChar (charDigit (t.getD bb '0'))) := by
      rw [Sum.inr.inj heq]
    refine ⟨?_, ?_, ?_, ?_⟩
    · intro i hi
      have hne : bb ≠ i := by
        intro hh
        subst hh
        exact hi (hshrink bb hXbb)
      rw [hn21, getD_set_ne o1 bb i _ ' ' hne]
      exact hpres i hi
    · intro i hi
      rw [hn21] at hi
      by_cases hbi : bb = i
      · subst hbi
        rw [getD_set_self o1 bb _ ' ' hbo1] at hi
        exact absurd hi (digitChar_ne_X _)
      · rw [getD_set_ne o1 bb i _ ' ' hbi] at hi
        exact hshrink i hi
    · rw [hn21, List.length_set, hlen]
    · intro i hXi hni
      by_cases hbi : bb = i
      · subst hbi
        rw [hn21, getD_set_self o1 bb _ ' ' hbo1]
      · rw [hn21, getD_set_ne o1 bb i _ ' ' hbi] at hni ⊢
        exact hwv i hXi hni

/-- Shape of a successful finishing chain step: the completed pattern keeps
resolved positions, resolves everything in range, and writes the target's
digit at every freshly resolved position. -/
theorem chainStep_leaf_shape (qubits : List Nat) (t : List Char) (o : List Char)
    (c : Clifford) (q : ℚ) (leaf : List Char × ℚ)
    (h : chainStep qubits t o c q = Except.ok (Sum.inl leaf)) :
    (∀ i, o.getD i ' ' ≠ 'X' → leaf.1.getD i ' ' = o.getD i ' ') ∧
    leaf.1.length = o.length ∧
    (∀ i, i < qubits.length → leaf.1.getD i ' ' ≠ 'X') ∧
    (∀ i, o.getD i ' ' = 'X' → leaf.1.getD i ' ' ≠ 'X' →
      leaf.1.getD i ' ' = digitChar (charDigit (t.getD i '0'))) := by
  rcases chainStep_cases qubits t o c q (Sum.inl leaf) h with
    ⟨o1, q1, hscan, heq⟩ | ⟨o1, q1, bb, m, _, _, heq⟩
  · obtain ⟨_, hpres, _, hlen, hwv, hnone, _, _⟩ :=
      resolveScan_target_facts qubits t o c q o1 c q1 none hscan
    have hl1 : leaf.1 = o1 := by rw [Sum.inl.inj heq]
    rw [hl1]
    exact ⟨hpres, hlen, hnone rfl, hwv⟩
  · exact Sum.noConfusion heq

/-- Two targets agreeing (as digits) on every position a successful
branching chain step resolves produce the same step. -/
theorem chainStep_agree (qubits : List Nat) (t t2 : List Char) (o : List Char)
    (c : Clifford) (q : ℚ) (n2 : List Char × Clifford × ℚ)
    (h : chainStep qubits t o c q = Except.ok (Sum.inr n2))
    (hag : ∀ i, o.getD i ' ' = 'X' → n2.1.getD i ' ' ≠ 'X' →
      charDigit (t.getD i '0') = charDigit (t2.getD i '0')) :
    chainStep qubits t2 o c q = Except.ok (Sum.inr n2) := by
  rcases chainStep_cases qubits t o c q (Sum.inr n2) h with
    ⟨o1, q1, _, heq⟩ | ⟨o1, q1, bb, m, hscan, hmu, heq⟩
  · exact Sum.noConfusion heq
  · obtain ⟨_, _, hshrink, _, _, _, hsome, _⟩ :=
      resolveScan_target_facts qubits t o c q o1 c q1 (some bb) hscan
    obtain ⟨hXbb, _, _⟩ := hsome bb rfl
    have hbo1 : bb < o1.length := lt_length_of_getD_X o1 bb hXbb
    have hn21 : n2.1 = o1.set bb (digitChar (charDigit (t.getD bb '0'))) := by
      rw [Sum.inr.inj heq]
    have hagbb : charDigit (t.getD bb '0') = charDigit (t2.getD bb '0') := by
      refine hag bb (hshrink bb hXbb) ?_
      rw [hn21, getD_set_self o1 bb _ ' ' hbo1]
      exact digitChar_ne_X _
    have hscan2 : resolveScan qubits o c q (some t2) = Except.ok (o1, c, q1, some bb) := by
      refine resolveScan_agree qubits t t2 o c q (o1, c, q1, some bb) hscan ?_
      intro i hXi hni
      have hne : bb ≠ i := by
        intro hh
        subst hh
        exact hni hXbb
      refine hag i hXi ?_
      rw [hn21, getD_set_ne o1 bb i _ ' ' hne]
      exact hni
    unfold chainStep
    rw [hscan2, okBind]
    have hgoal : (_measure_and_update c (qubits.getD (qubits.length - bb - 1) 0)
        (charDigit (t2.getD bb '0')) >>= fun m2 =>
        (pure (Sum.inr (o1.set bb
          (if charDigit (t2.getD bb '0') != 0 then '1' else '0'), m2.2,
          (1 / 2 : ℚ) * q1)) :
          Except String ((List Char × ℚ) ⊕ (List Char × Clifford × ℚ)))) =
        Except.ok (Sum.inr n2) := by
      rw [← hagbb, hmu, okBind, pureOk, Sum.inr.inj heq]
      rfl
    exact hgoal

/-- A chain step from a valid in-range node succeeds: it either finishes or
moves to a child that is again valid, of the same width and length, agrees
with the target at every resolved position, and has strictly fewer
undetermined positions. -/
theorem chainStep_total (qubits : List Nat) (t : List Char) (nq : Nat)
    (hqs : ∀ qb ∈ qubits, qb < nq) (o : List Char) (c : Clifford) (q : ℚ)
    (hv : Valid c) (hn : c.num_qubits = nq) :
    (∃ leaf, chainStep qubits t o c q = Except.ok (Sum.inl leaf)) ∨
    (∃ n2, chainStep qubits t o c q = Except.ok (Sum.inr n2) ∧ Valid n2.2.1 ∧
      n2.2.1.num_qubits = nq ∧ cntX n2.1 qubits.length < cntX o qubits.length) := by
  obtain ⟨o1, q1, b1, hscan⟩ := resolveScan_target_ok qubits t o c q hv
  cases b1 with
  | none =>
      refine Or.inl ⟨(o1, q1), ?_⟩
      unfold chainStep
      rw [hscan, okBind]
      rfl
  | some bb =>
      obtain ⟨_, _, hshrink, _, _, _, hsome, _⟩ :=
        resolveScan_target_facts qubits t o c q o1 c q1 (some bb) hscan
      obtain ⟨hXbb, hdetF, hbbL⟩ := hsome bb rfl
      have hz : zAnticommuting c (qubits.getD (qubits.length - bb - 1) 0) = true := by
        rw [is_det_iff] at hdetF
        cases hzz : zAnticommuting c (qubits.getD (qubits.length - bb - 1) 0)
        · rw [hzz] at hdetF
          exact absurd hdetF (by decide)
        · rfl
      have hqb : qubits.getD (qubits.length - bb - 1) 0 < c.num_qubits := by
        rw [hn]
        exact hqs _ (getD_mem_of_lt qubits (qubits.length - bb - 1) 0 (by omega))
      obtain ⟨c2, hmu, hv2, hn2⟩ := measure_nondet_ok c
        (qubits.getD (qubits.length - bb - 1) 0) (charDigit (t.getD bb '0')) hv hqb hz
      refine Or.inr ⟨(o1.set bb (digitChar (charDigit (t.getD bb '0'))), c2,
        (1 / 2 : ℚ) * q1), ?_, hv2, by rw [hn2, hn], ?_⟩
      · unfold chainStep
        rw [hscan, okBind]
        have hgoal : (_measure_and_update c (qubits.getD (qubits.length - bb - 1) 0)
            (charDigit (t.getD bb '0')) >>= fun m =>
            (pure (Sum.inr (o1.set bb
              (if charDigit (t.getD bb '0') != 0 then '1' else '0'), m.2,
              (1 / 2 : ℚ) * q1)) :
              Except String ((List Char × ℚ) ⊕ (List Char × Clifford × ℚ)))) =
            Except.ok (Sum.inr (o1.set bb (digitChar (charDigit (t.getD bb '0'))), c2,
              (1 / 2 : ℚ) * q1)) := by
          rw [hmu, okBind, pureOk]
          rfl
        exact hgoal
      · calc cntX (o1.set bb (digitChar (charDigit (t.getD bb '0')))) qubits.length
            < cntX o1 qubits.length :=
              cntX_set_lt o1 qubits.length bb _ hbbL hXbb (digitChar_ne_X _)
          _ ≤ cntX o qubits.length := cntX_le_of_shrink o1 o qubits.length hshrink

/-- A finishing chain step resolves the whole recursion at one more unit of
fuel. -/
theorem chainVal_leaf (fuel : Nat) (qubits : List Nat) (t : List Char) (o : List Char)
    (c : Clifford) (q : ℚ) (leaf : List Char × ℚ)
    (h : chainStep qubits t o c q = Except.ok (Sum.inl leaf)) :
    chainVal (fuel + 1) qubits t o c q = Except.ok leaf := by
  show (chainStep qubits t o c q >>= fun x =>
    match x with
    | Sum.inl leaf2 => pure leaf2
    | Sum.inr n2 => chainVal fuel qubits t n2.1 n2.2.1 n2.2.2) = Except.ok leaf
  rw [h, okBind]
  rfl

/-- A branching chain step peels one unit of fuel off the recursion. -/
theorem chainVal_step (fuel : Nat) (qubits : List Nat) (t : List Char) (o : List Char)
    (c : Clifford) (q : ℚ) (n2 : List Char × Clifford × ℚ)
    (h : chainStep qubits t o c q = Except.ok (Sum.inr n2)) :
    chainVal (fuel + 1) qubits t o c q = chainVal fuel qubits t n2.1 n2.2.1 n2.2.2 := by
  show (chainStep qubits t o c q >>= fun x =>
    match x with
    | Sum.inl leaf2 => pure leaf2
    | Sum.inr n3 => chainVal fuel qubits t n3.1 n3.2.1 n3.2.2) = _
  rw [h, okBind]

/-- Chain evaluation is monotone in fuel. -/
theorem chainVal_mono (qubits : List Nat) (t : List Char) :
    ∀ (fuel : Nat) (o : List Char) (c : Clifford) (q : ℚ) (leaf : List Char × ℚ)
      (fuel2 : Nat),
    chainVal fuel qubits t o c q = Except.ok leaf → fuel ≤ fuel2 →
    chainVal fuel2 qubits t o c q = Except.ok leaf := by
  intro fuel
  induction fuel with
  | zero =>
      intro o c q leaf fuel2 h
      exact absurd h (by unfold chainVal; exact fun hh => Except.noConfusion hh)
  | succ fuel ih =>
      intro o c q leaf fuel2 h hle
      obtain ⟨fuel2, rfl⟩ : ∃ f2, fuel2 = f2 + 1 := ⟨fuel2 - 1, by omega⟩
      cases hstep : chainStep qubits t o c q with
      | error e =>
          rw [show chainVal (fuel + 1) qubits t o c q = chainStep qubits t o c q >>=
              fun x => match x with
              | Sum.inl leaf2 => pure leaf2
              | Sum.inr n3 => chainVal fuel qubits t n3.1 n3.2.1 n3.2.2 from rfl,
            hstep, errBind] at h
          exact Except.noConfusion h
      | ok out =>
          cases out with
          | inl leaf2 =>
              rw [chainVal_leaf fuel qubits t o c q leaf2 hstep] at h
              rw [chainVal_leaf fuel2 qubits t o c q leaf2 hstep]
              exact h
          | inr n2 =>
              rw [chainVal_step fuel qubits t o c q n2 hstep] at h
              rw [chainVal_step fuel2 qubits t o c q n2 hstep]
              exact ih n2.1 n2.2.1 n2.2.2 leaf fuel2 h (by omega)

/-- From a valid in-range node that agrees with a well-formed target, chain
evaluation with enough fuel completes the target pattern. -/
theorem chainVal_total (qubits : List Nat) (t : List Char) (nq : Nat)
    (hqs : ∀ qb ∈ qubits, qb < nq) (hwt : wfTarget qubits.length t) :
    ∀ (fuel : Nat) (o : List Char) (c : Clifford) (q : ℚ),
    Valid c → c.num_qubits = nq → o.length = qubits.length →
    (∀ i, i < qubits.length → o.getD i ' ' ≠ 'X' → o.getD i ' ' = t.getD i '0') →
    cntX o qubits.length < fuel →
    ∃ v, chainVal fuel qubits t o c q = Except.ok (t, v) := by
  intro fuel
  induction fuel with
  | zero =>
      intro o c q _ _ _ _ hcnt
      omega
  | succ fuel ih =>
      intro o c q hv hn hlen hcompat hcnt
      rcases chainStep_total qubits t nq hqs o c q hv hn with
        ⟨leaf, hstep⟩ | ⟨n2, hstep, hv2, hn2, hdrop⟩
      · obtain ⟨hpres, hlenL, hnoX, hwv⟩ :=
          chainStep_leaf_shape qubits t o c q leaf hstep
        have hleq : leaf.1 = t := by
          refine list_eq_of_getD leaf.1 t '0' (by rw [hlenL, hlen, hwt.1]) ?_
          intro i hi
          have hiL : i < qubits.length := by
            rw [hlenL, hlen] at hi
            exact hi
          have hne : leaf.1.getD i ' ' ≠ 'X' := hnoX i hiL
          have hrt : digitChar (charDigit (t.getD i '0')) = t.getD i '0' := by
            have hit : i < t.length := by rw [hwt.1]; exact hiL
            exact digitChar_charDigit _ (hwt.2 _ (getD_mem_of_lt t i '0' hit))
          have hval : leaf.1.getD i ' ' = t.getD i '0' := by
            by_cases hXo : o.getD i ' ' = 'X'
            · rw [hwv i hXo hne, hrt]
            · rw [hpres i hXo]
              exact hcompat i hiL hXo
          rw [← getD_irrel leaf.1 i ' ' '0' hi]
          exact hval
        refine ⟨leaf.2, ?_⟩
        rw [chainVal_leaf fuel qubits t o c q leaf hstep, ← hleq]
      · have hcompat2 : ∀ i, i < qubits.length → n2.1.getD i ' ' ≠ 'X' →
            n2.1.getD i ' ' = t.getD i '0' := by
          intro i hiL hne
          obtain ⟨hpres, _, _, hwv⟩ := chainStep_shape qubits t o c q n2 hstep
          by_cases hXo : o.getD i ' ' = 'X'
          · rw [hwv i hXo hne, digitChar_charDigit _ ?_]
            have hit : i < t.length := by rw [hwt.1]; exact hiL
            exact hwt.2 _ (getD_mem_of_lt t i '0' hit)
          · rw [hpres i hXo]
            exact hcompat i hiL hXo
        have hlen2 : n2.1.length = qubits.length := by
          rw [(chainStep_shape qubits t o c q n2 hstep).2.2.1, hlen]
        obtain ⟨v, hval⟩ := ih n2.1 n2.2.1 n2.2.2 hv2 hn2 hlen2 hcompat2 (by omega)
        refine ⟨v, ?_⟩
        rw [chainVal_step fuel qubits t o c q n2 hstep]
        exact hval

/-- Extending a chain walk by one branching step at the end. -/
theorem ReachesN_snoc (qubits : List Nat) (t : List Char) :
    ∀ (k : Nat) (n n2 n3 : List Char × Clifford × ℚ),
    ReachesN k qubits t n n2 →
    chainStep qubits t n2.1 n2.2.1 n2.2.2 = Except.ok (Sum.inr n3) →
    ReachesN (k + 1) qubits t n n3 := by
  intro k
  induction k with
  | zero =>
      intro n n2 n3 hr hstep
      cases hr
      exact ⟨n3, hstep, rfl⟩
  | succ k ih =>
      intro n n2 n3 hr hstep
      obtain ⟨m, hm, hr2⟩ := hr
      exact ⟨m, hm, ih m n2 n3 hr2 hstep⟩

/-- Shape along a chain walk: resolved positions are preserved,
undetermined positions only disappear and receive the target's digit,
length is kept. -/
theorem ReachesN_shape (qubits : List Nat) (t : List Char) :
    ∀ (k : Nat) (n n2 : List Char × Clifford × ℚ),
    ReachesN k qubits t n n2 →
    (∀ i, n.1.getD i ' ' ≠ 'X' → n2.1.getD i ' ' = n.1.getD i ' ') ∧
    (∀ i, n2.1.getD i ' ' = 'X' → n.1.getD i ' ' = 'X') ∧
    n2.1.length = n.1.length ∧
    (∀ i, n.1.getD i ' ' = 'X' → n2.1.getD i ' ' ≠ 'X' →
      n2.1.getD i ' ' = digitChar (charDigit (t.getD i '0'))) := by
  intro k
  induction k with
  | zero =>
      intro n n2 hr
      cases hr
      exact ⟨fun _ _ => rfl, fun _ h => h, rfl, fun _ hX hne => absurd hX hne⟩
  | succ k ih =>
      intro n n2 hr
      obtain ⟨m, hm, hr2⟩ := hr
      obtain ⟨spres, sshrink, slen, swv⟩ := chainStep_shape qubits t n.1 n.2.1 n.2.2 m hm
      obtain ⟨rpres, rshrink, rlen, rwv⟩ := ih m n2 hr2
      refine ⟨?_, ?_, ?_, ?_⟩
      · intro i hi
        rw [rpres i (by rw [spres i hi]; exact hi), spres i hi]
      · intro i hi
        exact sshrink i (rshrink i hi)
      · rw [rlen, slen]
      · intro i hXi hni
        by_cases hXm : m.1.getD i ' ' = 'X'
        · exact rwv i hXm hni
        · rw [rpres i hXm]
          exact swv i hXi hXm

/-- The undetermined count never grows along a chain walk. -/
theorem ReachesN_cntX_le (qubits : List Nat) (t : List Char) :
    ∀ (k : Nat) (n n2 : List Char × Clifford × ℚ),
    ReachesN k qubits t n n2 →
    cntX n2.1 qubits.length ≤ cntX n.1 qubits.length := by
  intro k n n2 hr
  exact cntX_le_of_shrink n2.1 n.1 qubits.length
    (ReachesN_shape qubits t k n n2 hr).2.1

/-- The undetermined count strictly drops over a nonempty chain walk. -/
theorem ReachesN_cntX_lt (qubits : List Nat) (t : List Char) :
    ∀ (k : Nat) (n n2 : List Char × Clifford × ℚ),
    ReachesN (k + 1) qubits t n n2 →
    cntX n2.1 qubits.length < cntX n.1 qubits.length := by
  intro k n n2 hr
  obtain ⟨m, hm, hr2⟩ := hr
  have h1 : cntX n2.1 qubits.length ≤ cntX m.1 qubits.length :=
    ReachesN_cntX_le qubits t k m n2 hr2
  rcases chainStep_cases qubits t n.1 n.2.1 n.2.2 (Sum.inr m) hm with
    ⟨o1, q1, _, heq⟩ | ⟨o1, q1, bb, mm, hscan, _, heq⟩
  · exact Sum.noConfusion heq
  · obtain ⟨_, _, hshrink, _, _, _, hsome, _⟩ :=
      resolveScan_target_facts qubits t n.1 n.2.1 n.2.2 o1 n.2.1 q1 (some bb) hscan
    obtain ⟨hXbb, _, hbbL⟩ := hsome bb rfl
    have hm1 : m.1 = o1.set bb (digitChar (charDigit (t.getD bb '0'))) := by
      rw [Sum.inr.inj heq]
    have h2 : cntX m.1 qubits.length < cntX n.1 qubits.length := by
      rw [hm1]
      calc cntX (o1.set bb (digitChar (charDigit (t.getD bb '0')))) qubits.length
          < cntX o1 qubits.length :=
            cntX_set_lt o1 qubits.length bb _ hbbL hXbb (digitChar_ne_X _)
        _ ≤ cntX n.1 qubits.length := cntX_le_of_shrink o1 n.1 qubits.length hshrink
    omega

/-- Two walks along the same deterministic chain are nested. -/
theorem ReachesN_linear (qubits : List Nat) (t : List Char) :
    ∀ (k1 k2 : Nat) (n A B : List Char × Clifford × ℚ),
    ReachesN k1 qubits t n A → ReachesN k2 qubits t n B → k1 ≤ k2 →
    ReachesN (k2 - k1) qubits t A B := by
  intro k1
  induction k1 with
  | zero =>
      intro k2 n A B hA hB _
      cases hA
      exact hB
  | succ k1 ih =>
      intro k2 n A B hA hB hle
      obtain ⟨m, hm, hr⟩ := hA
      obtain ⟨k2, rfl⟩ : ∃ kk, k2 = kk + 1 := ⟨k2 - 1, by omega⟩
      obtain ⟨m2, hm2, hr2⟩ := hB
      have hmm : m = m2 := by
        have := hm.symm.trans hm2
        exact Sum.inr.inj (Except.ok.inj this)
      subst hmm
      have : k2 + 1 - (k1 + 1) = k2 - k1 := by omega
      rw [this]
      exact ih k2 m A B hr hr2 (by omega)

/-- A chain walk is insensitive to the target beyond the digits of the
positions it resolves. -/
theorem ReachesN_transfer (qubits : List Nat) (t t2 : List Char) :
    ∀ (k : Nat) (n n2 : List Char × Clifford × ℚ),
    ReachesN k qubits t n n2 →
    (∀ i, n.1.getD i ' ' = 'X' → n2.1.getD i ' ' ≠ 'X' →
      charDigit (t.getD i '0') = charDigit (t2.getD i '0')) →
    ReachesN k qubits t2 n n2 := by
  intro k
  induction k with
  | zero =>
      intro n n2 hr _
      exact hr
  | succ k ih =>
      intro n n2 hr hag
      obtain ⟨m, hm, hr2⟩ := hr
      obtain ⟨_, rshrink, _, _⟩ := ReachesN_shape qubits t k m n2 hr2
      obtain ⟨_, sshrink, _, _⟩ := chainStep_shape qubits t n.1 n.2.1 n.2.2 m hm
      have hag1 : ∀ i, n.1.getD i ' ' = 'X' → m.1.getD i ' ' ≠ 'X' →
          charDigit (t.getD i '0') = charDigit (t2.getD i '0') := by
        intro i hXi hni
        refine hag i hXi ?_
        intro hX2
        exact hni (rshrink i hX2)
      refine ⟨m, chainStep_agree qubits t t2 n.1 n.2.1 n.2.2 m hm hag1, ?_⟩
      refine ih m n2 hr2 ?_
      intro i hXm hn2
      exact hag i (sshrink i hXm) hn2

/-- Chain evaluation from the start of a walk equals chain evaluation from
its end, with the walk's steps of fuel consumed. -/
theorem chainVal_reach (qubits : List Nat) (t : List Char) :
    ∀ (k : Nat) (n n2 : List Char × Clifford × ℚ) (fuel : Nat),
    ReachesN k qubits t n n2 →
    chainVal (k + fuel) qubits t n.1 n.2.1 n.2.2 =
      chainVal fuel qubits t n2.1 n2.2.1 n2.2.2 := by
  intro k
  induction k with
  | zero =>
      intro n n2 fuel hr
      cases hr
      rw [Nat.zero_add]
  | succ k ih =>
      intro n n2 fuel hr
      obtain ⟨m, hm, hr2⟩ := hr
      have harith : k + 1 + fuel = (k + fuel) + 1 := by omega
      rw [harith, chainVal_step (k + fuel) qubits t n.1 n.2.1 n.2.2 m hm]
      exact ih m n2 fuel hr2

/-- Validity, width, length and target agreement propagate along a chain
walk. -/
theorem ReachesN_wf (qubits : List Nat) (t : List Char) (nq : Nat)
    (hqs : ∀ qb ∈ qubits, qb < nq) (hwt : wfTarget qubits.length t) :
    ∀ (k : Nat) (n n2 : List Char × Clifford × ℚ),
    ReachesN k qubits t n n2 →
    Valid n.2.1 → n.2.1.num_qubits = nq → n.1.length = qubits.length →
    (∀ i, i < qubits.length → n.1.getD i ' ' ≠ 'X' → n.1.getD i ' ' = t.getD i '0') →
    Valid n2.2.1 ∧ n2.2.1.num_qubits = nq ∧ n2.1.length = qubits.length ∧
    (∀ i, i < qubits.length → n2.1.getD i ' ' ≠ 'X' →
      n2.1.getD i ' ' = t.getD i '0') := by
  intro k
  induction k with
  | zero =>
      intro n n2 hr hv hn hlen hcompat
      cases hr
      exact ⟨hv, hn, hlen, hcompat⟩
  | succ k ih =>
      intro n n2 hr hv hn hlen hcompat
      obtain ⟨m, hm, hr2⟩ := hr
      obtain ⟨spres, _, slen, swv⟩ := chainStep_shape qubits t n.1 n.2.1 n.2.2 m hm
      have hvm : Valid m.2.1 ∧ m.2.1.num_qubits = nq := by
        rcases chainStep_cases qubits t n.1 n.2.1 n.2.2 (Sum.inr m) hm with
          ⟨o1, q1, _, heq⟩ | ⟨o1, q1, bb, mm, hscan, hmu, heq⟩
        · exact Sum.noConfusion heq
        · obtain ⟨_, _, _, _, _, _, hsome, _⟩ :=
            resolveScan_target_facts qubits t n.1 n.2.1 n.2.2 o1 n.2.1 q1 (some bb) hscan
          obtain ⟨_, _, hbbL⟩ := hsome bb rfl
          have hqb : qubits.getD (qubits.length - bb - 1) 0 < n.2.1.num_qubits := by
            rw [hn]
            exact hqs _ (getD_mem_of_lt qubits (qubits.length - bb - 1) 0 (by omega))
          obtain ⟨out, c2, he, hv2, hn2, _, _⟩ :=
            measure_ok n.2.1 (qubits.getD (qubits.length - bb - 1) 0)
              (charDigit (t.getD bb '0')) hv hqb
          have hmmeq : mm = (out, c2) := Except.ok.inj (hmu.symm.trans he)
          have hm21 : m.2.1 = c2 := by
            rw [Sum.inr.inj heq, hmmeq]
          rw [hm21]
          exact ⟨hv2, by rw [hn2, hn]⟩
      refine ih m n2 hr2 hvm.1 hvm.2 (by rw [slen, hlen]) ?_
      intro i hiL hne
      by_cases hXo : n.1.getD i ' ' = 'X'
      · rw [swv i hXo hne]
        refine digitChar_charDigit _ ?_
        have hit : i < t.length := by rw [hwt.1]; exact hiL
        exact hwt.2 _ (getD_mem_of_lt t i '0' hit)
      · rw [spres i hXo]
        exact hcompat i hiL hXo

/-- Patterns along a chain walk from a well-formed pattern stay well
formed. -/
theorem ReachesN_wfPat (qubits : List Nat) (t : List Char) :
    ∀ (k : Nat) (n n2 : List Char × Clifford × ℚ),
    ReachesN k qubits t n n2 → wfPat n.1 → wfPat n2.1 := by
  intro k n n2 hr hwf i hi
  obtain ⟨hpres, hshrink, hlen, hwv⟩ := ReachesN_shape qubits t k n n2 hr
  by_cases hX2 : n2.1.getD i ' ' = 'X'
  · exact Or.inl hX2
  · by_cases hXo : n.1.getD i ' ' = 'X'
    · rw [hwv i hXo hX2]
      unfold digitChar
      split
      · exact Or.inr (Or.inr rfl)
      · exact Or.inr (Or.inl rfl)
    · rw [hpres i hXo]
      rcases hwf i (by rw [← hlen]; exact hi) with h | h | h
      · exact absurd h hXo
      · exact Or.inr (Or.inl h)
      · exact Or.inr (Or.inr h)

/-- Binding a pure continuation is the identity. -/
theorem bindPureId {α : Type} (x : Except String α) : (x >>= fun s => pure s) = x := by
  cases x <;> rfl

/-- A fold over a singleton list is its step followed by the pure return. -/
theorem foldlM_singleton_eq {σ α : Type} (f : σ → α → Except String σ) (s0 : σ)
    (a : α) : List.foldlM f s0 [a] = f s0 a >>= fun s => pure s := rfl

/-- One level of the chain evaluation. -/
theorem chainVal_succ (fuel : Nat) (qubits : List Nat) (t : List Char) (o : List Char)
    (c : Clifford) (q : ℚ) :
    chainVal (fuel + 1) qubits t o c q =
      chainStep qubits t o c q >>= fun x =>
        match x with
        | Sum.inl leaf => pure leaf
        | Sum.inr n2 => chainVal fuel qubits t n2.1 n2.2.1 n2.2.2 := rfl

/-- Unfolding the targeted, cacheless probability recursion one level. -/
theorem getProbs_step_target_nocache (fuel : Nat) (qubits : List Nat) (t : List Char)
    (c : Clifford) (o : List Char) (q : ℚ) (probs : List (String × ℚ)) :
    _get_probabilities (fuel + 1) c qubits o q probs (some t) none =
      resolveScan qubits o c q (some t) >>= fun r =>
        match r.2.2.2 with
        | none => pure (dictSet probs (String.mk r.1) r.2.2.1, none)
        | some b =>
            List.foldlM
              (fun (st : List (String × ℚ) × Option ProbabilityCache) bit => do
                let m ← _measure_and_update r.2.1 (qubits.getD (qubits.length - b - 1) 0) bit
                _get_probabilities fuel m.2 qubits (r.1.set b (if bit != 0 then '1' else '0'))
                  ((1 / 2 : ℚ) * r.2.2.1) st.1 (some t) st.2)
              (probs, none) [charDigit (t.getD b '0')] := rfl

/-- The targeted, cacheless recursion is the chain evaluation followed by a
single dictionary write of the completed pattern. -/
theorem getProbs_nocache_eq_chainVal (qubits : List Nat) (t : List Char) :
    ∀ (fuel : Nat) (c : Clifford) (o : List Char) (q : ℚ) (probs : List (String × ℚ)),
    _get_probabilities fuel c qubits o q probs (some t) none =
      chainVal fuel qubits t o c q >>= fun leaf =>
        pure (dictSet probs (String.mk leaf.1) leaf.2, none) := by
  intro fuel
  induction fuel with
  | zero =>
      intro c o q probs
      rfl
  | succ fuel ih =>
      intro c o q probs
      rw [getProbs_step_target_nocache fuel qubits t c o q probs,
        chainVal_succ fuel qubits t o c q,
        show chainStep qubits t o c q = resolveScan qubits o c q (some t) >>= fun r =>
          match r.2.2.2 with
          | none => pure (Sum.inl (r.1, r.2.2.1))
          | some b => (_measure_and_update r.2.1 (qubits.getD (qubits.length - b - 1) 0)
              (charDigit (t.getD b '0')) >>= fun m =>
              pure (Sum.inr (r.1.set b
                (if charDigit (t.getD b '0') != 0 then '1' else '0'),
                m.2, (1 / 2 : ℚ) * r.2.2.1)))
          from rfl]
      cases hscan : resolveScan qubits o c q (some t) with
      | error e =>
          simp only [hscan, errBind]
      | ok r =>
          obtain ⟨o1, c1, q1, b1⟩ := r
          simp only [hscan, okBind]
          cases b1 with
          | none => rfl
          | some bb =>
              show (List.foldlM
                  (fun (st : List (String × ℚ) × Option ProbabilityCache) bit => do
                    let m ← _measure_and_update c1
                      (qubits.getD (qubits.length - bb - 1) 0) bit
                    _get_probabilities fuel m.2 qubits
                      (o1.set bb (if bit != 0 then '1' else '0'))
                      ((1 / 2 : ℚ) * q1) st.1 (some t) st.2)
                  (probs, none) [charDigit (t.getD bb '0')]) =
                ((_measure_and_update c1 (qubits.getD (qubits.length - bb - 1) 0)
                    (charDigit (t.getD bb '0')) >>= fun m =>
                    pure (Sum.inr (o1.set bb
                      (if charDigit (t.getD bb '0') != 0 then '1' else '0'),
                      m.2, (1 / 2 : ℚ) * q1))) >>= fun x =>
                  (match x with
                  | Sum.inl leaf2 => (pure leaf2 : Except String (List Char × ℚ))
                  | Sum.inr n3 => chainVal fuel qubits t n3.1 n3.2.1 n3.2.2)) >>=
                  fun leaf => pure (dictSet probs (String.mk leaf.1) leaf.2, none)
              rw [foldlM_singleton_eq]
              cases hmu : _measure_and_update c1 (qubits.getD (qubits.length - bb - 1) 0)
                  (charDigit (t.getD bb '0')) with
              | error e =>
                  simp only [hmu, errBind]
              | ok m =>
                  simp only [hmu, okBind, pureOk]
                  rw [ih m.2 (o1.set bb (if charDigit (t.getD bb '0') != 0
                    then '1' else '0')) ((1 / 2 : ℚ) * q1) probs]
                  cases hcv : chainVal fuel qubits t
                      (o1.set bb (if charDigit (t.getD bb '0') != 0 then '1' else '0'))
                      m.2 ((1 / 2 : ℚ) * q1) with
                  | error e => simp only [hcv, errBind]
                  | ok leaf => simp only [hcv, okBind, pureOk]

/-- A successful dictionary lookup exhibits a member. -/
theorem dictFind_some_mem {α : Type} (ps : List (String × α)) (k : String) (v : α)
    (h : dictFind ps k = some v) : (k, v) ∈ ps := by
  unfold dictFind at h
  cases hf : ps.find? (fun p => p.1 == k) with
  | none =>
      rw [hf] at h
      exact Option.noConfusion h
  | some p =>
      rw [hf] at h
      have hp := List.find?_some hf
      have hmem : p ∈ ps := List.mem_of_find?_eq_some hf
      have hk : p.1 = k := eq_of_beq hp
      have h2 : some p.2 = some v := h
      have hv : p.2 = v := Option.some.inj h2
      rw [← hk, ← hv]
      rw [show (p.1, p.2) = p from rfl]
      exact hmem

/-- Members of a dictionary after an upsert: an old member or the new
pair. -/
theorem dictSet_mem {α : Type} (ps : List (String × α)) (k : String) (v : α)
    (kv : String × α) (h : kv ∈ dictSet ps k v) : kv ∈ ps ∨ kv = (k, v) := by
  unfold dictSet at h
  split at h
  · rw [List.mem_map] at h
    obtain ⟨p, hp, hpe⟩ := h
    by_cases hpk : (p.1 == k) = true
    · rw [if_pos hpk] at hpe
      exact Or.inr hpe.symm
    · rw [if_neg hpk] at hpe
      rw [← hpe]
      exact Or.inl hp
  · rw [List.mem_append] at h
    rcases h with h | h
    · exact Or.inl h
    · rw [List.mem_singleton] at h
      exact Or.inr h

/-- A positive snapshot test yields the snapshotted tableau. -/
theorem is_state_hit (ca : ProbabilityCache) (o : List Char)
    (h : ca.is_state_in_stabilizer_cache o = true) :
    ∃ s, dictFind ca.states (String.mk o) = some s ∧ ca.retrieve_state o = s := by
  unfold ProbabilityCache.is_state_in_stabilizer_cache at h
  cases hf : dictFind ca.states (String.mk o) with
  | none =>
      rw [hf] at h
      exact Bool.noConfusion h
  | some s =>
      refine ⟨s, rfl, ?_⟩
      unfold ProbabilityCache.retrieve_state
      rw [hf]
      rfl

/-- Inserting a snapshot touches only the snapshot store, by upsert. -/
theorem insert_state_mem (ca : ProbabilityCache) (o : List Char) (s : Clifford) :
    (∀ kv ∈ (ca.insert_state o s).states, kv ∈ ca.states ∨ kv = (String.mk o, s)) ∧
    (ca.insert_state o s).outcomes = ca.outcomes := by
  unfold ProbabilityCache.insert_state
  split
  · exact ⟨fun kv hkv => dictSet_mem ca.states (String.mk o) s kv hkv, rfl⟩
  · exact ⟨fun kv hkv => Or.inl hkv, rfl⟩

/-- Inserting a partial probability touches only that store, by upsert. -/
theorem insert_outcome_mem (ca : ProbabilityCache) (o : List Char) (q : ℚ) :
    (∀ kv ∈ (ca.insert_outcome o q).outcomes,
      kv ∈ ca.outcomes ∨ kv = (String.mk o, q)) ∧
    (ca.insert_outcome o q).states = ca.states := by
  unfold ProbabilityCache.insert_outcome
  split
  · exact ⟨fun kv hkv => dictSet_mem ca.outcomes (String.mk o) q kv hkv, rfl⟩
  · exact ⟨fun kv hkv => Or.inl hkv, rfl⟩

/-- Cache-entry consultation on a snapshot hit. -/
theorem cacheEntry_hit (c : Clifford) (o : List Char) (t : List Char)
    (ca : ProbabilityCache) (h : ca.is_state_in_stabilizer_cache o = true) :
    cacheEntry c o (some t) (some ca) = (ca.retrieve_state o, some ca) := by
  simp only [cacheEntry]
  rw [if_pos h]

/-- Cache-entry consultation on a snapshot miss. -/
theorem cacheEntry_miss (c : Clifford) (o : List Char) (t : List Char)
    (ca : ProbabilityCache) (h : ca.is_state_in_stabilizer_cache o = false) :
    cacheEntry c o (some t) (some ca) = (c, some (ca.insert_state o c)) := by
  simp only [cacheEntry]
  rw [if_neg (by rw [h]; exact Bool.false_ne_true)]

/-- Unfolding the targeted, cached probability recursion one level. -/
theorem getProbs_step_target_cached (fuel : Nat) (qubits : List Nat) (t : List Char)
    (c : Clifford) (o : List Char) (q : ℚ) (probs : List (String × ℚ))
    (ca : ProbabilityCache) :
    _get_probabilities (fuel + 1) c qubits o q probs (some t) (some ca) =
      resolveScan qubits o (cacheEntry c o (some t) (some ca)).1 q (some t) >>= fun r =>
        match r.2.2.2 with
        | none => pure (dictSet probs (String.mk r.1) r.2.2.1,
            cacheScan (some t) (cacheEntry c o (some t) (some ca)).2 r.1 r.2.2.1)
        | some b =>
            List.foldlM
              (fun (st : List (String × ℚ) × Option ProbabilityCache) bit => do
                let m ← _measure_and_update r.2.1 (qubits.getD (qubits.length - b - 1) 0) bit
                _get_probabilities fuel m.2 qubits (r.1.set b (if bit != 0 then '1' else '0'))
                  ((1 / 2 : ℚ) * r.2.2.1) st.1 (some t) st.2)
              (probs, cacheScan (some t) (cacheEntry c o (some t) (some ca)).2 r.1 r.2.2.1)
              [charDigit (t.getD b '0')] := rfl

/-- Digits of a chain walk from the all-undetermined root can be re-read
from any target that matches the reached pattern's resolved values. -/
theorem root_transfer (qubits : List Nat) (t t2 : List Char) (c : Clifford) (k : Nat)
    (n2 : List Char × Clifford × ℚ)
    (hr : ReachesN k qubits t (List.replicate qubits.length 'X', c, 1) n2)
    (hdig : ∀ i, i < qubits.length → n2.1.getD i ' ' ≠ 'X' →
      charDigit (t.getD i '0') = 0 ∨ charDigit (t.getD i '0') = 1)
    (hagvals : ∀ i, i < qubits.length → n2.1.getD i ' ' ≠ 'X' →
      n2.1.getD i ' ' = t2.getD i '0') :
    ReachesN k qubits t2 (List.replicate qubits.length 'X', c, 1) n2 := by
  refine ReachesN_transfer qubits t t2 k _ n2 hr ?_
  intro i hXroot hn2i
  have hiL : i < qubits.length := by
    by_contra hc
    rw [List.getD_eq_default _ ' '
      (by rw [List.length_replicate]; omega)] at hXroot
    exact absurd hXroot (by decide)
  have hval := (ReachesN_shape qubits t k _ n2 hr).2.2.2 i hXroot hn2i
  rw [← hagvals i hiL hn2i, hval, charDigit_digitChar _ (hdig i hiL hn2i)]

/-- Two nodes of one chain walk with the same entry pattern are the same
node. -/
theorem ReachesN_same_pattern (qubits : List Nat) (t : List Char) (k1 k2 : Nat)
    (n A B : List Char × Clifford × ℚ)
    (h1 : ReachesN k1 qubits t n A) (h2 : ReachesN k2 qubits t n B)
    (hAB : A.1 = B.1) : A = B := by
  rcases Nat.le_total k1 k2 with hle | hle
  · have hlin := ReachesN_linear qubits t k1 k2 n A B h1 h2 hle
    cases hd : k2 - k1 with
    | zero =>
        rw [hd] at hlin
        exact hlin
    | succ d =>
        rw [hd] at hlin
        have := ReachesN_cntX_lt qubits t d A B hlin
        rw [hAB] at this
        omega
  · have hlin := ReachesN_linear qubits t k2 k1 n B A h2 h1 hle
    cases hd : k1 - k2 with
    | zero =>
        rw [hd] at hlin
        exact hlin.symm
    | succ d =>
        rw [hd] at hlin
        have := ReachesN_cntX_lt qubits t d B A hlin
        rw [hAB] at this
        omega

/-- A key found in both cache stores pins down one chain node: the
snapshotted tableau and the cached probability are the entry tableau and
entry probability of the key-directed chain node whose pattern is the
key. -/
theorem cache_hit_node (qubits : List Nat) (p : List Char) (c : Clifford)
    (k1 k2 : Nat) (s : Clifford) (q2 v : ℚ) (n0 : List Char × Clifford × ℚ)
    (b2 : Option Nat)
    (h1 : ReachesN k1 qubits p (List.replicate qubits.length 'X', c, 1) (p, s, q2))
    (h2 : ReachesN k2 qubits p (List.replicate qubits.length 'X', c, 1) n0)
    (hscan : resolveScan qubits n0.1 n0.2.1 n0.2.2 (some p) =
      Except.ok (p, n0.2.1, v, b2)) :
    v = q2 ∧ n0 = (p, s, q2) := by
  obtain ⟨_, _, hshrink, _, _, _, _, hqeq⟩ :=
    resolveScan_target_facts qubits p n0.1 n0.2.1 n0.2.2 p n0.2.1 v b2 hscan
  have hcnt : cntX p qubits.length ≤ cntX n0.1 qubits.length :=
    cntX_le_of_shrink p n0.1 qubits.length hshrink
  rcases Nat.le_total k1 k2 with hle | hle
  · have hlin := ReachesN_linear qubits p k1 k2 _ (p, s, q2) n0 h1 h2 hle
    cases hd : k2 - k1 with
    | zero =>
        rw [hd] at hlin
        have hn0 : n0 = (p, s, q2) := hlin.symm
        have hveq : v = q2 := by
          have := hqeq (by rw [hn0])
          rw [hn0] at this
          exact this
        exact ⟨hveq, hn0⟩
    | succ d =>
        rw [hd] at hlin
        have hlt := ReachesN_cntX_lt qubits p d (p, s, q2) n0 hlin
        have hlt2 : cntX n0.1 qubits.length < cntX p qubits.length := hlt
        omega
  · have hlin := ReachesN_linear qubits p k2 k1 _ n0 (p, s, q2) h2 h1 hle
    cases hd : k1 - k2 with
    | zero =>
        rw [hd] at hlin
        have hn0 : n0 = (p, s, q2) := hlin
        have hveq : v = q2 := by
          have := hqeq (by rw [hn0])
          rw [hn0] at this
          exact this
        exact ⟨hveq, hn0⟩
    | succ d =>
        rw [hd] at hlin
        obtain ⟨m, hm, hrest⟩ := hlin
        rcases chainStep_cases qubits p n0.1 n0.2.1 n0.2.2 (Sum.inr m) hm with
          ⟨o1, q1, hscan2, heq⟩ | ⟨o1, q1, bb, mm, hscan2, hmu, heq⟩
        · exact Sum.noConfusion heq
        · have htup := Except.ok.inj (hscan2.symm.trans hscan)
          have ho1 : o1 = p := congrArg (fun x => x.1) htup
          have hbb : (some bb : Option Nat) = b2 :=
            congrArg (fun x => x.2.2.2) htup
          obtain ⟨_, _, _, _, _, _, hsome2, _⟩ :=
            resolveScan_target_facts qubits p n0.1 n0.2.1 n0.2.2 o1 n0.2.1 q1
              (some bb) hscan2
          obtain ⟨hXbb, _, hbbL⟩ := hsome2 bb rfl
          have hm1 : m.1 = o1.set bb (digitChar (charDigit (p.getD bb '0'))) := by
            rw [Sum.inr.inj heq]
          have hdrop : cntX m.1 qubits.length < cntX p qubits.length := by
            rw [hm1, ho1]
            refine cntX_set_lt p qubits.length bb _ hbbL ?_ (digitChar_ne_X _)
            rw [← ho1]
            exact hXbb
          have hle2 : cntX p qubits.length ≤ cntX m.1 qubits.length :=
            ReachesN_cntX_le qubits p d m (p, s, q2) hrest
          omega

/-- A `getD` returning a non-default value reads inside the list. -/
theorem lt_length_of_getD_ne {α : Type} (l : List α) (i : Nat) (d : α)
    (h : l.getD i d ≠ d) : i < l.length := by
  by_contra hc
  rw [List.getD_eq_default l d (by omega)] at h
  exact h rfl

/-- `digitChar` never produces a blank. -/
theorem digitChar_ne_blank (b : Nat) : digitChar b ≠ ' ' := by
  unfold digitChar
  split <;> decide

/-- Snapshot insertion preserves the cache invariant. -/
theorem cacheInv_insert_state (qubits : List Nat) (c : Clifford) (ca : ProbabilityCache)
    (hinv : cacheInv qubits c ca) (o : List Char) (s : Clifford) (k : Nat) (q2 : ℚ)
    (hwfp : wfPat o) (hlen : o.length = qubits.length)
    (hreach : ReachesN k qubits o (List.replicate qubits.length 'X', c, 1) (o, s, q2)) :
    cacheInv qubits c (ca.insert_state o s) := by
  obtain ⟨hs, ho⟩ := hinv
  constructor
  · intro kv hkv
    rcases (insert_state_mem ca o s).1 kv hkv with h | h
    · exact hs kv h
    · subst h
      exact ⟨o, k, q2, rfl, hwfp, hlen, hreach⟩
  · rw [(insert_state_mem ca o s).2]
    exact ho

/-- Partial-probability insertion preserves the cache invariant. -/
theorem cacheInv_insert_outcome (qubits : List Nat) (c : Clifford)
    (ca : ProbabilityCache) (hinv : cacheInv qubits c ca) (o1 : List Char) (q1 : ℚ)
    (k : Nat) (n0 : List Char × Clifford × ℚ) (b2 : Option Nat) (hwfp : wfPat o1)
    (hlen : o1.length = qubits.length)
    (hreach : ReachesN k qubits o1 (List.replicate qubits.length 'X', c, 1) n0)
    (hscan : resolveScan qubits n0.1 n0.2.1 n0.2.2 (some o1) =
      Except.ok (o1, n0.2.1, q1, b2)) :
    cacheInv qubits c (ca.insert_outcome o1 q1) := by
  obtain ⟨hs, ho⟩ := hinv
  constructor
  · rw [(insert_outcome_mem ca o1 q1).2]
    exact hs
  · intro kv hkv
    rcases (insert_outcome_mem ca o1 q1).1 kv hkv with h | h
    · exact ho kv h
    · subst h
      exact ⟨o1, k, n0, b2, rfl, hwfp, hlen, hreach, hscan⟩

/-- Unfolding the targeted, cached probability recursion one level, with the
entry consultation already resolved. -/
theorem getProbs_step_target_cached2 (fuel : Nat) (qubits : List Nat) (t : List Char)
    (c : Clifford) (o : List Char) (q : ℚ) (probs : List (String × ℚ))
    (ca : ProbabilityCache) (c1 : Clifford) (ca2 : ProbabilityCache)
    (hentry : cacheEntry c o (some t) (some ca) = (c1, some ca2)) :
    _get_probabilities (fuel + 1) c qubits o q probs (some t) (some ca) =
      resolveScan qubits o c1 q (some t) >>= fun r =>
        match r.2.2.2 with
        | none => pure (dictSet probs (String.mk r.1) r.2.2.1,
            some (ca2.insert_outcome r.1 r.2.2.1))
        | some b =>
            List.foldlM
              (fun (st : List (String × ℚ) × Option ProbabilityCache) bit => do
                let m ← _measure_and_update r.2.1 (qubits.getD (qubits.length - b - 1) 0) bit
                _get_probabilities fuel m.2 qubits (r.1.set b (if bit != 0 then '1' else '0'))
                  ((1 / 2 : ℚ) * r.2.2.1) st.1 (some t) st.2)
              (probs, some (ca2.insert_outcome r.1 r.2.2.1))
              [charDigit (t.getD b '0')] := by
  rw [getProbs_step_target_cached fuel qubits t c o q probs ca, hentry]
  rfl

/-- The targeted, cached recursion started at a chain node of its target,
under the cache invariant: it returns the same single dictionary write as
the chain evaluation and preserves the invariant. -/
theorem getProbs_cached_run (qubits : List Nat) (t : List Char) (nq : Nat) (c : Clifford)
    (hqs : ∀ qb ∈ qubits, qb < nq) (hwt : wfTarget qubits.length t)
    (hvc : Valid c) (hnc : c.num_qubits = nq) :
    ∀ (fuel : Nat) (o : List Char) (c1 : Clifford) (q : ℚ) (k : Nat)
      (probs : List (String × ℚ)) (ca : ProbabilityCache),
    ReachesN k qubits t (List.replicate qubits.length 'X', c, 1) (o, c1, q) →
    cntX o qubits.length < fuel →
    cacheInv qubits c ca →
    ∃ v ca4, _get_probabilities fuel c1 qubits o q probs (some t) (some ca) =
        Except.ok (dictSet probs (String.mk t) v, some ca4) ∧
      cacheInv qubits c ca4 ∧
      chainVal fuel qubits t o c1 q = Except.ok (t, v) := by
  have hdigt : ∀ i, i < qubits.length →
      charDigit (t.getD i '0') = 0 ∨ charDigit (t.getD i '0') = 1 := by
    intro i hiL
    have hit : i < t.length := by rw [hwt.1]; exact hiL
    rcases hwt.2 _ (getD_mem_of_lt t i '0' hit) with h | h
    · rw [h]
      exact Or.inl rfl
    · rw [h]
      exact Or.inr rfl
  have hrepl : ∀ i, i < qubits.length →
      (List.replicate qubits.length 'X').getD i ' ' = 'X' := by
    intro i hi
    rw [getD_irrel _ i ' ' 'X' (by rw [List.length_replicate]; exact hi),
      getD_replicate_self]
  intro fuel
  induction fuel with
  | zero =>
      intro o c1 q k probs ca _ hcnt _
      omega
  | succ fuel ih =>
      intro o c1 q k probs ca hreach hcnt hinv
      obtain ⟨hv1, hn1, hlen1, hcompat1⟩ :=
        ReachesN_wf qubits t nq hqs hwt k _ (o, c1, q) hreach hvc hnc
          (List.length_replicate _ _) (fun i hi hne => absurd (hrepl i hi) hne)
      have hreachO : ReachesN k qubits o
          (List.replicate qubits.length 'X', c, 1) (o, c1, q) := by
        refine root_transfer qubits t o c k (o, c1, q) hreach
          (fun i hiL _ => hdigt i hiL) ?_
        intro i hiL hne
        rw [getD_irrel o i '0' ' ' (by rw [hlen1]; exact hiL)]
      have hwfpo : wfPat o :=
        ReachesN_wfPat qubits t k _ (o, c1, q) hreach
          (fun i hi => Or.inl (hrepl i (by rw [List.length_replicate] at hi; exact hi)))
      obtain ⟨ca2, hentry, hinv2⟩ :
          ∃ ca2, cacheEntry c1 o (some t) (some ca) = (c1, some ca2) ∧
            cacheInv qubits c ca2 := by
        by_cases hhit : ca.is_state_in_stabilizer_cache o = true
        · obtain ⟨s, hfind, hret⟩ := is_state_hit ca o hhit
          obtain ⟨p, k1, q2, hkey, _, _, hreachP⟩ :=
            hinv.1 (String.mk o, s) (dictFind_some_mem _ _ _ hfind)
          have hop : o = p := congrArg String.data hkey
          subst hop
          have hsame := ReachesN_same_pattern qubits o k1 k _ (o, s, q2) (o, c1, q)
            hreachP hreachO rfl
          have hs2 : s = c1 := congrArg (fun x : List Char × Clifford × ℚ => x.2.1) hsame
          refine ⟨ca, ?_, hinv⟩
          rw [cacheEntry_hit c1 o t ca hhit, hret, hs2]
        · refine ⟨ca.insert_state o c1,
            cacheEntry_miss c1 o t ca (eq_false_of_ne_true hhit),
            cacheInv_insert_state qubits c ca hinv o c1 k q hwfpo hlen1 hreachO⟩
      obtain ⟨o1, q1, b1, hscan⟩ := resolveScan_target_ok qubits t o c1 q hv1
      obtain ⟨_, hpres, hshrink, hlenS, hwv, hnone, hsome, _⟩ :=
        resolveScan_target_facts qubits t o c1 q o1 c1 q1 b1 hscan
      have hlen1S : o1.length = qubits.length := by rw [hlenS]; exact hlen1
      have hwfpo1 : wfPat o1 := by
        intro i hi
        by_cases hX1 : o1.getD i ' ' = 'X'
        · exact Or.inl hX1
        · by_cases hXo : o.getD i ' ' = 'X'
          · rw [hwv i hXo hX1]
            unfold digitChar
            split
            · exact Or.inr (Or.inr rfl)
            · exact Or.inr (Or.inl rfl)
          · rw [hpres i hXo]
            rcases hwfpo i (by rw [hlen1, ← hlen1S]; exact hi) with h | h | h
            · exact absurd h hXo
            · exact Or.inr (Or.inl h)
            · exact Or.inr (Or.inr h)
      have hcompatO1 : ∀ i, i < qubits.length → o1.getD i ' ' ≠ 'X' →
          o1.getD i ' ' = t.getD i '0' := by
        intro i hiL hne
        by_cases hXo : o.getD i ' ' = 'X'
        · rw [hwv i hXo hne]
          refine digitChar_charDigit _ ?_
          have hit : i < t.length := by rw [hwt.1]; exact hiL
          exact hwt.2 _ (getD_mem_of_lt t i '0' hit)
        · rw [hpres i hXo]
          exact hcompat1 i hiL hXo
      have hreachO1 : ReachesN k qubits o1
          (List.replicate qubits.length 'X', c, 1) (o, c1, q) := by
        refine root_transfer qubits t o1 c k (o, c1, q) hreach
          (fun i hiL _ => hdigt i hiL) ?_
        intro i hiL hne
        rw [getD_irrel o1 i '0' ' ' (by rw [hlen1S]; exact hiL), hpres i hne]
      have hscanO1 : resolveScan qubits o c1 q (some o1) =
          Except.ok (o1, c1, q1, b1) := by
        refine resolveScan_agree qubits t o1 o c1 q (o1, c1, q1, b1) hscan ?_
        intro i hXi hni
        have hiL : i < qubits.length := by
          rw [← hlen1]
          exact lt_length_of_getD_X o i hXi
        have hval := hwv i hXi hni
        rw [getD_irrel o1 i '0' ' ' (by rw [hlen1S]; exact hiL), hval,
          charDigit_digitChar _ (hdigt i hiL)]
      have hinv3 : cacheInv qubits c (ca2.insert_outcome o1 q1) :=
        cacheInv_insert_outcome qubits c ca2 hinv2 o1 q1 k (o, c1, q) b1 hwfpo1
          hlen1S hreachO1 hscanO1
      rw [getProbs_step_target_cached2 fuel qubits t c1 o q probs ca c1 ca2 hentry,
        hscan]
      simp only [okBind]
      cases b1 with
      | none =>
          have hot : o1 = t := by
            refine list_eq_of_getD o1 t '0' (by rw [hlen1S, hwt.1]) ?_
            intro i hi
            have hiL : i < qubits.length := by rw [← hlen1S]; exact hi
            have hne : o1.getD i ' ' ≠ 'X' := hnone rfl i hiL
            rw [getD_irrel o1 i '0' ' ' hi]
            exact hcompatO1 i hiL hne
          refine ⟨q1, ca2.insert_outcome o1 q1, ?_, hinv3, ?_⟩
          · rw [hot]
            rfl
          · have hcsl : chainStep qubits t o c1 q = Except.ok (Sum.inl (o1, q1)) := by
              unfold chainStep
              rw [hscan, okBind]
              rfl
            rw [hot] at hcsl
            exact chainVal_leaf fuel qubits t o c1 q (t, q1) hcsl
      | some bb =>
          obtain ⟨hXbb, hdetF, hbbL⟩ := hsome bb rfl
          have hz : zAnticommuting c1 (qubits.getD (qubits.length - bb - 1) 0) = true := by
            rw [is_det_iff] at hdetF
            cases hzz : zAnticommuting c1 (qubits.getD (qubits.length - bb - 1) 0)
            · rw [hzz] at hdetF
              exact absurd hdetF (by decide)
            · rfl
          have hqb : qubits.getD (qubits.length - bb - 1) 0 < c1.num_qubits := by
            have : c1.num_qubits = nq := hn1
            rw [this]
            exact hqs _ (getD_mem_of_lt qubits (qubits.length - bb - 1) 0 (by omega))
          obtain ⟨c2, hmu, hv2, hn2⟩ := measure_nondet_ok c1
            (qubits.getD (qubits.length - bb - 1) 0) (charDigit (t.getD bb '0')) hv1 hqb hz
          have hcs : chainStep qubits t o c1 q = Except.ok (Sum.inr
              (o1.set bb (digitChar (charDigit (t.getD bb '0'))), c2,
              (1 / 2 : ℚ) * q1)) := by
            unfold chainStep
            rw [hscan, okBind]
            have hgoal : (_measure_and_update c1 (qubits.getD (qubits.length - bb - 1) 0)
                (charDigit (t.getD bb '0')) >>= fun m =>
                (pure (Sum.inr (o1.set bb
                  (if charDigit (t.getD bb '0') != 0 then '1' else '0'), m.2,
                  (1 / 2 : ℚ) * q1)) :
                  Except String ((List Char × ℚ) ⊕ (List Char × Clifford × ℚ)))) =
                Except.ok (Sum.inr (o1.set bb (digitChar (charDigit (t.getD bb '0'))),
                  c2, (1 / 2 : ℚ) * q1)) := by
              rw [hmu, okBind, pureOk]
              rfl
            exact hgoal
          have hreach2 : ReachesN (k + 1) qubits t
              (List.replicate qubits.length 'X', c, 1)
              (o1.set bb (digitChar (charDigit (t.getD bb '0'))), c2,
                (1 / 2 : ℚ) * q1) :=
            ReachesN_snoc qubits t k _ (o, c1, q) _ hreach hcs
          have hcnt2 : cntX (o1.set bb (digitChar (charDigit (t.getD bb '0'))))
              qubits.length < fuel := by
            have h1 : cntX (o1.set bb (digitChar (charDigit (t.getD bb '0'))))
                qubits.length < cntX o1 qubits.length :=
              cntX_set_lt o1 qubits.length bb _ hbbL hXbb (digitChar_ne_X _)
            have h2 : cntX o1 qubits.length ≤ cntX o qubits.length :=
              cntX_le_of_shrink o1 o qubits.length hshrink
            omega
          obtain ⟨v, ca4, hrec, hinv4, hcv⟩ := ih
            (o1.set bb (digitChar (charDigit (t.getD bb '0')))) c2
            ((1 / 2 : ℚ) * q1) (k + 1) probs (ca2.insert_outcome o1 q1)
            hreach2 hcnt2 hinv3
          refine ⟨v, ca4, ?_, hinv4, ?_⟩
          · show (List.foldlM
                (fun (st : List (String × ℚ) × Option ProbabilityCache) bit => do
                  let m ← _measure_and_update c1
                    (qubits.getD (qubits.length - bb - 1) 0) bit
                  _get_probabilities fuel m.2 qubits
                    (o1.set bb (if bit != 0 then '1' else '0'))
                    ((1 / 2 : ℚ) * q1) st.1 (some t) st.2)
                (probs, some (ca2.insert_outcome o1 q1))
                [charDigit (t.getD bb '0')]) =
              Except.ok (dictSet probs (String.mk t) v, some ca4)
            rw [foldlM_singleton_eq]
            have hstep1 : (do
                let m ← _measure_and_update c1 (qubits.getD (qubits.length - bb - 1) 0)
                  (charDigit (t.getD bb '0'))
                _get_probabilities fuel m.2 qubits
                  (o1.set bb (if charDigit (t.getD bb '0') != 0 then '1' else '0'))
                  ((1 / 2 : ℚ) * q1) probs (some t)
                  (some (ca2.insert_outcome o1 q1))) =
                Except.ok (dictSet probs (String.mk t) v, some ca4) := by
              rw [hmu, okBind]
              exact hrec
            show ((do
                let m ← _measure_and_update c1 (qubits.getD (qubits.length - bb - 1) 0)
                  (charDigit (t.getD bb '0'))
                _get_probabilities fuel m.2 qubits
                  (o1.set bb (if charDigit (t.getD bb '0') != 0 then '1' else '0'))
                  ((1 / 2 : ℚ) * q1) probs (some t)
                  (some (ca2.insert_outcome o1 q1))) >>= fun s => pure s) =
              Except.ok (dictSet probs (String.mk t) v, some ca4)
            rw [hstep1]
            rfl
          · rw [chainVal_step fuel qubits t o c1 q _ hcs]
            exact hcv

/-- At most every position is undetermined. -/
theorem cntX_le_len (o : List Char) (L : Nat) : cntX o L ≤ L := by
  unfold cntX
  calc nsum L (fun i => if o.getD i ' ' = 'X' then 1 else 0)
      ≤ nsum L (fun _ => 1) := nsum_le _ _ _ (fun j _ => by split <;> omega)
    _ = L := nsum_const_one L

/-- The resumption candidate pattern: undetermined below the level, the
target's characters from the level on, with the target's length. -/
theorem candidateKey_facts (t : List Char) (level : Nat) (hlev : level ≤ t.length) :
    (candidateKey t level).length = t.length ∧
    (∀ i, i < level → (candidateKey t level).getD i ' ' = 'X') ∧
    (∀ i, level ≤ i → i < t.length →
      (candidateKey t level).getD i ' ' = t.getD i ' ') := by
  refine ⟨?_, ?_, ?_⟩
  · unfold candidateKey
    rw [List.length_append, List.length_replicate, List.length_drop]
    omega
  · intro i hi
    unfold candidateKey
    have hrep : i < (List.replicate level 'X').length := by
      rw [List.length_replicate]
      exact hi
    rw [show (List.replicate level 'X' ++ t.drop level).getD i ' ' =
        (List.replicate level 'X').getD i ' ' by
      simp [List.getD_eq_getElem?_getD, List.getElem?_append, List.length_replicate, hi]]
    rw [getD_irrel _ i ' ' 'X' hrep, getD_replicate_self]
  · intro i hi1 hi2
    unfold candidateKey
    have hrep : (List.replicate level 'X').length ≤ i := by
      rw [List.length_replicate]
      exact hi1
    rw [show (List.replicate level 'X' ++ t.drop level).getD i ' ' =
        (t.drop level).getD (i - level) ' ' by
      simp [List.getD_eq_getElem?_getD, List.getElem?_append, List.length_replicate,
        Nat.not_lt_of_le hi1]]
    rw [show (t.drop level).getD (i - level) ' ' = t.getD (level + (i - level)) ' ' by
      simp [List.getD_eq_getElem?_getD, List.getElem?_drop]]
    rw [show level + (i - level) = i by omega]

/-- A successful resumption lookup names a both-store candidate key. -/
theorem lookup_some (ca : ProbabilityCache) (t : List Char) (key : List Char)
    (h : ca.retreive_key_for_most_completed_branch_to_target t = some key) :
    ∃ level, key = candidateKey t level ∧ 1 ≤ level ∧ level ≤ t.length ∧
      (∃ v, dictFind ca.outcomes (String.mk key) = some v) ∧
      (∃ s, dictFind ca.states (String.mk key) = some s) := by
  unfold ProbabilityCache.retreive_key_for_most_completed_branch_to_target at h
  cases hf : (List.range' 1 (t.length - 1)).find?
      (fun level =>
        (dictFind ca.outcomes (String.mk (candidateKey t level))).isSome &&
        (dictFind ca.states (String.mk (candidateKey t level))).isSome) with
  | none =>
      rw [hf] at h
      exact Option.noConfusion h
  | some level =>
      rw [hf] at h
      have hkey : candidateKey t level = key := Option.some.inj h
      have hp := List.find?_some hf
      have hmem : level ∈ List.range' 1 (t.length - 1) := List.mem_of_find?_eq_some hf
      have hbounds := List.mem_range'.mp hmem
      obtain ⟨i0, hi0, hi1⟩ := hbounds
      have hO : (dictFind ca.outcomes (String.mk (candidateKey t level))).isSome = true ∧
          (dictFind ca.states (String.mk (candidateKey t level))).isSome = true :=
        Bool.and_eq_true_iff.mp hp
      refine ⟨level, hkey.symm, by omega, by omega, ?_, ?_⟩
      · obtain ⟨v, hv⟩ := Option.isSome_iff_exists.mp hO.1
        exact ⟨v, by rw [← hkey]; exact hv⟩
      · obtain ⟨s, hs⟩ := Option.isSome_iff_exists.mp hO.2
        exact ⟨s, by rw [← hkey]; exact hs⟩

/-- When the entry pattern is snapshotted, the passed-in tableau is
irrelevant: the recursion resumes from the snapshot either way. -/
theorem getProbs_entry_irrel (fuel : Nat) (qubits : List Nat) (t : List Char)
    (o : List Char) (q : ℚ) (probs : List (String × ℚ)) (ca : ProbabilityCache)
    (c c2 : Clifford) (hhit : ca.is_state_in_stabilizer_cache o = true) :
    _get_probabilities (fuel + 1) c qubits o q probs (some t) (some ca) =
      _get_probabilities (fuel + 1) c2 qubits o q probs (some t) (some ca) := by
  rw [getProbs_step_target_cached fuel qubits t c o q probs ca,
    getProbs_step_target_cached fuel qubits t c2 o q probs ca,
    cacheEntry_hit c o t ca hhit, cacheEntry_hit c2 o t ca hhit]

/-- One per-target iteration: with or without the cache, the iteration
writes the same single entry for the target, and the cache invariant is
preserved. -/
theorem targetIteration_eq (qubits : List Nat) (nq : Nat) (c : Clifford)
    (hqs : ∀ qb ∈ qubits, qb < nq) (hvc : Valid c) (hnc : c.num_qubits = nq)
    (t : List Char) (hwt : wfTarget qubits.length t)
    (probs : List (String × ℚ)) (ca : ProbabilityCache)
    (hinv : cacheInv qubits c ca) :
    ∃ v ca4, targetIteration c qubits (probs, some ca) (some t) =
        Except.ok (dictSet probs (String.mk t) v, some ca4) ∧
      cacheInv qubits c ca4 ∧
      targetIteration c qubits (probs, none) (some t) =
        Except.ok (dictSet probs (String.mk t) v, none) := by
  have hrootcompat : ∀ i, i < qubits.length →
      (List.replicate qubits.length 'X').getD i ' ' ≠ 'X' →
      (List.replicate qubits.length 'X').getD i ' ' = t.getD i '0' := by
    intro i hi hne
    exfalso
    apply hne
    rw [getD_irrel _ i ' ' 'X' (by rw [List.length_replicate]; exact hi),
      getD_replicate_self]
  obtain ⟨vU, hvU⟩ := chainVal_total qubits t nq hqs hwt (qubits.length + 1)
    (List.replicate qubits.length 'X') c 1 hvc hnc (List.length_replicate _ _)
    hrootcompat (by have := cntX_le_len (List.replicate qubits.length 'X') qubits.length; omega)
  have huncached : targetIteration c qubits (probs, none) (some t) =
      Except.ok (dictSet probs (String.mk t) vU, none) := by
    show _get_probabilities (qubits.length + 1) c qubits
        (List.replicate qubits.length 'X') 1 probs (some t) none = _
    rw [getProbs_nocache_eq_chainVal qubits t (qubits.length + 1) c
      (List.replicate qubits.length 'X') 1 probs, hvU]
    rfl
  cases hlk : ca.retreive_key_for_most_completed_branch_to_target t with
  | none =>
      obtain ⟨v, ca4, hrun, hinv4, hcv⟩ := getProbs_cached_run qubits t nq c hqs hwt hvc
        hnc (qubits.length + 1) (List.replicate qubits.length 'X') c 1 0 probs ca rfl
        (by have := cntX_le_len (List.replicate qubits.length 'X') qubits.length; omega)
        hinv
      have hveq : vU = v := by
        have h2 := Except.ok.inj (hvU.symm.trans hcv)
        exact congrArg Prod.snd h2
      refine ⟨v, ca4, ?_, hinv4, by rw [hveq] at huncached; exact huncached⟩
      simp only [targetIteration]
      rw [hlk]
      exact hrun
  | some key =>
      obtain ⟨level, hkeyEq, hlev1, hlev2, ⟨v0, hfindO⟩, ⟨s, hfindS⟩⟩ :=
        lookup_some ca t key hlk
      obtain ⟨pO, k2, n0, b2, hkO, hwfpO, hplenO, hreach2, hscan2⟩ :=
        hinv.2 (String.mk key, v0) (dictFind_some_mem _ _ _ hfindO)
      have hpOk : key = pO := congrArg String.data hkO
      subst hpOk
      obtain ⟨pS, k1, q2, hkS, hwfpS, hplenS, hreach1⟩ :=
        hinv.1 (String.mk key, s) (dictFind_some_mem _ _ _ hfindS)
      have hpSk : key = pS := congrArg String.data hkS
      subst hpSk
      obtain ⟨hv0q2, hn0⟩ := cache_hit_node qubits key c k1 k2 s q2 v0 n0 b2
        hreach1 hreach2 hscan2
      have hro : ca.retrieve_outcome (String.mk key) = v0 := by
        unfold ProbabilityCache.retrieve_outcome
        rw [hfindO]
        rfl
      have hkcand := candidateKey_facts t level (by omega)
      have hreachT : ReachesN k1 qubits t
          (List.replicate qubits.length 'X', c, 1) (key, s, q2) := by
        refine root_transfer qubits key t c k1 (key, s, q2) hreach1 ?_ ?_
        · intro i hiL hne
          rcases hwfpS i (by rw [hplenS]; exact hiL) with h | h | h
          · exact absurd h hne
          · rw [getD_irrel key i '0' ' ' (by rw [hplenS]; exact hiL), h]
            exact Or.inl rfl
          · rw [getD_irrel key i '0' ' ' (by rw [hplenS]; exact hiL), h]
            exact Or.inr rfl
        · intro i hiL hne
          rcases Nat.lt_or_ge i level with hil | hil
          · exfalso
            apply hne
            rw [hkeyEq]
            exact hkcand.2.1 i hil
          · have hit : i < t.length := by rw [hwt.1]; exact hiL
            rw [hkeyEq, hkcand.2.2 i hil hit, getD_irrel t i ' ' '0' hit]
      rw [← hv0q2] at hreachT
      have hhit : ca.is_state_in_stabilizer_cache key = true := by
        unfold ProbabilityCache.is_state_in_stabilizer_cache
        rw [hfindS]
        rfl
      obtain ⟨v, ca4, hrun, hinv4, hcv⟩ := getProbs_cached_run qubits t nq c hqs hwt hvc
        hnc (qubits.length + 1) key s v0 k1 probs ca hreachT
        (by have := cntX_le_len key qubits.length; omega) hinv
      have hveq : vU = v := by
        have hcomp := chainVal_reach qubits t k1
          (List.replicate qubits.length 'X', c, 1) (key, s, v0)
          (qubits.length + 1) hreachT
        have hbig : chainVal (k1 + (qubits.length + 1)) qubits t
            (List.replicate qubits.length 'X') c 1 = Except.ok (t, v) := by
          rw [hcomp]
          exact hcv
        have hbig2 : chainVal (k1 + (qubits.length + 1)) qubits t
            (List.replicate qubits.length 'X') c 1 = Except.ok (t, vU) :=
          chainVal_mono qubits t (qubits.length + 1) _ c 1 (t, vU) _ hvU (by omega)
        exact congrArg Prod.snd (Except.ok.inj (hbig2.symm.trans hbig))
      refine ⟨v, ca4, ?_, hinv4, by rw [hveq] at huncached; exact huncached⟩
      simp only [targetIteration]
      rw [hlk]
      show _get_probabilities (qubits.length + 1) c qubits key
          (ca.retrieve_outcome (String.mk key)) probs (some t) (some ca) = _
      rw [hro, getProbs_entry_irrel qubits.length qubits t key v0 probs ca c s hhit]
      exact hrun

/-- The per-target fold produces the same probability map with and without
the cache. -/
theorem foldTargets_eq (qubits : List Nat) (nq : Nat) (c : Clifford)
    (hqs : ∀ qb ∈ qubits, qb < nq) (hvc : Valid c) (hnc : c.num_qubits = nq) :
    ∀ (items : List (Option (List Char))),
    (∀ it ∈ items, ∃ t, it = some t ∧ wfTarget qubits.length t) →
    ∀ (probs : List (String × ℚ)) (ca : ProbabilityCache), cacheInv qubits c ca →
    ∃ P, (∃ caF, List.foldlM (targetIteration c qubits) (probs, some ca) items =
        Except.ok (P, some caF)) ∧
      List.foldlM (targetIteration c qubits) (probs, none) items =
        Except.ok (P, none) := by
  intro items
  induction items with
  | nil =>
      intro _ probs ca _
      exact ⟨probs, ⟨ca, rfl⟩, rfl⟩
  | cons it items ih =>
      intro hall probs ca hinv
      obtain ⟨t, hit, hwt⟩ := hall it (List.mem_cons_self it items)
      subst hit
      obtain ⟨v, ca4, hc, hinv4, hu⟩ :=
        targetIteration_eq qubits nq c hqs hvc hnc t hwt probs ca hinv
      obtain ⟨P, ⟨caF, hcf⟩, huf⟩ :=
        ih (fun it2 hit2 => hall it2 (List.mem_cons_of_mem _ hit2))
          (dictSet probs (String.mk t) v) ca4 hinv4
      refine ⟨P, ⟨caF, ?_⟩, ?_⟩
      · rw [List.foldlM_cons (targetIteration c qubits) (probs, some ca) (some t) items,
          hc, okBind]
        exact hcf
      · rw [List.foldlM_cons (targetIteration c qubits) (probs, none) (some t) items,
          hu, okBind]
        exact huf

/-- Unfolding `probabilities_dict_from_bitstrings` to its per-target
fold. -/
theorem pdfb_eq (c : Clifford) (qargs : Option (List Nat)) (d : Option Int)
    (target : TargetArg) (u : Bool) :
    probabilities_dict_from_bitstrings c qargs d target u =
      (List.foldlM (targetIteration c (qargs.getD (List.range c.num_qubits)))
        ([], if effectiveUseCaching target u then some ⟨[], []⟩ else none)
        (normalizeTargets target)) >>= fun r => pure (_round_decimals r.1 d) := rfl

/-- Caching is a no-op when it is not effectively enabled. -/
theorem effectiveUseCaching_false (target : TargetArg) :
    effectiveUseCaching target false = false := by
  unfold effectiveUseCaching
  exact Bool.and_false _

/-- C6: over the same valid state, in-range subsystems and well-formed
target set, `probabilities_dict_from_bitstrings` returns the same map with
`use_caching` on and off (for a list of targets, a single target and no
target), and caching is effectively enabled exactly when more than one
target string is requested together with the flag. -/
theorem C6_caching_equivalence :
    (∀ (c : Clifford) (qargs : Option (List Nat)) (decimals : Option Int)
        (ts : List (List Char)),
      Valid c →
      (∀ qb ∈ qargs.getD (List.range c.num_qubits), qb < c.num_qubits) →
      (∀ t ∈ ts, t.length = (qargs.getD (List.range c.num_qubits)).length ∧
        ∀ ch ∈ t, ch = '0' ∨ ch = '1') →
      probabilities_dict_from_bitstrings c qargs decimals (TargetArg.many ts) true =
        probabilities_dict_from_bitstrings c qargs decimals (TargetArg.many ts) false) ∧
    (∀ (c : Clifford) (qargs : Option (List Nat)) (decimals : Option Int)
        (t : List Char),
      probabilities_dict_from_bitstrings c qargs decimals (TargetArg.one t) true =
        probabilities_dict_from_bitstrings c qargs decimals (TargetArg.one t) false) ∧
    (∀ (c : Clifford) (qargs : Option (List Nat)) (decimals : Option Int),
      probabilities_dict_from_bitstrings c qargs decimals TargetArg.noTarget true =
        probabilities_dict_from_bitstrings c qargs decimals TargetArg.noTarget false) ∧
    (∀ (target : TargetArg) (u : Bool),
      effectiveUseCaching target u = true ↔
        1 < (normalizeTargets target).length ∧ u = true) := by
  refine ⟨?_, ?_, ?_, ?_⟩
  · intro c qargs decimals ts hv hqs hts
    by_cases hen : effectiveUseCaching (TargetArg.many ts) true = true
    · rw [pdfb_eq c qargs decimals (TargetArg.many ts) true,
        pdfb_eq c qargs decimals (TargetArg.many ts) false,
        effectiveUseCaching_false (TargetArg.many ts), hen]
      have hinv0 : cacheInv (qargs.getD (List.range c.num_qubits)) c ⟨[], []⟩ :=
        ⟨fun kv hkv => absurd hkv (List.not_mem_nil kv),
          fun kv hkv => absurd hkv (List.not_mem_nil kv)⟩
      have hall : ∀ it ∈ normalizeTargets (TargetArg.many ts), ∃ t, it = some t ∧
          wfTarget (qargs.getD (List.range c.num_qubits)).length t := by
        intro it hit
        rw [show normalizeTargets (TargetArg.many ts) = ts.map some from rfl,
          List.mem_map] at hit
        obtain ⟨t, hmem, heq⟩ := hit
        exact ⟨t, heq.symm, (hts t hmem).1, (hts t hmem).2⟩
      obtain ⟨P, ⟨caF, hcf⟩, huf⟩ := foldTargets_eq
        (qargs.getD (List.range c.num_qubits)) c.num_qubits c hqs hv rfl
        (normalizeTargets (TargetArg.many ts)) hall [] ⟨[], []⟩ hinv0
      rw [show (if (true : Bool) = true then some (⟨[], []⟩ : ProbabilityCache)
          else none) = some ⟨[], []⟩ from rfl,
        show (if (false : Bool) = true then some (⟨[], []⟩ : ProbabilityCache)
          else none) = none from rfl, hcf, huf]
      rfl
    · rw [pdfb_eq c qargs decimals (TargetArg.many ts) true,
        pdfb_eq c qargs decimals (TargetArg.many ts) false,
        effectiveUseCaching_false (TargetArg.many ts),
        eq_false_of_ne_true hen]
  · intro c qargs decimals t
    rfl
  · intro c qargs decimals
    rfl
  · intro target u
    unfold effectiveUseCaching
    rw [Bool.and_eq_true]
    constructor
    · intro ⟨h1, h2⟩
      exact ⟨of_decide_eq_true h1, h2⟩
    · intro ⟨h1, h2⟩
      exact ⟨decide_eq_true h1, h2⟩

/-- C6 witness: the Bell state with the two-target set `00`, `11`. -/
theorem C6_witness :
    Valid cBell ∧
    (∀ qb ∈ (none : Option (List Nat)).getD (List.range cBell.num_qubits),
      qb < cBell.num_qubits) ∧
    (∀ t ∈ [['0','0'], ['1','1']],
      t.length = ((none : Option (List Nat)).getD (List.range cBell.num_qubits)).length ∧
      ∀ ch ∈ t, ch = '0' ∨ ch = '1') ∧
    probabilities_dict_from_bitstrings cBell none none
        (TargetArg.many [['0','0'], ['1','1']]) true =
      probabilities_dict_from_bitstrings cBell none none
        (TargetArg.many [['0','0'], ['1','1']]) false :=
  ⟨by unfold Valid; decide, by decide, by decide,
    C6_caching_equivalence.1 cBell none none [['0','0'], ['1','1']]
      (by unfold Valid; decide) (by decide) (by decide)⟩

end QiskitStab
